import Mathlib

/-! # Bayesian hierarchical clustering: merge driver and robust time-course evidence

A shallow embedding of `bayeslink_binf` (multinomial_bayeslink_binf.cpp) and of
`SingleClusterLogEvidence` / `ComputeRobustLogEvidence`
(RobustSquaredExponentialTimecourseDataSet.cpp), followed by theorems about them.

Numbers of C type `double` are modelled by an ordered ring or field `R` (exact
arithmetic); `log`, `exp`, `fast_gammaln` and the evidence routines that live in
other translation units are parameters of the embedding.
-/

namespace BHC

/-! ## Data model -/

/-- Modelled from the spec: the `NODE` record, declared in multinomial_header.h, which
is not among the sources at hand.  Its fields are exactly those `bayeslink_binf`
reads or writes; the variable-length tables `wt`, `num1`, `num2`, `dat` are total
functions of their indices. -/
structure NODE (R : Type) where
  pleft : Int
  pright : Int
  flag : Int
  vec_no : Int
  nk : R
  ck : R
  den : R
  wt : Nat → R
  num1 : Nat → R
  num2 : Nat → R
  dat : Nat → Nat → R

/-- The node array `tr_node`: memory is unbounded towards positive indices. -/
abbrev Nodes (R : Type) := Nat → NODE R

/-- Functions the two translation units call but do not define: the C library `log`
and `exp`, the cached log-Gamma `fast_gammaln`, and the multinomial routines
`CalculateHyperparameters` and `binevidence`, with their C argument order.  `H` is
the type of the hyperparameter table. -/
structure Externals (R : Type) (H : Type) where
  log : R → R
  exp : R → R
  fast_gammaln : R → R
  CalculateHyperparameters : Nodes R → Nat → Nat → Nat → R → H
  binevidence : Nodes R → Nat → H → Nat → Int → Nat → R

/-- The C loop `for (i = lo; i < lo + n; i++) s = body i s`. -/
def forLoop {σ : Type} (body : Nat → σ → σ) : Nat → Nat → σ → σ
  | _, 0, s => s
  | i, n + 1, s => forLoop body (i + 1) n (body i s)

section Driver

variable {R : Type} [LinearOrderedRing R] {H : Type}

/-- The assignment `tr_node[i] = v`. -/
def setNode (t : Nodes R) (i : Nat) (v : NODE R) : Nodes R :=
  Function.update t i v

/-- The idiom `a = max(x,y); b = min(x,y); a + log(1+exp(b-a))` of lines 86-88,
134-136, 139-141 and 155-157. -/
def logSumExp (ext : Externals R H) (x y : R) : R :=
  max x y + ext.log (1 + ext.exp (min x y - max x y))

/-- Body of the loop of lines 65-76: log-evidence of the single data point `i`. -/
def leafInit (ext : Externals R H) (hyperParameters : H) (dim nFeatureValues : Nat)
    (alp : R) (i : Nat) (t : Nodes R) : Nodes R :=
  let t1 := setNode t i { t i with
    wt := Function.update (t i).wt i
      (ext.binevidence t dim hyperParameters i (-1) nFeatureValues) }
  let t2 := setNode t1 i { t1 i with ck := ext.log alp }
  let t3 := setNode t2 i { t2 i with nk := 1 }
  setNode t3 i { t3 i with den := (t3 i).wt i }

/-- Body of the inner loop of lines 83-107: the pair entry `(i, j)` of two data points. -/
def pairInit (ext : Externals R H) (hyperParameters : H) (dim nFeatureValues : Nat)
    (alp : R) (i j : Nat) (t : Nodes R) : Nodes R :=
  let tr1 := ext.log alp + ext.fast_gammaln ((t i).nk + (t j).nk)
  let tr2 := (t i).ck + (t j).ck
  let ckt := logSumExp ext tr1 tr2
  let pk := ext.log alp + ext.fast_gammaln ((t i).nk + (t j).nk) - ckt
  let gell := ext.binevidence t dim hyperParameters i j nFeatureValues
  let t1 := setNode t i { t i with num1 := Function.update (t i).num1 j (pk + gell) }
  let t2 := setNode t1 i { t1 i with
    num2 := Function.update (t1 i).num2 j (tr2 - ckt + (t1 i).wt i + (t1 j).wt j) }
  setNode t2 i { t2 i with
    wt := Function.update (t2 i).wt j ((t2 i).num1 j - (t2 i).num2 j) }

/-- The variables `wt_temp`, `node1`, `node2` of the selection scan. -/
structure Sel (R : Type) where
  wt_temp : R
  node1 : Int
  node2 : Int

/-- Lines 122-126: the test and assignment for one pair `(i, j)`. -/
def scanInner (t : Nodes R) (i j : Nat) (s : Sel R) : Sel R :=
  if (t j).flag = 0 ∧ (t i).wt j > s.wt_temp then
    { wt_temp := (t i).wt j, node1 := i, node2 := j }
  else s

/-- Lines 118-126: one row `i` of the scan, columns `i+1 .. 2*obs-1`. -/
def scanRow (obs : Nat) (t : Nodes R) (i : Nat) (s : Sel R) : Sel R :=
  if (t i).flag = 0 then forLoop (scanInner t i) (i + 1) (2 * obs - (i + 1)) s else s

/-- Lines 117-127: the whole selection scan over rows `0 .. 2*obs-1`. -/
def scan (obs : Nat) (t : Nodes R) (s : Sel R) : Sel R :=
  forLoop (scanRow obs t) 0 (2 * obs) s

/-- Line 149: one cell of the count table of the merged node. -/
def datCell (m n1 n2 k j : Nat) (t : Nodes R) : Nodes R :=
  setNode t m { t m with
    dat := Function.update (t m).dat k
      (Function.update ((t m).dat k) j ((t n1).dat k j + (t n2).dat k j)) }

/-- Lines 152-163: the pair entry of the partner `k` with the new node `m`. -/
def partner (ext : Externals R H) (hyperParameters : H) (dim nFeatureValues : Nat)
    (alp : R) (m n1 n2 k : Nat) (t : Nodes R) : Nodes R :=
  if (t k).flag ≠ 1 ∧ k ≠ n1 ∧ k ≠ n2 then
    let tr1 := ext.log alp + ext.fast_gammaln ((t m).nk + (t k).nk)
    let tr2 := (t m).ck + (t k).ck
    let ckt := logSumExp ext tr1 tr2
    let pk := ext.log alp + ext.fast_gammaln ((t m).nk + (t k).nk) - ckt
    let gell := ext.binevidence t dim hyperParameters m k nFeatureValues
    let t1 := setNode t k { t k with num1 := Function.update (t k).num1 m (pk + gell) }
    let t2 := setNode t1 k { t1 k with
      num2 := Function.update (t1 k).num2 m (tr2 - ckt + (t1 m).den + (t1 k).den) }
    setNode t2 k { t2 k with
      wt := Function.update (t2 k).wt m ((t2 k).num1 m - (t2 k).num2 m) }
  else t

/-- Lines 131-142: links, diagonal weight, `den`, `ck` and `nk` of the new node `m`;
`n1`, `n2` are `node1`, `node2` used as indices. -/
def mergeNode (ext : Externals R H) (alp : R) (m : Nat) (node1 node2 : Int)
    (t : Nodes R) : Nodes R :=
  let n1 := node1.toNat
  let n2 := node2.toNat
  let t1 := setNode t m { t m with pleft := node1 }
  let t2 := setNode t1 m { t1 m with pright := node2 }
  let t3 := setNode t2 m { t2 m with wt := Function.update (t2 m).wt m ((t2 n1).wt n2) }
  let t4 := setNode t3 m { t3 m with
    den := logSumExp ext ((t3 n1).num1 n2) ((t3 n1).num2 n2) }
  let tr1 := ext.log alp + ext.fast_gammaln ((t4 n1).nk + (t4 n2).nk)
  let tr2 := (t4 n1).ck + (t4 n2).ck
  let t5 := setNode t4 m { t4 m with ck := logSumExp ext tr1 tr2 }
  setNode t5 m { t5 m with nk := (t5 n1).nk + (t5 n2).nk }

/-- Lines 147-150: count table and `vec_no` of the new node `m`. -/
def mergeData (dim nFeatureValues : Nat) (m n1 n2 : Nat) (t : Nodes R) : Nodes R :=
  let t7 := forLoop (fun k => forLoop (datCell m n1 n2 k) 0 nFeatureValues) 0 dim t
  setNode t7 m { t7 m with vec_no := (t7 n1).vec_no + (t7 n2).vec_no }

/-- Lines 151-164: the loop over the partners `k < merged_node`. -/
def mergePartners (ext : Externals R H) (hyperParameters : H) (dim nFeatureValues : Nat)
    (alp : R) (m n1 n2 : Nat) (t : Nodes R) : Nodes R :=
  forLoop (partner ext hyperParameters dim nFeatureValues alp m n1 n2) 0 m t

/-- Lines 165-166: both selected nodes are marked consumed. -/
def mergeFlags (n1 n2 : Nat) (t : Nodes R) : Nodes R :=
  let t10 := setNode t n1 { t n1 with flag := 1 }
  setNode t10 n2 { t10 n2 with flag := 1 }

/-- Lines 131-166: the update of the node array once `node1` and `node2` have been
selected and `merged_node = m`. -/
def mergeBody (ext : Externals R H) (hyperParameters : H) (dim nFeatureValues : Nat)
    (alp : R) (m : Nat) (node1 node2 : Int) (t : Nodes R) : Nodes R :=
  let t6 := mergeNode ext alp m node1 node2 t
  let t8 := mergeData dim nFeatureValues m node1.toNat node2.toNat t6
  let t9 := mergePartners ext hyperParameters dim nFeatureValues alp m
    node1.toNat node2.toNat t8
  mergeFlags node1.toNat node2.toNat t9

/-- The variables that live across iterations of the merging loop. -/
structure MergeState (R : Type) where
  tr_node : Nodes R
  node1 : Int
  node2 : Int
  merged_node : Nat

/-- One iteration of the merging loop (lines 114-166).  `node1` and `node2` keep the
values of the previous iteration when the scan selects nothing; indexing `tr_node`
with a negative `node1` or `node2` is undefined and modelled by `none`. -/
def mergeStep (ext : Externals R H) (hyperParameters : H) (dim obs nFeatureValues : Nat)
    (alp min_wt : R) (L : MergeState R) : Option (MergeState R) :=
  let merged_node := L.merged_node + 1
  let sel := scan obs L.tr_node { wt_temp := min_wt, node1 := L.node1, node2 := L.node2 }
  if sel.node1 < 0 ∨ sel.node2 < 0 then none
  else some
    { tr_node := mergeBody ext hyperParameters dim nFeatureValues alp merged_node
        sel.node1 sel.node2 L.tr_node,
      node1 := sel.node1, node2 := sel.node2, merged_node := merged_node }

/-- The state after the first `n` iterations of the merging loop, started from `L`. -/
def mergeLoop (ext : Externals R H) (hyperParameters : H) (dim obs nFeatureValues : Nat)
    (alp min_wt : R) (L : MergeState R) : Nat → Option (MergeState R)
  | 0 => some L
  | n + 1 => (mergeLoop ext hyperParameters dim obs nFeatureValues alp min_wt L n).bind
      (mergeStep ext hyperParameters dim obs nFeatureValues alp min_wt)

/-- Lines 60-107: the node array after the single-point and the pair initialisation. -/
def initNodes (ext : Externals R H) (tr_node : Nodes R) (dim obs : Nat) (cc alp : R)
    (nFeatureValues : Nat) : Nodes R :=
  let hyperParameters := ext.CalculateHyperparameters tr_node dim obs nFeatureValues cc
  let t1 := forLoop (leafInit ext hyperParameters dim nFeatureValues alp) 0 obs tr_node
  forLoop (fun i => forLoop (pairInit ext hyperParameters dim nFeatureValues alp i)
    (i + 1) (obs - (i + 1))) 0 obs t1

/-- Line 112 together with the declarations of line 54: the variables on entry to the
merging loop. -/
def initState (ext : Externals R H) (tr_node : Nodes R) (dim obs : Nat) (cc alp : R)
    (nFeatureValues : Nat) : MergeState R :=
  { tr_node := initNodes ext tr_node dim obs cc alp nFeatureValues,
    node1 := -1, node2 := -1, merged_node := obs - 1 }

/-- The state after `n` iterations of the merging loop of a run of `bayeslink_binf`. -/
def runMerges (ext : Externals R H) (tr_node : Nodes R) (dim obs : Nat) (cc alp min_wt : R)
    (nFeatureValues : Nat) (n : Nat) : Option (MergeState R) :=
  mergeLoop ext (ext.CalculateHyperparameters tr_node dim obs nFeatureValues cc)
    dim obs nFeatureValues alp min_wt
    (initState ext tr_node dim obs cc alp nFeatureValues) n

/-- The function `bayeslink_binf` (lines 33-183).  It returns the log-evidence together
with the node array it has updated in place.  With `obs = 0` line 180 reads
`tr_node[-1]`, which is undefined (`none`). -/
def bayeslink_binf (ext : Externals R H) (tr_node : Nodes R) (dim obs : Nat)
    (cc alp min_wt : R) (nFeatureValues : Nat) : Option (R × Nodes R) :=
  if obs = 0 then none
  else
    (runMerges ext tr_node dim obs cc alp min_wt nFeatureValues (obs - 1)).map
      (fun L => ((L.tr_node L.merged_node).den, L.tr_node))

/-! ## Specification vocabulary for the selection scan -/

/-- A pair the scan looks at and may select: `i < j < 2*obs`, both slots active. -/
def Cand (obs : Nat) (t : Nodes R) (i j : Nat) : Prop :=
  i < j ∧ j < 2 * obs ∧ (t i).flag = 0 ∧ (t j).flag = 0

/-- Scan order: pair `(i, j)` is reached strictly before the scan stands at `(i0, j0)`. -/
def Before (i0 j0 i j : Nat) : Prop :=
  i < i0 ∨ (i = i0 ∧ j < j0)

/-- Scan order: pair `(a, b)` is pair `(i, j)` or precedes it. -/
def FirstOrSame (a b i j : Nat) : Prop :=
  a < i ∨ (a = i ∧ b ≤ j)

/-- Loop invariant of the selection scan standing at `(i0, j0)`: either nothing was
selected and no candidate seen so far exceeds the initial `wt_temp`, or the selection is
the first candidate of maximal weight among those seen so far. -/
def ScanInv (obs : Nat) (t : Nodes R) (s0 : Sel R) (i0 j0 : Nat) (s : Sel R) : Prop :=
  (s = s0 ∧ ∀ i j, Before i0 j0 i j → Cand obs t i j → (t i).wt j ≤ s0.wt_temp) ∨
  (∃ a b : Nat, Before i0 j0 a b ∧ Cand obs t a b ∧
    s = { wt_temp := (t a).wt b, node1 := a, node2 := b } ∧ s0.wt_temp < (t a).wt b ∧
    ∀ i j, Before i0 j0 i j → Cand obs t i j →
      (t i).wt j ≤ (t a).wt b ∧ ((t i).wt j = (t a).wt b → FirstOrSame a b i j))

/-! ## Specification vocabulary for frames -/

/-- A node with its rows of the three pair tables blanked: what is left are the fields
the pair loops never assign. -/
def NODE.erasePairs (n : NODE R) : NODE R :=
  { n with num1 := fun _ => 0, num2 := fun _ => 0, wt := fun _ => 0 }

/-- Node array `x` differs from `t` at most in pair-table entries `(k, j)` with `W k j`. -/
def PairFrame (W : Nat → Nat → Prop) (t x : Nodes R) : Prop :=
  ∀ k, (x k).erasePairs = (t k).erasePairs ∧
    ∀ j, ¬ W k j →
      (x k).num1 j = (t k).num1 j ∧ (x k).num2 j = (t k).num2 j ∧ (x k).wt j = (t k).wt j

/-! ## Specification vocabulary for the merging loop -/

/-- Start state under which the driver works: every slot the scan reads (`0 .. 2*obs-1`) is
active on entry, and every pair weight in a column the initialisation does not fill
(`obs .. 2*obs-1`) is at most `min_wt`. -/
structure StartOK (obs : Nat) (min_wt : R) (t : Nodes R) : Prop where
  flags : ∀ k, k < 2 * obs → (t k).flag = 0
  unwritten : ∀ k m, k < m → obs ≤ m → m < 2 * obs → (t k).wt m ≤ min_wt

/-- The threshold `min_wt` lies strictly below the pair weights the driver has computed:
whenever a selection scan starts, after `n` merges, every pair of active nodes among
the `obs + n` populated ones has a weight above `min_wt`. -/
def WeightsAbove (ext : Externals R H) (t : Nodes R) (dim obs : Nat) (cc alp min_wt : R)
    (nFeatureValues : Nat) : Prop :=
  ∀ n L, n + 1 < obs → runMerges ext t dim obs cc alp min_wt nFeatureValues n = some L →
    ∀ k m, k < m → m < obs + n → (L.tr_node k).flag = 0 → (L.tr_node m).flag = 0 →
      min_wt < (L.tr_node k).wt m

/-- Node `k` is `pleft` or `pright` of node `m`. -/
def IsChild (t : Nodes R) (m k : Nat) : Prop :=
  (t m).pleft = (k : Int) ∨ (t m).pright = (k : Int)

/-- The populated nodes `0 .. M-1` that are still active. -/
def activeSet (t : Nodes R) (M : Nat) : Finset Nat :=
  (Finset.range M).filter (fun k => (t k).flag = 0)

/-- Invariant of the merging loop after `n` iterations, started from the array `t0`. -/
structure MergeInv (obs : Nat) (min_wt : R) (t0 : Nodes R) (n : Nat) (L : MergeState R) :
    Prop where
  merged : L.merged_node = obs - 1 + n
  flag01 : ∀ k, k < obs + n → (L.tr_node k).flag = 0 ∨ (L.tr_node k).flag = 1
  flagHi : ∀ k, obs + n ≤ k → k < 2 * obs → (L.tr_node k).flag = 0
  unwritten : ∀ k m, k < m → obs + n ≤ m → m < 2 * obs → (L.tr_node k).wt m ≤ min_wt
  card : (activeSet L.tr_node (obs + n)).card = obs - n
  kids : ∀ m, obs ≤ m → m < obs + n →
    ∃ l r : Nat, (L.tr_node m).pleft = l ∧ (L.tr_node m).pright = r ∧ l < r ∧ r < m
  consumed : ∀ k, k < obs + n →
    ((L.tr_node k).flag = 1 ↔ ∃ m, obs ≤ m ∧ m < obs + n ∧ IsChild L.tr_node m k)
  oneParent : ∀ k m m', obs ≤ m → m < obs + n → obs ≤ m' → m' < obs + n →
    IsChild L.tr_node m k → IsChild L.tr_node m' k → m = m'
  newest : 0 < n → (L.tr_node (obs + n - 1)).flag = 0
  leafLinks : ∀ k, k < obs →
    (L.tr_node k).pleft = (t0 k).pleft ∧ (L.tr_node k).pright = (t0 k).pright
  nk_leaf : ∀ k, k < obs → (L.tr_node k).nk = 1
  nk_add : ∀ m, obs ≤ m → m < obs + n →
    (L.tr_node m).nk =
      (L.tr_node (L.tr_node m).pleft.toNat).nk + (L.tr_node (L.tr_node m).pright.toNat).nk
  nk_sum : (∑ k in activeSet L.tr_node (obs + n), (L.tr_node k).nk) = (obs : R)

/-! ## A concrete run used to exercise the theorems -/

/-- Integer stand-ins for the external functions: `log`, `exp` and `fast_gammaln` are the
identity and the pair evidence adds the first cells of the two count tables. -/
def demoExt : Externals ℤ Unit :=
  { log := fun x => x, exp := fun x => x, fast_gammaln := fun x => x,
    CalculateHyperparameters := fun _ _ _ _ _ => (),
    binevidence := fun t _ _ i j _ =>
      (t i).dat 0 0 + (if j < 0 then 0 else (t j.toNat).dat 0 0) }

/-- A node slot as the caller hands it over: active, no links, pair weights at the
threshold `-1000`. -/
def demoNode : NODE ℤ :=
  { pleft := -1, pright := -1, flag := 0, vec_no := 1, nk := 0, ck := 0, den := 0,
    wt := fun _ => -1000, num1 := fun _ => 0, num2 := fun _ => 0, dat := fun _ _ => 1 }

/-- A node array all of whose slots are `demoNode`. -/
def demoNodes : Nodes ℤ := fun _ => demoNode

/-- The pair evidence reads nothing of the node array but the count tables and `vec_no` of
the one or two nodes it is called for (`j = -1`: node `i` alone). -/
def EvidenceLocal (ext : Externals R H) : Prop :=
  ∀ (s s' : Nodes R) (dim : Nat) (hp : H) (i : Nat) (j : Int) (nfv : Nat),
    (s i).dat = (s' i).dat → (s i).vec_no = (s' i).vec_no →
    (0 ≤ j → (s j.toNat).dat = (s' j.toNat).dat ∧ (s j.toNat).vec_no = (s' j.toNat).vec_no) →
    ext.binevidence s dim hp i j nfv = ext.binevidence s' dim hp i j nfv

/-! ## Specification vocabulary for the values of the pair tables -/

/-- The arguments of the call `binevidence(i1, i2)` that fills the entry of the pair
`k < j`: two data points are passed as `(k, j)` (line 94), a merged node `j >= obs` is
passed first (line 159). -/
def evArgs (obs k j : Nat) : Nat × Nat :=
  if j < obs then (k, j) else (j, k)

/-- Entry `(k, j)` of the three pair tables holds what lines 84-106 and 153-162 compute
from the current `nk`, `ck` and `den` of the two nodes and the pair evidence `e`. -/
def PairEntry (ext : Externals R H) (alp : R) (t : Nodes R) (k j : Nat) (e : R) : Prop :=
  (t k).num1 j =
    ext.log alp + ext.fast_gammaln ((t k).nk + (t j).nk)
      - logSumExp ext (ext.log alp + ext.fast_gammaln ((t k).nk + (t j).nk))
          ((t k).ck + (t j).ck)
      + e ∧
  (t k).num2 j =
    (t k).ck + (t j).ck
      - logSumExp ext (ext.log alp + ext.fast_gammaln ((t k).nk + (t j).nk))
          ((t k).ck + (t j).ck)
      + (t k).den + (t j).den ∧
  (t k).wt j = (t k).num1 j - (t k).num2 j

/-- Entry `(k, j)` is filled in: it satisfies `PairEntry` for the evidence returned by a
call of `binevidence` on an array that holds the count tables and `vec_no` of the two
nodes. -/
def PairOK (ext : Externals R H) (hp : H) (dim nfv : Nat) (alp : R) (obs : Nat)
    (t : Nodes R) (k j : Nat) : Prop :=
  ∃ x : Nodes R,
    ((x k).dat = (t k).dat ∧ (x k).vec_no = (t k).vec_no) ∧
    ((x j).dat = (t j).dat ∧ (x j).vec_no = (t j).vec_no) ∧
    PairEntry ext alp t k j
      (ext.binevidence x dim hp (evArgs obs k j).1 ((evArgs obs k j).2 : Nat) nfv)

/-- Invariant of the merging loop on values: the entries of active pairs are filled in,
and every internal node carries the `den` and `ck` computed from the filled-in entry of
its two children. -/
structure ValueInv (ext : Externals R H) (hp : H) (dim nfv : Nat) (alp : R) (obs : Nat)
    (n : Nat) (L : MergeState R) : Prop where
  pairs : ∀ k j, k < j → j < obs + n → (L.tr_node k).flag = 0 → (L.tr_node j).flag = 0 →
    PairOK ext hp dim nfv alp obs L.tr_node k j
  nodes : ∀ m, obs ≤ m → m < obs + n →
    PairOK ext hp dim nfv alp obs L.tr_node
      (L.tr_node m).pleft.toNat (L.tr_node m).pright.toNat ∧
    (L.tr_node m).den =
      logSumExp ext
        ((L.tr_node (L.tr_node m).pleft.toNat).num1 (L.tr_node m).pright.toNat)
        ((L.tr_node (L.tr_node m).pleft.toNat).num2 (L.tr_node m).pright.toNat) ∧
    (L.tr_node m).ck =
      logSumExp ext
        (ext.log alp + ext.fast_gammaln
          ((L.tr_node (L.tr_node m).pleft.toNat).nk + (L.tr_node (L.tr_node m).pright.toNat).nk))
        ((L.tr_node (L.tr_node m).pleft.toNat).ck + (L.tr_node (L.tr_node m).pright.toNat).ck)
  leaves : ∀ k, k < obs →
    (L.tr_node k).ck = ext.log alp ∧ (L.tr_node k).den = (L.tr_node k).wt k

/-! ## Instances for exact arithmetic -/

/-- Externals assembled from their three numeric functions and a pair evidence, with a
trivial hyperparameter table. -/
def mkExt (log exp gammaln : R → R) (bev : Nodes R → Nat → Int → R) : Externals R Unit :=
  { log := log, exp := exp, fast_gammaln := gammaln,
    CalculateHyperparameters := fun _ _ _ _ _ => (),
    binevidence := fun t _ _ i j _ => bev t i j }

/-- A node slot as the caller hands it over: active, no links, every pair weight `w`, and
the one-cell count table `c`. -/
def blankNode (w c : R) : NODE R :=
  { pleft := -1, pright := -1, flag := 0, vec_no := 1, nk := 0, ck := 0, den := 0,
    wt := fun _ => w, num1 := fun _ => 0, num2 := fun _ => 0, dat := fun _ _ => c }

/-! ## Specification vocabulary for permuted inputs -/

/-- Cell `(a, b)` of the merged count table of the call `binevidence(i, j)`: the table of
node `i`, plus that of node `j` unless `j = -1`. -/
def mergedDat (s : Nodes R) (i : Nat) (j : Int) (a b : Nat) : R :=
  (s i).dat a b + (if j < 0 then 0 else (s j.toNat).dat a b)

/-- The node array a caller hands over for items with one-cell count tables `v 0, v 1, ..`:
every slot active, every pair weight `w`. -/
def itemNodes (w : R) (v : Nat → R) : Nodes R :=
  fun k => blankNode w (v k)

/-- The leaves of the subtree of node `k`, left to right, following `pleft` and `pright`
for at most `fuel` levels; a node below `obs` is a leaf. -/
def leavesBelow (obs : Nat) (t : Nodes R) : Nat → Nat → List Nat
  | 0, k => if k < obs then [k] else []
  | fuel + 1, k =>
    if k < obs then [k]
    else leavesBelow obs t fuel (t k).pleft.toNat ++ leavesBelow obs t fuel (t k).pright.toNat

/-- Invariant of the merging loop on the count tables, over the `dim x nfv` cells: leaf
tables are those of the input `t0`, the table of an internal node is the sum of the tables
of its children, and the tables of the active nodes add up to the sum of all leaf tables. -/
structure DatInv (dim nfv obs : Nat) (t0 : Nodes R) (n : Nat) (L : MergeState R) : Prop where
  leaf : ∀ k, k < obs → (L.tr_node k).dat = (t0 k).dat
  add : ∀ m, obs ≤ m → m < obs + n → ∀ a b, a < dim → b < nfv →
    (L.tr_node m).dat a b =
      (L.tr_node (L.tr_node m).pleft.toNat).dat a b +
        (L.tr_node (L.tr_node m).pright.toNat).dat a b
  sum : ∀ a b, a < dim → b < nfv →
    (∑ k in activeSet L.tr_node (obs + n), (L.tr_node k).dat a b) =
      ∑ i in Finset.range obs, (t0 i).dat a b

/-! ## Specification vocabulary for internal slots that start consumed -/

/-- Invariant of the merging loop when the slots `obs .. 2*obs-1` start with flag 1: they
keep flag 1, the pair selected last consists of two data points, and both children of
every node created so far are data points. -/
structure LeafOnly (obs : Nat) (n : Nat) (L : MergeState R) : Prop where
  merged : L.merged_node = obs - 1 + n
  flagHi : ∀ k, obs ≤ k → k < 2 * obs → (L.tr_node k).flag = 1
  last : 0 < n → ∃ a b : Nat, L.node1 = a ∧ L.node2 = b ∧ a < b ∧ b < obs
  kids : ∀ m, obs ≤ m → m < obs + n →
    ∃ l r : Nat, (L.tr_node m).pleft = l ∧ (L.tr_node m).pright = r ∧ l < r ∧ r < obs

/-- A node array for two data points as the specification prescribes it: the two leaves
active, every further slot consumed. -/
def specNodes : Nodes ℤ :=
  fun k => if k < 2 then demoNode else { demoNode with flag := 1 }

/-! ## Specification vocabulary for an iteration that selects nothing -/

/-- Invariant of the merging loop that needs no weights above `min_wt`: the columns not
yet filled hold weights of at most `min_wt`, and the pair selected last lies below the node
created last. -/
structure BelowInv (obs : Nat) (min_wt : R) (n : Nat) (L : MergeState R) : Prop where
  merged : L.merged_node = obs - 1 + n
  unwritten : ∀ k m, k < m → obs + n ≤ m → m < 2 * obs → (L.tr_node k).wt m ≤ min_wt
  first : n = 0 → L.node1 = -1 ∧ L.node2 = -1
  last : 0 < n → ∃ a b : Nat, L.node1 = a ∧ L.node2 = b ∧ a < b ∧ b < L.merged_node

/-- The state after the first merge of three data points with count tables 1, threshold 0
and every pair weight of the input 0: the pair `(0, 1)` has been merged into node 3. -/
def staleState : MergeState ℤ :=
  { tr_node := mergeBody demoExt () 1 1 1 3 0 1
      (initState demoExt (itemNodes 0 (fun _ => 1)) 1 3 0 1 1).tr_node,
    node1 := 0, node2 := 1, merged_node := 3 }

/-- Three data points with count tables 1 as a caller may hand them over: every slot
active, every pair weight 0 except `wt[0][3] = 100`, in a column the initialisation does
not fill. -/
def staleInput : Nodes ℤ :=
  fun k =>
    if k = 0 then { blankNode 0 1 with wt := fun m => if m = 3 then 100 else 0 }
    else blankNode 0 1

/-- The state after the first iteration on `staleInput` with threshold 50: the pair
`(0, 3)` has been selected and node 3 created from node 0 and slot 3. -/
def staleInputState : MergeState ℤ :=
  { tr_node := mergeBody demoExt () 1 1 1 3 0 3
      (initState demoExt staleInput 1 3 0 1 1).tr_node,
    node1 := 0, node2 := 3, merged_node := 3 }

/-! ## Indices the driver uses -/

/-- One use of the node array: the node index of `tr_node[node]` and, when an element of
its tables `wt`, `num1` or `num2` is read or written, the index of that element.  Indices
are integers because `node1` and `node2` can be `-1`. -/
structure Access where
  node : Int
  entry : Option Int
  deriving DecidableEq

/-- The access stays inside an array of `size` nodes whose pair tables have `size`
elements. -/
def Access.inBounds (size : Nat) (a : Access) : Prop :=
  (0 ≤ a.node ∧ a.node < size) ∧
    match a.entry with
    | none => True
    | some e => 0 ≤ e ∧ e < size

/-- Lines 69-75: the uses of the node array for data point `i` (line 69 `wt[i]`, line 70
`ck`, line 72 `nk`, line 75 `den` and `wt[i]`).  The reads made inside `binevidence` are
not listed. -/
def leafInitLog (i : Nat) : List Access :=
  [⟨i, some i⟩, ⟨i, none⟩, ⟨i, none⟩, ⟨i, none⟩, ⟨i, some i⟩]

/-- Lines 84-106: the uses of the node array for the pair `(i, j)` of data points (lines
84-85 `nk`, `ck` of both, line 97 `num1[j]`, line 99 `num2[j]`, `wt[i]` of `i` and `wt[j]`
of `j`, line 106 `wt[j]`, `num1[j]`, `num2[j]`). -/
def pairInitLog (i j : Nat) : List Access :=
  [⟨i, none⟩, ⟨j, none⟩, ⟨i, none⟩, ⟨j, none⟩, ⟨i, some j⟩, ⟨i, some j⟩, ⟨i, some i⟩,
    ⟨j, some j⟩, ⟨i, some j⟩, ⟨i, some j⟩, ⟨i, some j⟩]

/-- Lines 65-107: the uses of the node array by the two initialisation loops. -/
def initLog (obs : Nat) : List Access :=
  forLoop (fun i (log : List Access) => log ++ leafInitLog i) 0 obs [] ++
    forLoop (fun i => forLoop (fun j (log : List Access) => log ++ pairInitLog i j)
      (i + 1) (obs - (i + 1))) 0 obs []

/-- Lines 122-126 with the uses of the node array recorded: the test reads the flag of
node `j` and, only when that is 0, `wt[j]` of node `i`. -/
def scanInnerLog (t : Nodes R) (i j : Nat) (s : Sel R × List Access) :
    Sel R × List Access :=
  let log1 := s.2 ++ [⟨j, none⟩]
  if (t j).flag = 0 then
    let log2 := log1 ++ [⟨i, some j⟩]
    if (t i).wt j > s.1.wt_temp then
      ({ wt_temp := (t i).wt j, node1 := i, node2 := j }, log2)
    else (s.1, log2)
  else (s.1, log1)

/-- Lines 118-126 with the uses of the node array recorded: row `i` reads the flag of node
`i` first. -/
def scanRowLog (obs : Nat) (t : Nodes R) (i : Nat) (s : Sel R × List Access) :
    Sel R × List Access :=
  let log1 := s.2 ++ [⟨i, none⟩]
  if (t i).flag = 0 then
    forLoop (scanInnerLog t i) (i + 1) (2 * obs - (i + 1)) (s.1, log1)
  else (s.1, log1)

/-- Lines 117-127: the selection scan together with the list of its uses of the node
array. -/
def scanLog (obs : Nat) (t : Nodes R) (s : Sel R) : Sel R × List Access :=
  forLoop (scanRowLog obs t) 0 (2 * obs) (s, [])

/-- Lines 131-150: the uses of the node array when the new node `m` is filled in from
`node1` and `node2` (lines 131-132 links, line 133 `wt[m]` of `m` and `wt[node2]` of
`node1`, lines 134-135 `num1[node2]`, `num2[node2]` of `node1`, line 136 `den`, lines 137-142
`nk`, `ck`, lines 149-150 count tables and `vec_no`). -/
def mergeNodeLog (m : Nat) (node1 node2 : Int) : List Access :=
  [⟨m, none⟩, ⟨m, none⟩, ⟨m, some m⟩, ⟨node1, some node2⟩, ⟨node1, some node2⟩,
    ⟨node1, some node2⟩, ⟨m, none⟩, ⟨node1, none⟩, ⟨node2, none⟩, ⟨m, none⟩, ⟨m, none⟩,
    ⟨m, none⟩, ⟨node1, none⟩, ⟨node2, none⟩]

/-- Lines 152-163: the uses of the node array for partner `k`: its flag, and when the
test succeeds `nk`, `ck`, `den` of `m` and `k` and the entries `[m]` of `k`. -/
def partnerLog (m n1 n2 k : Nat) (t : Nodes R) : List Access :=
  ⟨k, none⟩ ::
    (if (t k).flag ≠ 1 ∧ k ≠ n1 ∧ k ≠ n2 then
      [⟨m, none⟩, ⟨k, none⟩, ⟨k, some m⟩, ⟨k, some m⟩, ⟨k, some m⟩]
    else [])

/-- Lines 151-164: the uses of the node array by the loop over the partners. -/
def mergePartnersLog (ext : Externals R H) (hyperParameters : H) (dim nFeatureValues : Nat)
    (alp : R) (m n1 n2 : Nat) (t : Nodes R) : List Access :=
  (forLoop (fun k (s : Nodes R × List Access) =>
      (partner ext hyperParameters dim nFeatureValues alp m n1 n2 k s.1,
        s.2 ++ partnerLog m n1 n2 k s.1)) 0 m (t, [])).2

/-- Lines 131-166: the uses of the node array by the update for `node1`, `node2` and
`merged_node = m`; lines 165-166 set the two flags. -/
def mergeBodyLog (ext : Externals R H) (hyperParameters : H) (dim nFeatureValues : Nat)
    (alp : R) (m : Nat) (node1 node2 : Int) (t : Nodes R) : List Access :=
  mergeNodeLog m node1 node2 ++
    mergePartnersLog ext hyperParameters dim nFeatureValues alp m node1.toNat node2.toNat
      (mergeData dim nFeatureValues m node1.toNat node2.toNat
        (mergeNode ext alp m node1 node2 t)) ++
    [⟨node1, none⟩, ⟨node2, none⟩]

/-- Lines 114-166: the uses of the node array by one iteration of the merging loop. -/
def mergeStepLog (ext : Externals R H) (hyperParameters : H) (dim obs nFeatureValues : Nat)
    (alp min_wt : R) (L : MergeState R) : List Access :=
  let merged_node := L.merged_node + 1
  let r := scanLog obs L.tr_node { wt_temp := min_wt, node1 := L.node1, node2 := L.node2 }
  r.2 ++ mergeBodyLog ext hyperParameters dim nFeatureValues alp merged_node
    r.1.node1 r.1.node2 L.tr_node

/-- Line 180: the read of `tr_node[merged_node].den`. -/
def returnLog (L : MergeState R) : List Access :=
  [⟨L.merged_node, none⟩]

/-! ## The multinomial evidence -/

/-- Modelled from the spec: `binevidence`, which is defined outside the sources at hand.
Section 4.3 gives its value, the logarithm of the Dirichlet-multinomial marginal of the
merged count table `c` of nodes `i` and `j` (of node `i` alone when `j = -1`):
the sum over the dimensions `d` of
`log Gamma(B_d) - log Gamma(B_d + n_d) + sum over v of
(log Gamma(beta_{d,v} + c_{d,v}) - log Gamma(beta_{d,v}))`,
where `B_d` is the sum of the `beta_{d,v}` over `v` and `n_d` the number of counts in row
`d` of `c`.  The arguments are in the order of the C call; `gammaln` is log-Gamma. -/
def binevidence (gammaln : R → R) (tr_node : Nodes R) (dim : Nat)
    (hyperParameters : Nat → Nat → R) (i : Nat) (j : Int) (nFeatureValues : Nat) : R :=
  ∑ d in Finset.range dim,
    (gammaln (∑ v in Finset.range nFeatureValues, hyperParameters d v)
      - gammaln ((∑ v in Finset.range nFeatureValues, hyperParameters d v)
          + ∑ v in Finset.range nFeatureValues, mergedDat tr_node i j d v)
      + ∑ v in Finset.range nFeatureValues,
          (gammaln (hyperParameters d v + mergedDat tr_node i j d v)
            - gammaln (hyperParameters d v)))

/-- Modelled from the spec: `CalculateHyperparameters`, which is defined outside the
sources at hand.  Section 4.3 describes the table as priors scaled by the global
concentration `cc` and the per-dimension empirical marginals: `beta_{d,v}` is `cc` times
the share of the `obs` items that have value `v` in dimension `d`.  When the values of a
dimension are equally frequent, its prior is symmetric.  The arguments are in the order of
the C call. -/
def CalculateHyperparameters {F : Type} [LinearOrderedField F] (tr_node : Nodes F)
    (_dim obs _nFeatureValues : Nat) (cc : F) : Nat → Nat → F :=
  fun d v => cc * (∑ i in Finset.range obs, (tr_node i).dat d v) / (obs : F)

/-- Whether pair `(a, b)` is pair `(i, j)` or precedes it can be computed. -/
instance FirstOrSame.decidable (a b i j : Nat) : Decidable (FirstOrSame a b i j) :=
  inferInstanceAs (Decidable (a < i ∨ (a = i ∧ b ≤ j)))

end Driver

/-! ## Robust squared-exponential time-course evidence -/

section TimeCourse

variable {R : Type} [LinearOrderedField R] {M : Type}

/-- Functions `RobustSquaredExponentialTimecourseDataSet.cpp` calls but does not define:
the C library `log` and `exp`, the hyperparameter optimisers (which update `lengthScale`,
`noiseFreeScale`, `noiseSigma` through references, here returned as a triple), and the
covariance and evidence routines of the base class.  `M` is the type
`BlockCovarianceMatrix`. -/
structure TCExternals (R : Type) (M : Type) where
  log : R → R
  exp : R → R
  OptimiseHyperparameters : List R → R → R → R → R × R × R
  OptimiseHyperparametersEstimatedNoise : List R → R → R → R → R → R × R × R
  GetClusterSEMS : List Nat → R
  SquareExponentialCovarianceFunction : R → Nat → R → M
  AddNoiseToCovarianceFunction : M → R → M
  ComputeLogEvidence : M → List R → R
  CovarianceFunctionMissingSingleObservation : M → Nat → M
  ComputeMatrixMissingSingleObservationLogDeterminant : M → R
  InvertMatrixMissingSingleObservation : M → M
  ComputePartRobustLogEvidenceMissingSingleObservation : R → M → List R → R

/-- Modelled from the spec: the data members of the class, declared in
RobustSquaredExponentialTimecourseDataSet.h and its base classes, which are not among the
sources at hand.  These are the members the two methods read. -/
structure TimecourseDataSet (R : Type) where
  data : List (List R)
  nTimePoints : Nat
  noise_mode : Int
  dataRange : R

/-- Lines 55-62: the values of the items of the cluster, item by item. -/
def extractData (ds : TimecourseDataSet R) (itemIndex : List Nat) : List R :=
  forLoop (fun i => forLoop (fun j (extractedData : List R) =>
      extractedData ++ [(ds.data.getD (itemIndex.getD i 0) []).getD j 0])
    0 ds.nTimePoints) 0 itemIndex.length []

/-- Lines 64-74: the copy `yValues` of `extractedData` rewritten in time-major order; the
state of the loops is `yValues` and `counter`. -/
def reorderData (nTimePoints nCurrentItems : Nat) (extractedData : List R) : List R :=
  (forLoop (fun i => forLoop (fun j (s : List R × Nat) =>
      (s.1.set (j * nCurrentItems + i) (extractedData.getD s.2 0), s.2 + 1))
    0 nTimePoints) 0 nCurrentItems (extractedData, 0)).1

/-- Lines 129-131: `yValues` with the block of time point `k` moved to the front. -/
def blockToFront (yValues : List R) (nCurrentItems k : Nat) : List R :=
  let erased := yValues.take (k * nCurrentItems) ++ yValues.drop (k * nCurrentItems + nCurrentItems)
  ((yValues.drop (k * nCurrentItems)).take nCurrentItems) ++ erased

/-- Lines 111-113: the log-evidence `lft` of the full covariance. -/
def fullLogEvidence (ext : TCExternals R M) (ds : TimecourseDataSet R) (yValues : List R)
    (lengthScale noiseFreeScale noiseSigma : R) : R :=
  let blockSize := yValues.length / ds.nTimePoints
  let fullCovarFunction :=
    ext.SquareExponentialCovarianceFunction lengthScale blockSize noiseFreeScale
  let fullCovarFunction := ext.AddNoiseToCovarianceFunction fullCovarFunction noiseSigma
  ext.ComputeLogEvidence fullCovarFunction yValues

/-- Lines 129-143 for one pair `(k, i)`: the log-evidence `lpst` with observation `i` of
time point `k` left out (the covariance of time point `k` is recomputed here for every
`i`; the routines are functions of their arguments). -/
def partLogEvidence (ext : TCExternals R M) (ds : TimecourseDataSet R) (yValues : List R)
    (nCurrentItems : Nat) (lengthScale noiseFreeScale noiseSigma : R) (k i : Nat) : R :=
  let blockSize := yValues.length / ds.nTimePoints
  let fullCovarFunction :=
    ext.SquareExponentialCovarianceFunction lengthScale blockSize noiseFreeScale
  let fullCovarFunction := ext.AddNoiseToCovarianceFunction fullCovarFunction noiseSigma
  let yValuesk := blockToFront yValues nCurrentItems k
  let covarFunctionk := ext.CovarianceFunctionMissingSingleObservation fullCovarFunction k
  let detCovarFunctionk := ext.ComputeMatrixMissingSingleObservationLogDeterminant covarFunctionk
  let invCovarFunctionk := ext.InvertMatrixMissingSingleObservation covarFunctionk
  let yValueskCopy := yValuesk.eraseIdx i
  ext.ComputePartRobustLogEvidenceMissingSingleObservation detCovarFunctionk invCovarFunctionk
    yValueskCopy

/-- Lines 105 and 127-162: the term `lst`; the state of the two loops is `(CF1, st)`. -/
def missingLogEvidence (ext : TCExternals R M) (ds : TimecourseDataSet R) (yValues : List R)
    (nCurrentItems : Nat) (lengthScale noiseFreeScale noiseSigma : R) : R :=
  let acc := forLoop (fun k => forLoop (fun i (s : R × R) =>
      let lpst := partLogEvidence ext ds yValues nCurrentItems lengthScale noiseFreeScale
        noiseSigma k i
      let CF1 := if k = 0 ∧ i = 0 then lpst else s.1
      let clpst := lpst - CF1
      let pst := ext.exp clpst
      (CF1, s.2 + pst))
    0 nCurrentItems) 0 ds.nTimePoints ((0 : R), (0 : R))
  let lst := ext.log acc.2
  let lst := lst + acc.1
  lst + ext.log (1 / ds.dataRange)

/-- Lines 168-180: the mixture component fitted from `lft` and `lst`; the factor of
`atop` is the `int` expression `nCurrentItems*nTimePoints-1`. -/
def mixtureFit (ext : TCExternals R M) (nCurrentItems nTimePoints : Nat) (lft lst : R) : R :=
  let C1 := ext.exp lft
  let C2 := ext.exp lst
  let atop := (((nCurrentItems * nTimePoints : Nat) : Int) - 1 : Int) * C2
  let abot := (nCurrentItems : R) * (nTimePoints : R) * (C2 - C1)
  let a := atop / abot
  if 0 < a ∧ a < 1 then a else 1

/-- Lines 185-193: the overall log-evidence for the mixture component that was fitted. -/
def overallLogEvidence (ext : TCExternals R M) (nCurrentItems nTimePoints : Nat)
    (lft lst mixtureComponent : R) : R :=
  if 0 < mixtureComponent ∧ mixtureComponent < 1 then
    let logfirstEv :=
      ((nCurrentItems * nTimePoints : Nat) : R) * ext.log mixtureComponent + lft
    let logsecondEv :=
      ((((nCurrentItems * nTimePoints : Nat) : Int) - 1 : Int) : R) * ext.log mixtureComponent
        + ext.log (1 - mixtureComponent) + lst
    ext.log (ext.exp (logfirstEv - logfirstEv) + ext.exp (logsecondEv - logfirstEv))
      + logfirstEv
  else ((nCurrentItems * nTimePoints : Nat) : R) * ext.log mixtureComponent + lft

/-- The method `ComputeRobustLogEvidence` (lines 95-197): it returns the log-evidence and
stores the mixture component through its last reference parameter; the pair is
`(logEvidence, mixtureComponent)`. -/
def ComputeRobustLogEvidence (ext : TCExternals R M) (ds : TimecourseDataSet R)
    (yValues : List R) (nCurrentItems : Nat) (lengthScale noiseFreeScale noiseSigma : R) :
    R × R :=
  let lft := fullLogEvidence ext ds yValues lengthScale noiseFreeScale noiseSigma
  let lst := missingLogEvidence ext ds yValues nCurrentItems lengthScale noiseFreeScale
    noiseSigma
  let mixtureComponent := mixtureFit ext nCurrentItems ds.nTimePoints lft lst
  (overallLogEvidence ext nCurrentItems ds.nTimePoints lft lst mixtureComponent,
    mixtureComponent)

/-- Error codes of the engine boundary named by the specification. -/
inductive EngineError where
  | InvalidInput
  | InvalidHyperparameter
  | NumericFailure
  | Unsupported
  deriving DecidableEq

/-- What the caller of `SingleClusterLogEvidence` sees.  The C++ method has one way out,
`return logEvidence`, with the four reference parameters as they then stand
(`returned`); `logEvidence` is a `double` that can be minus infinity (`⊥`).  The
constructor `failed` stands for an error report, which no path of the method makes. -/
inductive ClusterOutcome (R : Type) where
  | returned (logEvidence : WithBot R)
      (lengthScale noiseFreeScale noiseSigma mixtureComponent : R)
  | failed (e : EngineError)

/-- The method `SingleClusterLogEvidence` (lines 42-90). -/
def SingleClusterLogEvidence (ext : TCExternals R M) (ds : TimecourseDataSet R)
    (itemIndex : List Nat) (lengthScale noiseFreeScale noiseSigma mixtureComponent : R) :
    ClusterOutcome R :=
  let nCurrentItems := itemIndex.length
  let extractedData := extractData ds itemIndex
  let yValues := reorderData ds.nTimePoints nCurrentItems extractedData
  if ds.noise_mode = 0 then
    let h := ext.OptimiseHyperparameters yValues lengthScale noiseFreeScale noiseSigma
    let r := ComputeRobustLogEvidence ext ds yValues nCurrentItems h.1 h.2.1 h.2.2
    ClusterOutcome.returned (r.1 : R) h.1 h.2.1 h.2.2 r.2
  else if ds.noise_mode = 2 then
    let replicateNoise := ext.GetClusterSEMS itemIndex
    let h := ext.OptimiseHyperparametersEstimatedNoise yValues lengthScale noiseFreeScale
      noiseSigma replicateNoise
    let r := ComputeRobustLogEvidence ext ds yValues nCurrentItems h.1 h.2.1 h.2.2
    ClusterOutcome.returned (r.1 : R) h.1 h.2.1 h.2.2 r.2
  else
    ClusterOutcome.returned ⊥ lengthScale noiseFreeScale noiseSigma mixtureComponent

/-- Externals assembled from `log` and `exp` alone: the optimisers return the
hyperparameters they were given, the covariance is trivial and every evidence is 0. -/
def mkTCExt (log exp : R → R) : TCExternals R Unit :=
  { log := log, exp := exp,
    OptimiseHyperparameters := fun _ a b c => (a, b, c),
    OptimiseHyperparametersEstimatedNoise := fun _ a b c _ => (a, b, c),
    GetClusterSEMS := fun _ => 0,
    SquareExponentialCovarianceFunction := fun _ _ _ => (),
    AddNoiseToCovarianceFunction := fun _ _ => (),
    ComputeLogEvidence := fun _ _ => 0,
    CovarianceFunctionMissingSingleObservation := fun _ _ => (),
    ComputeMatrixMissingSingleObservationLogDeterminant := fun _ => 0,
    InvertMatrixMissingSingleObservation := fun _ => (),
    ComputePartRobustLogEvidenceMissingSingleObservation := fun _ _ _ => 0 }

/-- A data set of one item with one time point, value 0 and range 1, in the given noise
mode. -/
def demoDataSet (noise_mode : Int) : TimecourseDataSet R :=
  { data := [[0]], nTimePoints := 1, noise_mode := noise_mode, dataRange := 1 }

/-- The pairs `(k, i)` of loop counters in the order in which the nested loops of lines
127 and 138 reach the body of the inner loop. -/
def visitedPairs (nTimePoints nCurrentItems : Nat) : List (Nat × Nat) :=
  forLoop (fun k => forLoop (fun i (visited : List (Nat × Nat)) => visited ++ [(k, i)])
    0 nCurrentItems) 0 nTimePoints []

/-- A data set of one item with two time points, values 0 and range 1/4, in noise mode
0. -/
def outlierDataSet : TimecourseDataSet R :=
  { data := [[0, 0]], nTimePoints := 2, noise_mode := 0, dataRange := 1 / 4 }

end TimeCourse

/-! ## Loops -/

theorem forLoop_zero {σ : Type} (body : Nat → σ → σ) (lo : Nat) (s : σ) :
    forLoop body lo 0 s = s := rfl

theorem forLoop_succ {σ : Type} (body : Nat → σ → σ) (lo n : Nat) (s : σ) :
    forLoop body lo (n + 1) s = forLoop body (lo + 1) n (body lo s) := rfl

theorem forLoop_succ_last {σ : Type} (body : Nat → σ → σ) (lo n : Nat) (s : σ) :
    forLoop body lo (n + 1) s = body (lo + n) (forLoop body lo n s) := by
  induction n generalizing lo s with
  | zero => rfl
  | succ n ih =>
    have e : lo + 1 + n = lo + (n + 1) := by omega
    calc forLoop body lo (n + 1 + 1) s
        = forLoop body (lo + 1) (n + 1) (body lo s) := rfl
      _ = body (lo + 1 + n) (forLoop body (lo + 1) n (body lo s)) := ih _ _
      _ = body (lo + (n + 1)) (forLoop body lo (n + 1) s) := by rw [e]; rfl

/-- Invariant rule for a counted loop. -/
theorem forLoop_induct {σ : Type} (P : Nat → σ → Prop) (body : Nat → σ → σ) (lo n : Nat)
    (s : σ) (h0 : P lo s)
    (hstep : ∀ i s, lo ≤ i → i < lo + n → P i s → P (i + 1) (body i s)) :
    P (lo + n) (forLoop body lo n s) := by
  induction n generalizing lo s with
  | zero => simpa using h0
  | succ n ih =>
    rw [forLoop_succ]
    have h1 : P (lo + 1) (body lo s) := hstep lo s (le_refl _) (by omega) h0
    have := ih (lo + 1) (body lo s) h1
      (fun i s hi hlt hP => hstep i s (by omega) (by omega) hP)
    have e : lo + 1 + n = lo + (n + 1) := by omega
    rwa [e] at this

/-- A quantity no iteration changes is unchanged by the loop. -/
theorem forLoop_frame {σ α : Type} (f : σ → α) (body : Nat → σ → σ) (lo n : Nat) (s : σ)
    (h : ∀ i s, lo ≤ i → i < lo + n → f (body i s) = f s) :
    f (forLoop body lo n s) = f s :=
  forLoop_induct (fun _ x => f x = f s) body lo n s rfl
    (fun i x hi hlt hx => by
      show f (body i x) = f s
      rw [h i x hi hlt]; exact hx)

/-- If iteration `i` leaves every observation `o j` with `j ≠ i` alone, then after the
loop `o j` is what iteration `j` made of it. -/
theorem forLoop_obs {σ α : Type} (body : Nat → σ → σ) (o : Nat → σ → α)
    (h : ∀ i j x, i ≠ j → o j (body i x) = o j x) (lo n : Nat) (s : σ) (j : Nat)
    (hj : lo ≤ j) (hj2 : j < lo + n) :
    o j (forLoop body lo n s) = o j (body j (forLoop body lo (j - lo) s)) := by
  induction n with
  | zero => omega
  | succ n ih =>
    rw [forLoop_succ_last]
    by_cases e : j = lo + n
    · have e2 : j - lo = n := by omega
      rw [e2, e]
    · rw [h (lo + n) j _ (fun h => e h.symm)]
      exact ih (by omega)

section DriverLemmas

variable {R : Type} [LinearOrderedRing R] {H : Type}

/-! ## The selection scan -/

theorem ScanInv_congr {obs : Nat} {t : Nodes R} {s0 s : Sel R} {i0 j0 i1 j1 : Nat}
    (h : ∀ a b, Cand obs t a b → (Before i0 j0 a b ↔ Before i1 j1 a b))
    (hs : ScanInv obs t s0 i0 j0 s) : ScanInv obs t s0 i1 j1 s := by
  rcases hs with ⟨e, hall⟩ | ⟨a, b, hb, hc, e, hlt, hall⟩
  · exact Or.inl ⟨e, fun i j hB hC => hall i j ((h i j hC).2 hB) hC⟩
  · exact Or.inr ⟨a, b, (h a b hc).1 hb, hc, e, hlt,
      fun i j hB hC => hall i j ((h i j hC).2 hB) hC⟩

theorem scanInner_inv {obs : Nat} {t : Nodes R} {s0 s : Sel R} {i j : Nat}
    (hi : (t i).flag = 0) (hij : i < j) (hj : j < 2 * obs)
    (hs : ScanInv obs t s0 i j s) : ScanInv obs t s0 i (j + 1) (scanInner t i j s) := by
  have hB : ∀ a b, Before i (j + 1) a b → Before i j a b ∨ (a = i ∧ b = j) := by
    intro a b h
    rcases h with h | ⟨h1, h2⟩
    · exact Or.inl (Or.inl h)
    · rcases Nat.lt_succ_iff_lt_or_eq.1 h2 with h3 | h3
      · exact Or.inl (Or.inr ⟨h1, h3⟩)
      · exact Or.inr ⟨h1, h3⟩
  have hF : ∀ a b, Before i j a b → FirstOrSame a b i j := by
    intro a b h
    rcases h with h | ⟨h1, h2⟩
    · exact Or.inl h
    · exact Or.inr ⟨h1, le_of_lt h2⟩
  unfold scanInner
  split_ifs with hc
  · -- the pair (i, j) is selected
    obtain ⟨hfj, hgt⟩ := hc
    have hlt0 : s0.wt_temp < (t i).wt j := by
      rcases hs with ⟨e, _⟩ | ⟨a, b, _, _, e, hlt, _⟩
      · rw [e] at hgt; exact hgt
      · rw [e] at hgt; exact lt_trans hlt hgt
    refine Or.inr ⟨i, j, Or.inr ⟨rfl, Nat.lt_succ_self j⟩, ⟨hij, hj, hi, hfj⟩, rfl, hlt0, ?_⟩
    intro a b hab hC
    rcases hB a b hab with h | ⟨h1, h2⟩
    · have hlt : (t a).wt b < (t i).wt j := by
        rcases hs with ⟨e, hall⟩ | ⟨a0, b0, _, _, e, _, hall⟩
        · rw [e] at hgt; exact lt_of_le_of_lt (hall a b h hC) hgt
        · rw [e] at hgt; exact lt_of_le_of_lt (hall a b h hC).1 hgt
      exact ⟨le_of_lt hlt, fun e => absurd e (ne_of_lt hlt)⟩
    · subst h1; subst h2
      exact ⟨le_refl _, fun _ => Or.inr ⟨rfl, le_refl _⟩⟩
  · -- the selection is kept
    have hle : (t j).flag = 0 → (t i).wt j ≤ s.wt_temp := by
      intro hfj
      by_contra hcon
      exact hc ⟨hfj, lt_of_not_le hcon⟩
    rcases hs with ⟨e, hall⟩ | ⟨a0, b0, hb0, hc0, e, hlt, hall⟩
    · refine Or.inl ⟨e, ?_⟩
      intro a b hab hC
      rcases hB a b hab with h | ⟨h1, h2⟩
      · exact hall a b h hC
      · subst h1; subst h2
        have := hle hC.2.2.2
        rwa [e] at this
    · refine Or.inr ⟨a0, b0, Or.elim hb0 (fun h => Or.inl h)
        (fun h => Or.inr ⟨h.1, Nat.lt_succ_of_lt h.2⟩), hc0, e, hlt, ?_⟩
      intro a b hab hC
      rcases hB a b hab with h | ⟨h1, h2⟩
      · exact hall a b h hC
      · subst h1; subst h2
        have h3 := hle hC.2.2.2
        rw [e] at h3
        exact ⟨h3, fun _ => hF a0 b0 hb0⟩

theorem scanRow_inv {obs : Nat} {t : Nodes R} {s0 s : Sel R} {i : Nat} (hi : i < 2 * obs)
    (hs : ScanInv obs t s0 i 0 s) : ScanInv obs t s0 (i + 1) 0 (scanRow obs t i s) := by
  unfold scanRow
  split_ifs with hf
  · have h1 : ScanInv obs t s0 i (i + 1) s := by
      refine ScanInv_congr ?_ hs
      intro a b hC
      constructor
      · rintro (h | ⟨_, h⟩)
        · exact Or.inl h
        · exact absurd h (Nat.not_lt_zero _)
      · rintro (h | ⟨h1, h2⟩)
        · exact Or.inl h
        · have := hC.1; omega
    have h2 := forLoop_induct (fun j x => ScanInv obs t s0 i j x) (scanInner t i) (i + 1)
      (2 * obs - (i + 1)) s h1
      (fun j x hj hlt hx => scanInner_inv hf (by omega) (by omega) hx)
    refine ScanInv_congr ?_ h2
    intro a b hC
    constructor
    · rintro (h | ⟨h1, _⟩)
      · exact Or.inl (Nat.lt_succ_of_lt h)
      · exact Or.inl (by omega)
    · rintro (h | ⟨_, h⟩)
      · rcases Nat.lt_succ_iff_lt_or_eq.1 h with h3 | h3
        · exact Or.inl h3
        · have := hC.2.1
          exact Or.inr ⟨h3, by omega⟩
      · exact absurd h (Nat.not_lt_zero _)
  · refine ScanInv_congr ?_ hs
    intro a b hC
    constructor
    · rintro (h | ⟨_, h⟩)
      · exact Or.inl (Nat.lt_succ_of_lt h)
      · exact absurd h (Nat.not_lt_zero _)
    · rintro (h | ⟨_, h⟩)
      · rcases Nat.lt_succ_iff_lt_or_eq.1 h with h3 | h3
        · exact Or.inl h3
        · rw [h3] at hC; exact absurd hC.2.2.1 hf
      · exact absurd h (Nat.not_lt_zero _)

/-- The scan ends with the invariant over every candidate pair. -/
theorem scan_inv (obs : Nat) (t : Nodes R) (s0 : Sel R) :
    ScanInv obs t s0 (2 * obs) 0 (scan obs t s0) := by
  have h0 : ScanInv obs t s0 0 0 s0 :=
    Or.inl ⟨rfl, fun i j hB _ => by
      rcases hB with h | ⟨_, h⟩ <;> exact absurd h (Nat.not_lt_zero _)⟩
  have := forLoop_induct (fun i x => ScanInv obs t s0 i 0 x) (scanRow obs t) 0 (2 * obs) s0 h0
    (fun i x _ hlt hx => scanRow_inv (by omega) hx)
  simpa [scan] using this

omit [LinearOrderedRing R] in
theorem Cand.before {obs : Nat} {t : Nodes R} {i j : Nat} (h : Cand obs t i j) :
    Before (2 * obs) 0 i j :=
  Or.inl (lt_trans h.1 h.2.1)

/-- What the scan computes: with no candidate above the initial `wt_temp` the selection
is unchanged; otherwise it is the first candidate of maximal weight. -/
theorem scan_spec (obs : Nat) (t : Nodes R) (s0 : Sel R) :
    (scan obs t s0 = s0 ∧ ∀ i j, Cand obs t i j → (t i).wt j ≤ s0.wt_temp) ∨
    (∃ a b : Nat, Cand obs t a b ∧
      scan obs t s0 = { wt_temp := (t a).wt b, node1 := a, node2 := b } ∧
      s0.wt_temp < (t a).wt b ∧
      ∀ i j, Cand obs t i j →
        (t i).wt j ≤ (t a).wt b ∧ ((t i).wt j = (t a).wt b → FirstOrSame a b i j)) := by
  rcases scan_inv obs t s0 with ⟨e, hall⟩ | ⟨a, b, _, hc, e, hlt, hall⟩
  · exact Or.inl ⟨e, fun i j hC => hall i j hC.before hC⟩
  · exact Or.inr ⟨a, b, hc, e, hlt, fun i j hC => hall i j hC.before hC⟩

/-! ## Frames -/

theorem PairFrame.refl (W : Nat → Nat → Prop) (t : Nodes R) : PairFrame W t t :=
  fun _ => ⟨rfl, fun _ _ => ⟨rfl, rfl, rfl⟩⟩

theorem PairFrame.trans {W : Nat → Nat → Prop} {t x y : Nodes R}
    (h1 : PairFrame W t x) (h2 : PairFrame W x y) : PairFrame W t y := by
  intro k
  refine ⟨(h2 k).1.trans (h1 k).1, fun j hj => ?_⟩
  obtain ⟨a1, b1, c1⟩ := (h1 k).2 j hj
  obtain ⟨a2, b2, c2⟩ := (h2 k).2 j hj
  exact ⟨a2.trans a1, b2.trans b1, c2.trans c1⟩

theorem PairFrame.mono {W W' : Nat → Nat → Prop} {t x : Nodes R}
    (hW : ∀ k j, W k j → W' k j) (h : PairFrame W t x) : PairFrame W' t x :=
  fun k => ⟨(h k).1, fun j hj => (h k).2 j (fun hw => hj (hW k j hw))⟩

theorem PairFrame.forLoop {W : Nat → Nat → Prop} (body : Nat → Nodes R → Nodes R)
    (lo n : Nat) (t : Nodes R)
    (h : ∀ i x, lo ≤ i → i < lo + n → PairFrame W x (body i x)) :
    PairFrame W t (forLoop body lo n t) :=
  forLoop_induct (fun _ x => PairFrame W t x) body lo n t (PairFrame.refl W t)
    (fun i x hi hlt hx => hx.trans (h i x hi hlt))

theorem PairFrame.flag {W : Nat → Nat → Prop} {t x : Nodes R} (h : PairFrame W t x)
    (k : Nat) : (x k).flag = (t k).flag := by
  have e := congrArg NODE.flag (h k).1
  exact e
theorem PairFrame.pleft {W : Nat → Nat → Prop} {t x : Nodes R} (h : PairFrame W t x)
    (k : Nat) : (x k).pleft = (t k).pleft := by
  have e := congrArg NODE.pleft (h k).1
  exact e
theorem PairFrame.pright {W : Nat → Nat → Prop} {t x : Nodes R} (h : PairFrame W t x)
    (k : Nat) : (x k).pright = (t k).pright := by
  have e := congrArg NODE.pright (h k).1
  exact e
theorem PairFrame.vec_no {W : Nat → Nat → Prop} {t x : Nodes R} (h : PairFrame W t x)
    (k : Nat) : (x k).vec_no = (t k).vec_no := by
  have e := congrArg NODE.vec_no (h k).1
  exact e
theorem PairFrame.nk {W : Nat → Nat → Prop} {t x : Nodes R} (h : PairFrame W t x)
    (k : Nat) : (x k).nk = (t k).nk := by
  have e := congrArg NODE.nk (h k).1
  exact e
theorem PairFrame.ck {W : Nat → Nat → Prop} {t x : Nodes R} (h : PairFrame W t x)
    (k : Nat) : (x k).ck = (t k).ck := by
  have e := congrArg NODE.ck (h k).1
  exact e
theorem PairFrame.den {W : Nat → Nat → Prop} {t x : Nodes R} (h : PairFrame W t x)
    (k : Nat) : (x k).den = (t k).den := by
  have e := congrArg NODE.den (h k).1
  exact e
theorem PairFrame.dat {W : Nat → Nat → Prop} {t x : Nodes R} (h : PairFrame W t x)
    (k : Nat) : (x k).dat = (t k).dat := by
  have e := congrArg NODE.dat (h k).1
  exact e

/-- One pair entry written at `(i, j)`. -/
theorem PairFrame.of_write (t : Nodes R) (i j : Nat) (a b c : R) :
    PairFrame (fun k l => k = i ∧ l = j) t
      (setNode t i { t i with
        num1 := Function.update (t i).num1 j a,
        num2 := Function.update (t i).num2 j b,
        wt := Function.update (t i).wt j c }) := by
  intro k
  by_cases hk : k = i
  · subst hk
    refine ⟨by simp [setNode, NODE.erasePairs], fun l hl => ?_⟩
    have hlj : l ≠ j := fun e => hl ⟨rfl, e⟩
    simp [setNode, Function.update_apply, hlj]
  · exact ⟨by simp [setNode, hk], fun l _ => by simp [setNode, hk]⟩

theorem pairInit_eq (ext : Externals R H) (hp : H) (dim nfv : Nat) (alp : R) (i j : Nat)
    (hij : i ≠ j) (t : Nodes R) :
    pairInit ext hp dim nfv alp i j t =
      setNode t i { t i with
        num1 := Function.update (t i).num1 j
          (ext.log alp + ext.fast_gammaln ((t i).nk + (t j).nk)
            - logSumExp ext (ext.log alp + ext.fast_gammaln ((t i).nk + (t j).nk))
                ((t i).ck + (t j).ck)
            + ext.binevidence t dim hp i j nfv),
        num2 := Function.update (t i).num2 j
          ((t i).ck + (t j).ck
            - logSumExp ext (ext.log alp + ext.fast_gammaln ((t i).nk + (t j).nk))
                ((t i).ck + (t j).ck)
            + (t i).wt i + (t j).wt j),
        wt := Function.update (t i).wt j
          (ext.log alp + ext.fast_gammaln ((t i).nk + (t j).nk)
            - logSumExp ext (ext.log alp + ext.fast_gammaln ((t i).nk + (t j).nk))
                ((t i).ck + (t j).ck)
            + ext.binevidence t dim hp i j nfv
          - ((t i).ck + (t j).ck
            - logSumExp ext (ext.log alp + ext.fast_gammaln ((t i).nk + (t j).nk))
                ((t i).ck + (t j).ck)
            + (t i).wt i + (t j).wt j)) } := by
  have hji : j ≠ i := fun e => hij e.symm
  simp [pairInit, setNode, Function.update_apply, hji]

theorem partner_eq (ext : Externals R H) (hp : H) (dim nfv : Nat) (alp : R)
    (m n1 n2 k : Nat) (hkm : k ≠ m) (t : Nodes R)
    (hc : (t k).flag ≠ 1 ∧ k ≠ n1 ∧ k ≠ n2) :
    partner ext hp dim nfv alp m n1 n2 k t =
      setNode t k { t k with
        num1 := Function.update (t k).num1 m
          (ext.log alp + ext.fast_gammaln ((t m).nk + (t k).nk)
            - logSumExp ext (ext.log alp + ext.fast_gammaln ((t m).nk + (t k).nk))
                ((t m).ck + (t k).ck)
            + ext.binevidence t dim hp m k nfv),
        num2 := Function.update (t k).num2 m
          ((t m).ck + (t k).ck
            - logSumExp ext (ext.log alp + ext.fast_gammaln ((t m).nk + (t k).nk))
                ((t m).ck + (t k).ck)
            + (t m).den + (t k).den),
        wt := Function.update (t k).wt m
          (ext.log alp + ext.fast_gammaln ((t m).nk + (t k).nk)
            - logSumExp ext (ext.log alp + ext.fast_gammaln ((t m).nk + (t k).nk))
                ((t m).ck + (t k).ck)
            + ext.binevidence t dim hp m k nfv
          - ((t m).ck + (t k).ck
            - logSumExp ext (ext.log alp + ext.fast_gammaln ((t m).nk + (t k).nk))
                ((t m).ck + (t k).ck)
            + (t m).den + (t k).den)) } := by
  have hmk : m ≠ k := fun e => hkm e.symm
  simp [partner, hc, setNode, Function.update_apply, hmk]


theorem mergeNode_eq (ext : Externals R H) (alp : R) (m n1 n2 : Nat) (t : Nodes R) :
    mergeNode ext alp m n1 n2 t = setNode t m
      { t m with
        pleft := n1, pright := n2,
        wt := Function.update (t m).wt m ((t n1).wt n2),
        den := logSumExp ext ((t n1).num1 n2) ((t n1).num2 n2),
        ck := logSumExp ext (ext.log alp + ext.fast_gammaln ((t n1).nk + (t n2).nk))
          ((t n1).ck + (t n2).ck),
        nk := (t n1).nk + (t n2).nk } := by
  simp only [mergeNode, setNode, Int.toNat_ofNat, Function.update_same, Function.update_idem]
  by_cases h1 : n1 = m <;> by_cases h2 : n2 = m <;> simp [h1, h2, Function.update_apply]

/-! ## The stages of one merge -/

theorem mergeData_eq (dim nfv m n1 n2 : Nat) (t : Nodes R) :
    ∃ d, mergeData dim nfv m n1 n2 t =
      setNode t m { t m with dat := d, vec_no := (t n1).vec_no + (t n2).vec_no } := by
  have hD : ∃ d, forLoop (fun k => forLoop (datCell m n1 n2 k) 0 nfv) 0 dim t =
      setNode t m { t m with dat := d } := by
    have := forLoop_induct (fun _ x => ∃ d, x = setNode t m { t m with dat := d })
      (fun k => forLoop (datCell m n1 n2 k) 0 nfv) 0 dim t
      ⟨(t m).dat, by simp [setNode]⟩
      (fun i x _ _ hx => by
        have h2 := forLoop_induct (fun _ y => ∃ d, y = setNode t m { t m with dat := d })
          (datCell m n1 n2 i) 0 nfv x hx
          (fun j y _ _ hy => by
            obtain ⟨d, rfl⟩ := hy
            show ∃ d', datCell m n1 n2 i j _ = setNode t m { t m with dat := d' }
            simp only [datCell, setNode, Function.update_same, Function.update_idem]
            exact ⟨_, rfl⟩)
        exact h2)
    exact this
  obtain ⟨d, hd⟩ := hD
  refine ⟨d, ?_⟩
  simp only [mergeData, hd, setNode, Function.update_same, Function.update_idem]
  by_cases h1 : n1 = m <;> by_cases h2 : n2 = m <;> simp [h1, h2, Function.update_apply]

theorem mergePartners_frame (ext : Externals R H) (hp : H) (dim nfv : Nat) (alp : R)
    (m n1 n2 : Nat) (t : Nodes R) :
    PairFrame (fun k j => j = m ∧ k < m) t
      (mergePartners ext hp dim nfv alp m n1 n2 t) := by
  refine PairFrame.forLoop _ 0 m t (fun i x _ hi => ?_)
  have him : i < m := by omega
  by_cases hc : (x i).flag ≠ 1 ∧ i ≠ n1 ∧ i ≠ n2
  · rw [partner_eq ext hp dim nfv alp m n1 n2 i (ne_of_lt him) x hc]
    exact (PairFrame.of_write x i m _ _ _).mono (fun k j (h : k = i ∧ j = m) => ⟨h.2, h.1 ▸ him⟩)
  · have : partner ext hp dim nfv alp m n1 n2 i x = x := by simp only [partner, if_neg hc]
    rw [this]
    exact PairFrame.refl _ x

omit [LinearOrderedRing R] in
theorem mergeFlags_apply (n1 n2 : Nat) (t : Nodes R) (k : Nat) :
    mergeFlags n1 n2 t k = if k = n1 ∨ k = n2 then { t k with flag := 1 } else t k := by
  simp only [mergeFlags, setNode]
  by_cases h2 : k = n2
  · subst h2
    rw [Function.update_same, if_pos (Or.inr rfl)]
    by_cases h1 : k = n1
    · subst h1; rw [Function.update_same]
    · rw [Function.update_noteq h1]
  · rw [Function.update_noteq h2]
    by_cases h1 : k = n1
    · subst h1; rw [Function.update_same, if_pos (Or.inl rfl)]
    · rw [Function.update_noteq h1, if_neg (by tauto)]

/-- The node array after lines 131-166, stage by stage: the new node is written, the
partner loop runs on the result, and the two flags are set. -/
theorem mergeBody_stages (ext : Externals R H) (hp : H) (dim nfv : Nat) (alp : R)
    (m n1 n2 : Nat) (t : Nodes R) :
    ∃ d : Nat → Nat → R,
      mergeBody ext hp dim nfv alp m n1 n2 t = mergeFlags n1 n2
        (mergePartners ext hp dim nfv alp m n1 n2
          (setNode t m { t m with
            pleft := n1, pright := n2,
            wt := Function.update (t m).wt m ((t n1).wt n2),
            den := logSumExp ext ((t n1).num1 n2) ((t n1).num2 n2),
            ck := logSumExp ext (ext.log alp + ext.fast_gammaln ((t n1).nk + (t n2).nk))
              ((t n1).ck + (t n2).ck),
            nk := (t n1).nk + (t n2).nk,
            dat := d,
            vec_no := (if n1 = m then (t m).vec_no else (t n1).vec_no) +
              (if n2 = m then (t m).vec_no else (t n2).vec_no) })) := by
  obtain ⟨d, hd⟩ := mergeData_eq dim nfv m n1 n2 (mergeNode ext alp m n1 n2 t)
  have hu : mergeData dim nfv m n1 n2 (mergeNode ext alp m n1 n2 t) =
      setNode t m { t m with
          pleft := n1, pright := n2,
          wt := Function.update (t m).wt m ((t n1).wt n2),
          den := logSumExp ext ((t n1).num1 n2) ((t n1).num2 n2),
          ck := logSumExp ext (ext.log alp + ext.fast_gammaln ((t n1).nk + (t n2).nk))
            ((t n1).ck + (t n2).ck),
          nk := (t n1).nk + (t n2).nk,
          dat := d,
          vec_no := (if n1 = m then (t m).vec_no else (t n1).vec_no) +
            (if n2 = m then (t m).vec_no else (t n2).vec_no) } := by
    rw [hd, mergeNode_eq]
    simp only [setNode, Function.update_same, Function.update_idem]
    by_cases h1 : n1 = m <;> by_cases h2 : n2 = m <;>
      simp [h1, h2, Function.update_apply]
  refine ⟨d, ?_⟩
  simp only [mergeBody, Int.toNat_ofNat]
  rw [hu]

/-- Shape of the node array after lines 131-166: the partner loop changes column `m` of
the pair tables only. -/
theorem mergeBody_struct (ext : Externals R H) (hp : H) (dim nfv : Nat) (alp : R)
    (m n1 n2 : Nat) (t : Nodes R) :
    ∃ (d : Nat → Nat → R) (p : Nodes R),
      PairFrame (fun k j => j = m ∧ k < m)
        (setNode t m { t m with
          pleft := n1, pright := n2,
          wt := Function.update (t m).wt m ((t n1).wt n2),
          den := logSumExp ext ((t n1).num1 n2) ((t n1).num2 n2),
          ck := logSumExp ext (ext.log alp + ext.fast_gammaln ((t n1).nk + (t n2).nk))
            ((t n1).ck + (t n2).ck),
          nk := (t n1).nk + (t n2).nk,
          dat := d,
          vec_no := (if n1 = m then (t m).vec_no else (t n1).vec_no) +
            (if n2 = m then (t m).vec_no else (t n2).vec_no) }) p ∧
      mergeBody ext hp dim nfv alp m n1 n2 t = mergeFlags n1 n2 p := by
  obtain ⟨d, e⟩ := mergeBody_stages ext hp dim nfv alp m n1 n2 t
  exact ⟨d, _, mergePartners_frame ext hp dim nfv alp m n1 n2 _, e⟩

/-! ## Field by field: the node array after one merge -/

theorem mergeBody_flag (ext : Externals R H) (hp : H) (dim nfv : Nat) (alp : R)
    (m n1 n2 : Nat) (t : Nodes R) (k : Nat) :
    (mergeBody ext hp dim nfv alp m n1 n2 t k).flag =
      if k = n1 ∨ k = n2 then 1 else (t k).flag := by
  obtain ⟨d, p, hf, e⟩ := mergeBody_struct ext hp dim nfv alp m n1 n2 t
  rw [e, mergeFlags_apply]
  have h := hf.flag k
  by_cases hk : k = m <;> split_ifs <;> simp_all [setNode, Function.update_apply]

theorem mergeBody_pleft (ext : Externals R H) (hp : H) (dim nfv : Nat) (alp : R)
    (m n1 n2 : Nat) (t : Nodes R) (k : Nat) :
    (mergeBody ext hp dim nfv alp m n1 n2 t k).pleft =
      if k = m then (n1 : Int) else (t k).pleft := by
  obtain ⟨d, p, hf, e⟩ := mergeBody_struct ext hp dim nfv alp m n1 n2 t
  rw [e, mergeFlags_apply]
  have h := hf.pleft k
  by_cases hk : k = m <;> split_ifs <;> simp_all [setNode, Function.update_apply]

theorem mergeBody_pright (ext : Externals R H) (hp : H) (dim nfv : Nat) (alp : R)
    (m n1 n2 : Nat) (t : Nodes R) (k : Nat) :
    (mergeBody ext hp dim nfv alp m n1 n2 t k).pright =
      if k = m then (n2 : Int) else (t k).pright := by
  obtain ⟨d, p, hf, e⟩ := mergeBody_struct ext hp dim nfv alp m n1 n2 t
  rw [e, mergeFlags_apply]
  have h := hf.pright k
  by_cases hk : k = m <;> split_ifs <;> simp_all [setNode, Function.update_apply]

theorem mergeBody_nk (ext : Externals R H) (hp : H) (dim nfv : Nat) (alp : R)
    (m n1 n2 : Nat) (t : Nodes R) (k : Nat) :
    (mergeBody ext hp dim nfv alp m n1 n2 t k).nk =
      if k = m then (t n1).nk + (t n2).nk else (t k).nk := by
  obtain ⟨d, p, hf, e⟩ := mergeBody_struct ext hp dim nfv alp m n1 n2 t
  rw [e, mergeFlags_apply]
  have h := hf.nk k
  by_cases hk : k = m <;> split_ifs <;> simp_all [setNode, Function.update_apply]

theorem mergeBody_ck (ext : Externals R H) (hp : H) (dim nfv : Nat) (alp : R)
    (m n1 n2 : Nat) (t : Nodes R) (k : Nat) :
    (mergeBody ext hp dim nfv alp m n1 n2 t k).ck =
      if k = m then
        logSumExp ext (ext.log alp + ext.fast_gammaln ((t n1).nk + (t n2).nk))
          ((t n1).ck + (t n2).ck)
      else (t k).ck := by
  obtain ⟨d, p, hf, e⟩ := mergeBody_struct ext hp dim nfv alp m n1 n2 t
  rw [e, mergeFlags_apply]
  have h := hf.ck k
  by_cases hk : k = m <;> split_ifs <;> simp_all [setNode, Function.update_apply]

theorem mergeBody_den (ext : Externals R H) (hp : H) (dim nfv : Nat) (alp : R)
    (m n1 n2 : Nat) (t : Nodes R) (k : Nat) :
    (mergeBody ext hp dim nfv alp m n1 n2 t k).den =
      if k = m then logSumExp ext ((t n1).num1 n2) ((t n1).num2 n2) else (t k).den := by
  obtain ⟨d, p, hf, e⟩ := mergeBody_struct ext hp dim nfv alp m n1 n2 t
  rw [e, mergeFlags_apply]
  have h := hf.den k
  by_cases hk : k = m <;> split_ifs <;> simp_all [setNode, Function.update_apply]

theorem mergeBody_dat_ne (ext : Externals R H) (hp : H) (dim nfv : Nat) (alp : R)
    (m n1 n2 : Nat) (t : Nodes R) (k : Nat) (hk : k ≠ m) :
    (mergeBody ext hp dim nfv alp m n1 n2 t k).dat = (t k).dat := by
  obtain ⟨d, p, hf, e⟩ := mergeBody_struct ext hp dim nfv alp m n1 n2 t
  rw [e, mergeFlags_apply]
  have h := hf.dat k
  split_ifs <;> simp_all [setNode, Function.update_apply]

theorem mergeBody_vec_no_ne (ext : Externals R H) (hp : H) (dim nfv : Nat) (alp : R)
    (m n1 n2 : Nat) (t : Nodes R) (k : Nat) (hk : k ≠ m) :
    (mergeBody ext hp dim nfv alp m n1 n2 t k).vec_no = (t k).vec_no := by
  obtain ⟨d, p, hf, e⟩ := mergeBody_struct ext hp dim nfv alp m n1 n2 t
  rw [e, mergeFlags_apply]
  have h := hf.vec_no k
  split_ifs <;> simp_all [setNode, Function.update_apply]

/-- A merge writes the pair tables in column `merged_node` only. -/
theorem mergeBody_pairs_ne (ext : Externals R H) (hp : H) (dim nfv : Nat) (alp : R)
    (m n1 n2 : Nat) (t : Nodes R) (k j : Nat) (hj : j ≠ m) :
    (mergeBody ext hp dim nfv alp m n1 n2 t k).num1 j = (t k).num1 j ∧
    (mergeBody ext hp dim nfv alp m n1 n2 t k).num2 j = (t k).num2 j ∧
    (mergeBody ext hp dim nfv alp m n1 n2 t k).wt j = (t k).wt j := by
  obtain ⟨d, p, hf, e⟩ := mergeBody_struct ext hp dim nfv alp m n1 n2 t
  rw [e, mergeFlags_apply]
  have h := (hf k).2 j (fun hw => hj hw.1)
  by_cases hk : k = m <;> split_ifs <;> simp_all [setNode, Function.update_apply]

/-- Line 133: the diagonal weight of the new node is the weight of the selected pair. -/
theorem mergeBody_wt_diag (ext : Externals R H) (hp : H) (dim nfv : Nat) (alp : R)
    (m n1 n2 : Nat) (t : Nodes R) :
    (mergeBody ext hp dim nfv alp m n1 n2 t m).wt m = (t n1).wt n2 := by
  obtain ⟨d, p, hf, e⟩ := mergeBody_struct ext hp dim nfv alp m n1 n2 t
  rw [e, mergeFlags_apply]
  have h := (hf m).2 m (fun hw => absurd hw.2 (lt_irrefl m))
  split_ifs <;> simp_all [setNode, Function.update_apply]

/-! ## Initialisation (lines 60-107) -/

theorem leafInit_eq (ext : Externals R H) (hp : H) (dim nfv : Nat) (alp : R) (i : Nat)
    (t : Nodes R) :
    leafInit ext hp dim nfv alp i t = setNode t i
      { t i with
        wt := Function.update (t i).wt i (ext.binevidence t dim hp i (-1) nfv),
        ck := ext.log alp, nk := 1, den := ext.binevidence t dim hp i (-1) nfv } := by
  simp [leafInit, setNode]

/-- Closed form of the node array after the first `n` single-point initialisations. -/
theorem leafLoop_apply (ext : Externals R H) (hp : H) (dim nfv : Nat) (alp : R)
    (t : Nodes R) (n k : Nat) :
    forLoop (leafInit ext hp dim nfv alp) 0 n t k =
      if k < n then
        { t k with
          wt := Function.update (t k).wt k
            (ext.binevidence (forLoop (leafInit ext hp dim nfv alp) 0 k t) dim hp k (-1) nfv),
          ck := ext.log alp, nk := 1,
          den := ext.binevidence (forLoop (leafInit ext hp dim nfv alp) 0 k t)
            dim hp k (-1) nfv }
      else t k := by
  induction n with
  | zero => simp [forLoop]
  | succ n ih =>
    rw [forLoop_succ_last, Nat.zero_add, leafInit_eq]
    by_cases hk : k = n
    · subst hk
      have hx : forLoop (leafInit ext hp dim nfv alp) 0 k t k = t k := by
        rw [ih, if_neg (lt_irrefl k)]
      simp only [setNode, Function.update_same, hx, if_pos (Nat.lt_succ_self k)]
    · simp only [setNode, Function.update_noteq hk]
      rw [ih]
      have : k < n + 1 ↔ k < n := by omega
      simp only [this]

theorem pairLoop_frame (ext : Externals R H) (hp : H) (dim nfv : Nat) (alp : R)
    (obs : Nat) (t : Nodes R) :
    PairFrame (fun k j => k < j ∧ j < obs) t
      (forLoop (fun i => forLoop (pairInit ext hp dim nfv alp i) (i + 1) (obs - (i + 1)))
        0 obs t) := by
  refine PairFrame.forLoop _ 0 obs t (fun i x _ _ => ?_)
  refine PairFrame.forLoop _ (i + 1) (obs - (i + 1)) x (fun j y hj hlt => ?_)
  have hij : i < j := by omega
  have hjo : j < obs := by omega
  rw [pairInit_eq ext hp dim nfv alp i j (ne_of_lt hij) y]
  exact (PairFrame.of_write y i j _ _ _).mono
    (fun k l (h : k = i ∧ l = j) => by rw [h.1, h.2]; exact ⟨hij, hjo⟩)

/-- Initialisation writes no link, flag, count table or `vec_no`. -/
theorem initNodes_frame (ext : Externals R H) (t : Nodes R) (dim obs : Nat) (cc alp : R)
    (nfv : Nat) (k : Nat) :
    (initNodes ext t dim obs cc alp nfv k).flag = (t k).flag ∧
    (initNodes ext t dim obs cc alp nfv k).pleft = (t k).pleft ∧
    (initNodes ext t dim obs cc alp nfv k).pright = (t k).pright ∧
    (initNodes ext t dim obs cc alp nfv k).dat = (t k).dat ∧
    (initNodes ext t dim obs cc alp nfv k).vec_no = (t k).vec_no := by
  have hf := pairLoop_frame ext (ext.CalculateHyperparameters t dim obs nfv cc) dim nfv alp obs
    (forLoop (leafInit ext (ext.CalculateHyperparameters t dim obs nfv cc) dim nfv alp) 0 obs t)
  have hl := leafLoop_apply ext (ext.CalculateHyperparameters t dim obs nfv cc) dim nfv alp
    t obs k
  simp only [initNodes]
  rw [hf.flag k, hf.pleft k, hf.pright k, hf.dat k, hf.vec_no k, hl]
  split_ifs <;> simp

/-- After initialisation every data point has `nk = 1`, `ck = log(alp)` and `den` equal
to its diagonal weight, the value `binevidence(i, -1)` returned on line 69. -/
theorem initNodes_leaf (ext : Externals R H) (t : Nodes R) (dim obs : Nat) (cc alp : R)
    (nfv : Nat) (k : Nat) (hk : k < obs) :
    (initNodes ext t dim obs cc alp nfv k).nk = 1 ∧
    (initNodes ext t dim obs cc alp nfv k).ck = ext.log alp ∧
    (initNodes ext t dim obs cc alp nfv k).den =
      ext.binevidence
        (forLoop (leafInit ext (ext.CalculateHyperparameters t dim obs nfv cc) dim nfv alp)
          0 k t)
        dim (ext.CalculateHyperparameters t dim obs nfv cc) k (-1) nfv ∧
    (initNodes ext t dim obs cc alp nfv k).wt k =
      ext.binevidence
        (forLoop (leafInit ext (ext.CalculateHyperparameters t dim obs nfv cc) dim nfv alp)
          0 k t)
        dim (ext.CalculateHyperparameters t dim obs nfv cc) k (-1) nfv := by
  have hf := pairLoop_frame ext (ext.CalculateHyperparameters t dim obs nfv cc) dim nfv alp obs
    (forLoop (leafInit ext (ext.CalculateHyperparameters t dim obs nfv cc) dim nfv alp) 0 obs t)
  have hl := leafLoop_apply ext (ext.CalculateHyperparameters t dim obs nfv cc) dim nfv alp
    t obs k
  have hw := ((hf k).2 k (fun h => absurd h.1 (lt_irrefl k))).2.2
  simp only [initNodes]
  rw [hf.nk k, hf.ck k, hf.den k, hw, hl, if_pos hk]
  simp

/-- Initialisation leaves every pair-table column `j >= obs` as it found it. -/
theorem initNodes_wt_ge (ext : Externals R H) (t : Nodes R) (dim obs : Nat) (cc alp : R)
    (nfv : Nat) (k j : Nat) (hj : obs ≤ j) :
    (initNodes ext t dim obs cc alp nfv k).wt j = (t k).wt j := by
  have hf := pairLoop_frame ext (ext.CalculateHyperparameters t dim obs nfv cc) dim nfv alp obs
    (forLoop (leafInit ext (ext.CalculateHyperparameters t dim obs nfv cc) dim nfv alp) 0 obs t)
  have hl := leafLoop_apply ext (ext.CalculateHyperparameters t dim obs nfv cc) dim nfv alp
    t obs k
  have hw := ((hf k).2 j (fun h => absurd h.2 (not_lt.2 hj))).2.2
  simp only [initNodes]
  rw [hw, hl]
  split_ifs with h
  · have : j ≠ k := by omega
    simp [Function.update_apply, this]
  · rfl

/-! ## The merging loop -/

omit [LinearOrderedRing R] in
theorem mem_activeSet {t : Nodes R} {M k : Nat} :
    k ∈ activeSet t M ↔ k < M ∧ (t k).flag = 0 := by
  simp [activeSet]

/-- The invariant holds on entry to the merging loop. -/
theorem initState_inv (ext : Externals R H) (t : Nodes R) (dim obs : Nat)
    (cc alp min_wt : R) (nfv : Nat) (hs : StartOK obs min_wt t) :
    MergeInv obs min_wt t 0 (initState ext t dim obs cc alp nfv) := by
  have hfl : ∀ k, k < 2 * obs → (initNodes ext t dim obs cc alp nfv k).flag = 0 := by
    intro k hk
    rw [(initNodes_frame ext t dim obs cc alp nfv k).1]
    exact hs.flags k hk
  have hA : activeSet (initNodes ext t dim obs cc alp nfv) obs = Finset.range obs := by
    ext k
    rw [mem_activeSet, Finset.mem_range]
    exact ⟨fun h => h.1, fun h => ⟨h, hfl k (by omega)⟩⟩
  refine
    { merged := rfl
      flag01 := fun k hk => Or.inl (hfl k (by omega))
      flagHi := fun k _ hk => hfl k hk
      unwritten := fun k m hkm hm hm2 => by
        show (initNodes ext t dim obs cc alp nfv k).wt m ≤ min_wt
        rw [initNodes_wt_ge ext t dim obs cc alp nfv k m (by omega)]
        exact hs.unwritten k m hkm (by omega) hm2
      card := by
        show (activeSet (initNodes ext t dim obs cc alp nfv) (obs + 0)).card = obs - 0
        rw [Nat.add_zero, hA, Finset.card_range, Nat.sub_zero]
      kids := fun m h1 h2 => by omega
      consumed := fun k hk => by
        constructor
        · intro h
          have h0 : (initNodes ext t dim obs cc alp nfv k).flag = 0 := hfl k (by omega)
          have h1 : (initNodes ext t dim obs cc alp nfv k).flag = 1 := h
          rw [h0] at h1
          exact absurd h1 (by decide)
        · rintro ⟨m, h1, h2, _⟩
          omega
      oneParent := fun k m m' h1 h2 _ _ _ _ => by omega
      newest := fun h => absurd h (lt_irrefl 0)
      leafLinks := fun k _ =>
        ⟨(initNodes_frame ext t dim obs cc alp nfv k).2.1,
          (initNodes_frame ext t dim obs cc alp nfv k).2.2.1⟩
      nk_leaf := fun k hk => (initNodes_leaf ext t dim obs cc alp nfv k hk).1
      nk_add := fun m h1 h2 => by omega
      nk_sum := by
        show (∑ k in activeSet (initNodes ext t dim obs cc alp nfv) (obs + 0),
          (initNodes ext t dim obs cc alp nfv k).nk) = (obs : R)
        rw [Nat.add_zero, hA]
        rw [Finset.sum_congr rfl (fun k hk =>
          (initNodes_leaf ext t dim obs cc alp nfv k (Finset.mem_range.1 hk)).1)]
        simp }

/-- Under the invariant, with at least two active nodes left and their weights above
`min_wt`, an iteration of the merging loop selects the first pair of maximal weight among
the active populated nodes and merges it into node `obs + n`. -/
theorem mergeStep_of_inv (ext : Externals R H) (hp : H) (dim obs nfv : Nat)
    (alp min_wt : R) (t0 : Nodes R) (n : Nat) (L : MergeState R)
    (hI : MergeInv obs min_wt t0 n L) (hn : n + 1 < obs)
    (hW : ∀ k m, k < m → m < obs + n → (L.tr_node k).flag = 0 → (L.tr_node m).flag = 0 →
      min_wt < (L.tr_node k).wt m) :
    ∃ a b : Nat, a < b ∧ b < obs + n ∧ (L.tr_node a).flag = 0 ∧ (L.tr_node b).flag = 0 ∧
      min_wt < (L.tr_node a).wt b ∧
      (∀ i j, Cand obs L.tr_node i j →
        (L.tr_node i).wt j ≤ (L.tr_node a).wt b ∧
        ((L.tr_node i).wt j = (L.tr_node a).wt b → FirstOrSame a b i j)) ∧
      mergeStep ext hp dim obs nfv alp min_wt L = some
        { tr_node := mergeBody ext hp dim nfv alp (obs + n) a b L.tr_node,
          node1 := a, node2 := b, merged_node := obs + n } := by
  -- two distinct active populated nodes exist
  have hcard : 1 < (activeSet L.tr_node (obs + n)).card := by rw [hI.card]; omega
  obtain ⟨x, hx, y, hy, hxy⟩ := Finset.one_lt_card.1 hcard
  rw [mem_activeSet] at hx hy
  have hex : ∃ i j, Cand obs L.tr_node i j ∧ min_wt < (L.tr_node i).wt j := by
    rcases Nat.lt_or_gt_of_ne hxy with h | h
    · exact ⟨x, y, ⟨h, by omega, hx.2, hy.2⟩, hW x y h hy.1 hx.2 hy.2⟩
    · exact ⟨y, x, ⟨h, by omega, hy.2, hx.2⟩, hW y x h hx.1 hy.2 hx.2⟩
  obtain ⟨i0, j0, hC0, hw0⟩ := hex
  rcases scan_spec obs L.tr_node { wt_temp := min_wt, node1 := L.node1, node2 := L.node2 }
    with ⟨_, hall⟩ | ⟨a, b, hC, e, hlt, hall⟩
  · exact absurd hw0 (not_lt.2 (hall i0 j0 hC0))
  · have hb : b < obs + n := by
      by_contra hcon
      exact absurd hlt (not_lt.2 (hI.unwritten a b hC.1 (by omega) hC.2.1))
    refine ⟨a, b, hC.1, hb, hC.2.2.1, hC.2.2.2, hlt, hall, ?_⟩
    have hm : L.merged_node + 1 = obs + n := by rw [hI.merged]; omega
    have hneg : ¬ ((a : Int) < 0 ∨ (b : Int) < 0) := by omega
    simp only [mergeStep, e, hm, if_neg hneg]

/-- Merging an active pair `a < b` of populated nodes preserves the loop invariant. -/
theorem mergeBody_inv (ext : Externals R H) (hp : H) (dim obs nfv : Nat)
    (alp min_wt : R) (t0 : Nodes R) (n : Nat) (L : MergeState R)
    (hI : MergeInv obs min_wt t0 n L) (hn : n + 1 < obs) (a b : Nat)
    (hab : a < b) (hb : b < obs + n)
    (ha0 : (L.tr_node a).flag = 0) (hb0 : (L.tr_node b).flag = 0) :
    MergeInv obs min_wt t0 (n + 1)
      { tr_node := mergeBody ext hp dim nfv alp (obs + n) a b L.tr_node,
        node1 := a, node2 := b, merged_node := obs + n } := by
  have hF := mergeBody_flag ext hp dim nfv alp (obs + n) a b L.tr_node
  have hPl := mergeBody_pleft ext hp dim nfv alp (obs + n) a b L.tr_node
  have hPr := mergeBody_pright ext hp dim nfv alp (obs + n) a b L.tr_node
  have hNk := mergeBody_nk ext hp dim nfv alp (obs + n) a b L.tr_node
  have hWt := mergeBody_pairs_ne ext hp dim nfv alp (obs + n) a b L.tr_node
  have ham : a ≠ obs + n := by omega
  have hbm : b ≠ obs + n := by omega
  have hm0 : (L.tr_node (obs + n)).flag = 0 := hI.flagHi (obs + n) (le_refl _) (by omega)
  have hFm : (mergeBody ext hp dim nfv alp (obs + n) a b L.tr_node (obs + n)).flag = 0 := by
    rw [hF, if_neg (by omega)]; exact hm0
  -- children of old internal nodes are below them, hence not the new node
  have hold : ∀ j k, obs ≤ j → j < obs + n → IsChild L.tr_node j k → k < j := by
    intro j k h1 h2 hc
    obtain ⟨l, r, hl, hr, hlr, hrj⟩ := hI.kids j h1 h2
    rcases hc with hc | hc
    · rw [hl] at hc; omega
    · rw [hr] at hc; omega
  have hch : ∀ j k, j ≠ obs + n →
      (IsChild (mergeBody ext hp dim nfv alp (obs + n) a b L.tr_node) j k ↔
        IsChild L.tr_node j k) := by
    intro j k hj
    unfold IsChild
    rw [hPl, hPr, if_neg hj, if_neg hj]
  have hchm : ∀ k, IsChild (mergeBody ext hp dim nfv alp (obs + n) a b L.tr_node) (obs + n) k ↔
      (k = a ∨ k = b) := by
    intro k
    unfold IsChild
    rw [hPl, hPr, if_pos rfl, if_pos rfl]
    omega
  have hAset : activeSet (mergeBody ext hp dim nfv alp (obs + n) a b L.tr_node) (obs + (n + 1)) =
      insert (obs + n) (((activeSet L.tr_node (obs + n)).erase a).erase b) := by
    ext k
    simp only [mem_activeSet, Finset.mem_insert, Finset.mem_erase, hF]
    by_cases hk : k = obs + n
    · subst hk
      simp only [if_neg (show ¬ (obs + n = a ∨ obs + n = b) by omega), hm0]
      exact ⟨fun _ => Or.inl trivial, fun _ => ⟨by omega, trivial⟩⟩
    · by_cases hka : k = a ∨ k = b
      · rw [if_pos hka]
        constructor
        · intro h; exact absurd h.2 (by decide)
        · rintro (h | ⟨h1, h2, _⟩)
          · exact absurd h hk
          · rcases hka with h | h
            · exact absurd h h2
            · exact absurd h h1
      · rw [if_neg hka]
        constructor
        · rintro ⟨h1, h2⟩
          exact Or.inr ⟨fun e => hka (Or.inr e), fun e => hka (Or.inl e), by omega, h2⟩
        · rintro (h | ⟨_, _, h3, h4⟩)
          · exact absurd h hk
          · exact ⟨by omega, h4⟩
  have haA : a ∈ activeSet L.tr_node (obs + n) := mem_activeSet.2 ⟨by omega, ha0⟩
  have hbA : b ∈ (activeSet L.tr_node (obs + n)).erase a :=
    Finset.mem_erase.2 ⟨fun e => by omega, mem_activeSet.2 ⟨hb, hb0⟩⟩
  have hmA : obs + n ∉ ((activeSet L.tr_node (obs + n)).erase a).erase b := by
    intro h
    have := (mem_activeSet.1 (Finset.mem_of_mem_erase (Finset.mem_of_mem_erase h))).1
    omega
  refine
    { merged := by show obs + n = obs - 1 + (n + 1); omega
      flag01 := fun k hk => ?_
      flagHi := fun k h1 h2 => ?_
      unwritten := fun k m hkm h1 h2 => ?_
      card := ?_
      kids := fun j h1 h2 => ?_
      consumed := fun k hk => ?_
      oneParent := fun k j j' h1 h2 h3 h4 hc hc' => ?_
      newest := fun _ => ?_
      leafLinks := fun k hk => ?_
      nk_leaf := fun k hk => ?_
      nk_add := fun j h1 h2 => ?_
      nk_sum := ?_ }
  · -- flag01
    show (mergeBody ext hp dim nfv alp (obs + n) a b L.tr_node k).flag = 0 ∨ _ = 1
    rw [hF]
    split_ifs with h
    · exact Or.inr rfl
    · by_cases hkm : k = obs + n
      · rw [hkm]; exact Or.inl hm0
      · exact hI.flag01 k (by omega)
  · -- flagHi
    show (mergeBody ext hp dim nfv alp (obs + n) a b L.tr_node k).flag = 0
    rw [hF, if_neg (by omega)]
    exact hI.flagHi k (by omega) h2
  · -- unwritten
    show (mergeBody ext hp dim nfv alp (obs + n) a b L.tr_node k).wt m ≤ min_wt
    rw [(hWt k m (by omega)).2.2]
    exact hI.unwritten k m hkm (by omega) h2
  · -- card
    show (activeSet (mergeBody ext hp dim nfv alp (obs + n) a b L.tr_node)
      (obs + (n + 1))).card = obs - (n + 1)
    rw [hAset, Finset.card_insert_of_not_mem hmA, Finset.card_erase_of_mem hbA,
      Finset.card_erase_of_mem haA, hI.card]
    omega
  · -- kids
    show ∃ l r : Nat, (mergeBody ext hp dim nfv alp (obs + n) a b L.tr_node j).pleft = l ∧
      (mergeBody ext hp dim nfv alp (obs + n) a b L.tr_node j).pright = r ∧ l < r ∧ r < j
    rw [hPl, hPr]
    by_cases hj : j = obs + n
    · rw [if_pos hj, if_pos hj]
      exact ⟨a, b, rfl, rfl, hab, by omega⟩
    · rw [if_neg hj, if_neg hj]
      exact hI.kids j h1 (by omega)
  · -- consumed
    show (mergeBody ext hp dim nfv alp (obs + n) a b L.tr_node k).flag = 1 ↔
      ∃ j, obs ≤ j ∧ j < obs + (n + 1) ∧
        IsChild (mergeBody ext hp dim nfv alp (obs + n) a b L.tr_node) j k
    rw [hF]
    by_cases hka : k = a ∨ k = b
    · rw [if_pos hka]
      exact ⟨fun _ => ⟨obs + n, by omega, by omega, (hchm k).2 hka⟩, fun _ => rfl⟩
    · rw [if_neg hka]
      constructor
      · intro h
        have hkm : k ≠ obs + n := by
          intro e; rw [e, hm0] at h; exact absurd h (by decide)
        obtain ⟨j, hj1, hj2, hj3⟩ := (hI.consumed k (by omega)).1 h
        exact ⟨j, hj1, by omega, (hch j k (by omega)).2 hj3⟩
      · rintro ⟨j, hj1, hj2, hj3⟩
        by_cases hj : j = obs + n
        · rw [hj] at hj3
          exact absurd ((hchm k).1 hj3) hka
        · have hj4 := (hch j k hj).1 hj3
          have hkj := hold j k hj1 (by omega) hj4
          exact (hI.consumed k (by omega)).2 ⟨j, hj1, by omega, hj4⟩
  · -- oneParent
    have key : ∀ j, obs ≤ j → j < obs + n →
        IsChild (mergeBody ext hp dim nfv alp (obs + n) a b L.tr_node) j k →
        IsChild (mergeBody ext hp dim nfv alp (obs + n) a b L.tr_node) (obs + n) k → False := by
      intro j hj1 hj2 hcj hcm
      have hcj2 := (hch j k (by omega)).1 hcj
      have hk1 : (L.tr_node k).flag = 1 :=
        (hI.consumed k (by have := hold j k hj1 hj2 hcj2; omega)).2 ⟨j, hj1, hj2, hcj2⟩
      rcases (hchm k).1 hcm with e | e
      · rw [e, ha0] at hk1; exact absurd hk1 (by decide)
      · rw [e, hb0] at hk1; exact absurd hk1 (by decide)
    by_cases hj : j = obs + n <;> by_cases hj' : j' = obs + n
    · rw [hj, hj']
    · rw [hj] at hc
      exact (key j' h3 (by omega) hc' hc).elim
    · rw [hj'] at hc'
      exact (key j h1 (by omega) hc hc').elim
    · exact hI.oneParent k j j' h1 (by omega) h3 (by omega) ((hch j k hj).1 hc)
        ((hch j' k hj').1 hc')
  · -- newest
    show (mergeBody ext hp dim nfv alp (obs + n) a b L.tr_node (obs + (n + 1) - 1)).flag = 0
    have e : obs + (n + 1) - 1 = obs + n := by omega
    rw [e]; exact hFm
  · -- leafLinks
    show (mergeBody ext hp dim nfv alp (obs + n) a b L.tr_node k).pleft = (t0 k).pleft ∧
      (mergeBody ext hp dim nfv alp (obs + n) a b L.tr_node k).pright = (t0 k).pright
    rw [hPl, hPr, if_neg (by omega), if_neg (by omega)]
    exact hI.leafLinks k hk
  · -- nk_leaf
    show (mergeBody ext hp dim nfv alp (obs + n) a b L.tr_node k).nk = 1
    rw [hNk, if_neg (by omega)]
    exact hI.nk_leaf k hk
  · -- nk_add
    show (mergeBody ext hp dim nfv alp (obs + n) a b L.tr_node j).nk =
      (mergeBody ext hp dim nfv alp (obs + n) a b L.tr_node
        (mergeBody ext hp dim nfv alp (obs + n) a b L.tr_node j).pleft.toNat).nk +
      (mergeBody ext hp dim nfv alp (obs + n) a b L.tr_node
        (mergeBody ext hp dim nfv alp (obs + n) a b L.tr_node j).pright.toNat).nk
    rw [hPl, hPr]
    by_cases hj : j = obs + n
    · rw [if_pos hj, if_pos hj, Int.toNat_ofNat, Int.toNat_ofNat, hNk, hNk, hNk, if_pos hj,
        if_neg ham, if_neg hbm]
    · obtain ⟨l, r, hl, hr, hlr, hrj⟩ := hI.kids j h1 (by omega)
      rw [if_neg hj, if_neg hj, hNk, hNk, hNk, if_neg hj, hl, hr, Int.toNat_ofNat,
        Int.toNat_ofNat, if_neg (by omega), if_neg (by omega)]
      have := hI.nk_add j h1 (by omega)
      rw [hl, hr, Int.toNat_ofNat, Int.toNat_ofNat] at this
      exact this
  · -- nk_sum
    show (∑ k in activeSet (mergeBody ext hp dim nfv alp (obs + n) a b L.tr_node)
      (obs + (n + 1)), (mergeBody ext hp dim nfv alp (obs + n) a b L.tr_node k).nk) = (obs : R)
    rw [hAset, Finset.sum_insert hmA, hNk, if_pos rfl]
    have hrest : (∑ k in ((activeSet L.tr_node (obs + n)).erase a).erase b,
        (mergeBody ext hp dim nfv alp (obs + n) a b L.tr_node k).nk) =
        ∑ k in ((activeSet L.tr_node (obs + n)).erase a).erase b, (L.tr_node k).nk := by
      refine Finset.sum_congr rfl (fun k hk => ?_)
      have := (mem_activeSet.1 (Finset.mem_of_mem_erase (Finset.mem_of_mem_erase hk))).1
      rw [hNk, if_neg (by omega)]
    rw [hrest, add_assoc, Finset.add_sum_erase _ (fun k => (L.tr_node k).nk) hbA,
      Finset.add_sum_erase _ (fun k => (L.tr_node k).nk) haA]
    exact hI.nk_sum

theorem runMerges_zero (ext : Externals R H) (t : Nodes R) (dim obs : Nat)
    (cc alp min_wt : R) (nfv : Nat) :
    runMerges ext t dim obs cc alp min_wt nfv 0 = some (initState ext t dim obs cc alp nfv) :=
  rfl

theorem runMerges_succ (ext : Externals R H) (t : Nodes R) (dim obs : Nat)
    (cc alp min_wt : R) (nfv : Nat) (n : Nat) :
    runMerges ext t dim obs cc alp min_wt nfv (n + 1) =
      (runMerges ext t dim obs cc alp min_wt nfv n).bind
        (mergeStep ext (ext.CalculateHyperparameters t dim obs nfv cc) dim obs nfv alp min_wt) :=
  rfl

/-- Every iteration of the merging loop succeeds and keeps the invariant; iteration
`n + 1` merges the first pair of maximal weight among the active nodes. -/
theorem runMerges_step (ext : Externals R H) (t : Nodes R) (dim obs : Nat)
    (cc alp min_wt : R) (nfv : Nat) (hs : StartOK obs min_wt t)
    (hW : WeightsAbove ext t dim obs cc alp min_wt nfv) (n : Nat) (hn : n + 1 ≤ obs) :
    ∃ L, runMerges ext t dim obs cc alp min_wt nfv n = some L ∧ MergeInv obs min_wt t n L ∧
      (n + 1 < obs → ∃ a b : Nat, a < b ∧ b < obs + n ∧
        (L.tr_node a).flag = 0 ∧ (L.tr_node b).flag = 0 ∧ min_wt < (L.tr_node a).wt b ∧
        (∀ i j, Cand obs L.tr_node i j →
          (L.tr_node i).wt j ≤ (L.tr_node a).wt b ∧
          ((L.tr_node i).wt j = (L.tr_node a).wt b → FirstOrSame a b i j)) ∧
        runMerges ext t dim obs cc alp min_wt nfv (n + 1) = some
          { tr_node := mergeBody ext (ext.CalculateHyperparameters t dim obs nfv cc) dim nfv
              alp (obs + n) a b L.tr_node,
            node1 := a, node2 := b, merged_node := obs + n }) := by
  induction n with
  | zero =>
    refine ⟨_, runMerges_zero ext t dim obs cc alp min_wt nfv,
      initState_inv ext t dim obs cc alp min_wt nfv hs, fun h => ?_⟩
    obtain ⟨a, b, h1, h2, h3, h4, h5, h6, h7⟩ := mergeStep_of_inv ext
      (ext.CalculateHyperparameters t dim obs nfv cc) dim obs nfv alp min_wt t 0 _
      (initState_inv ext t dim obs cc alp min_wt nfv hs) h
      (hW 0 _ h (runMerges_zero ext t dim obs cc alp min_wt nfv))
    refine ⟨a, b, h1, h2, h3, h4, h5, h6, ?_⟩
    rw [runMerges_succ, runMerges_zero, Option.some_bind, h7]
  | succ n ih =>
    obtain ⟨L, hL, hI, hstep⟩ := ih (by omega)
    obtain ⟨a, b, h1, h2, h3, h4, h5, h6, h7⟩ := hstep (by omega)
    have hI2 := mergeBody_inv ext (ext.CalculateHyperparameters t dim obs nfv cc) dim obs nfv
      alp min_wt t n L hI (by omega) a b h1 h2 h3 h4
    refine ⟨_, h7, hI2, fun h => ?_⟩
    obtain ⟨a2, b2, g1, g2, g3, g4, g5, g6, g7⟩ := mergeStep_of_inv ext
      (ext.CalculateHyperparameters t dim obs nfv cc) dim obs nfv alp min_wt t (n + 1) _
      hI2 h (hW (n + 1) _ h h7)
    refine ⟨a2, b2, g1, g2, g3, g4, g5, g6, ?_⟩
    rw [runMerges_succ, h7, Option.some_bind, g7]

/-- The run as a whole: the merging loop ends in a state satisfying the invariant for
`obs - 1` merges, and `bayeslink_binf` returns the `den` of node `merged_node`. -/
theorem run_final (ext : Externals R H) (t : Nodes R) (dim obs : Nat)
    (cc alp min_wt : R) (nfv : Nat) (hN : 1 ≤ obs) (hs : StartOK obs min_wt t)
    (hW : WeightsAbove ext t dim obs cc alp min_wt nfv) :
    ∃ L, runMerges ext t dim obs cc alp min_wt nfv (obs - 1) = some L ∧
      MergeInv obs min_wt t (obs - 1) L ∧
      bayeslink_binf ext t dim obs cc alp min_wt nfv =
        some ((L.tr_node (2 * obs - 2)).den, L.tr_node) := by
  obtain ⟨L, hL, hI, _⟩ := runMerges_step ext t dim obs cc alp min_wt nfv hs hW (obs - 1)
    (by omega)
  refine ⟨L, hL, hI, ?_⟩
  have hm : L.merged_node = 2 * obs - 2 := by rw [hI.merged]; omega
  simp only [bayeslink_binf, if_neg (show ¬ obs = 0 by omega), hL, Option.map_some', hm]

/-- In the final state the root `2*obs - 2` is the only active populated node. -/
theorem final_active {obs : Nat} {min_wt : R} {t : Nodes R} {L : MergeState R}
    (hN : 2 ≤ obs) (hI : MergeInv obs min_wt t (obs - 1) L) :
    activeSet L.tr_node (2 * obs - 1) = {2 * obs - 2} := by
  have e : obs + (obs - 1) = 2 * obs - 1 := by omega
  have hc := hI.card
  rw [e] at hc
  have hc1 : (activeSet L.tr_node (2 * obs - 1)).card = 1 := by rw [hc]; omega
  obtain ⟨x, hx⟩ := Finset.card_eq_one.1 hc1
  have hnew := hI.newest (by omega)
  have hmem : 2 * obs - 2 ∈ activeSet L.tr_node (2 * obs - 1) := by
    rw [mem_activeSet]
    refine ⟨by omega, ?_⟩
    have e2 : obs + (obs - 1) - 1 = 2 * obs - 2 := by omega
    rw [e2] at hnew; exact hnew
  rw [hx] at hmem ⊢
  rw [Finset.mem_singleton.1 hmem]

/-! ## The concrete run -/

theorem demo_start : StartOK 2 (-1000) demoNodes :=
  { flags := fun _ _ => rfl
    unwritten := fun _ _ _ _ _ => le_refl _ }

theorem demo_weights : WeightsAbove demoExt demoNodes 1 2 0 1 (-1000) 1 := by
  intro n L hn hL k m hkm hm _ _
  have hn0 : n = 0 := by omega
  subst hn0
  rw [runMerges_zero] at hL
  have hL2 := (Option.some.inj hL).symm
  subst hL2
  have hk : k = 0 := by omega
  have hm1 : m = 1 := by omega
  subst hk; subst hm1
  decide

/-! ## Shape, additivity and termination of the merge driver -/

/-- C1 (shape invariant).  For `obs >= 2`, started with every scanned slot active, the
pair weights of the columns not filled by the initialisation at most `min_wt`, and
`min_wt` below the weights of the active pairs at every scan, `bayeslink_binf` returns,
and in the node array it leaves behind every internal node `m` in `obs .. 2*obs-2` has
`pleft < pright < m`, every node other than the root `2*obs-2` is the child of exactly
one internal node, the root is nobody's child, and the links of the `obs` leaves are
still those of the input. -/
theorem shape_invariant (ext : Externals R H) (t : Nodes R) (dim obs : Nat)
    (cc alp min_wt : R) (nfv : Nat) (hN : 2 ≤ obs) (hs : StartOK obs min_wt t)
    (hW : WeightsAbove ext t dim obs cc alp min_wt nfv) :
    ∃ v fin, bayeslink_binf ext t dim obs cc alp min_wt nfv = some (v, fin) ∧
      (∀ m, obs ≤ m → m ≤ 2 * obs - 2 →
        ∃ l r : Nat, (fin m).pleft = l ∧ (fin m).pright = r ∧ l < r ∧ r < m) ∧
      (∀ k, k < 2 * obs - 2 → ∃! m, (obs ≤ m ∧ m ≤ 2 * obs - 2) ∧ IsChild fin m k) ∧
      (∀ m, obs ≤ m → m ≤ 2 * obs - 2 → ¬ IsChild fin m (2 * obs - 2)) ∧
      (∀ k, k < obs → (fin k).pleft = (t k).pleft ∧ (fin k).pright = (t k).pright) := by
  obtain ⟨L, _, hI, hret⟩ := run_final ext t dim obs cc alp min_wt nfv (by omega) hs hW
  have hA := final_active hN hI
  have kids : ∀ m, obs ≤ m → m ≤ 2 * obs - 2 →
      ∃ l r : Nat, (L.tr_node m).pleft = l ∧ (L.tr_node m).pright = r ∧ l < r ∧ r < m :=
    fun m h1 h2 => hI.kids m h1 (by omega)
  refine ⟨_, _, hret, kids, fun k hk => ?_, fun m h1 h2 hc => ?_, hI.leafLinks⟩
  · have hk1 : (L.tr_node k).flag = 1 := by
      rcases hI.flag01 k (by omega) with h | h
      · have : k ∈ activeSet L.tr_node (2 * obs - 1) := mem_activeSet.2 ⟨by omega, h⟩
        rw [hA, Finset.mem_singleton] at this
        omega
      · exact h
    obtain ⟨m, h1, h2, hc⟩ := (hI.consumed k (by omega)).1 hk1
    refine ⟨m, ⟨⟨h1, by omega⟩, hc⟩, fun m' hm' => ?_⟩
    exact hI.oneParent k m' m hm'.1.1 (by omega) h1 h2 hm'.2 hc
  · obtain ⟨l, r, hl, hr, hlr, hrm⟩ := kids m h1 h2
    rcases hc with hc | hc
    · rw [hl] at hc; omega
    · rw [hr] at hc; omega

/-- Witness for C1: the run on two data points over the integers. -/
theorem shape_invariant_witness :
    ∃ v fin, bayeslink_binf demoExt demoNodes 1 2 0 1 (-1000) 1 = some (v, fin) ∧
      (∀ m, 2 ≤ m → m ≤ 2 * 2 - 2 →
        ∃ l r : Nat, (fin m).pleft = l ∧ (fin m).pright = r ∧ l < r ∧ r < m) ∧
      (∀ k, k < 2 * 2 - 2 → ∃! m, (2 ≤ m ∧ m ≤ 2 * 2 - 2) ∧ IsChild fin m k) ∧
      (∀ m, 2 ≤ m → m ≤ 2 * 2 - 2 → ¬ IsChild fin m (2 * 2 - 2)) ∧
      (∀ k, k < 2 →
        (fin k).pleft = (demoNodes k).pleft ∧ (fin k).pright = (demoNodes k).pright) :=
  shape_invariant demoExt demoNodes 1 2 0 1 (-1000) 1 (le_refl 2) demo_start demo_weights

/-- C2 (additive `nk`).  Under the same start state, after the run every leaf has
`nk = 1`, every internal node `m` has `nk m = nk (pleft m) + nk (pright m)`, and the root
`2*obs-2` has `nk = obs`. -/
theorem additive_nk (ext : Externals R H) (t : Nodes R) (dim obs : Nat)
    (cc alp min_wt : R) (nfv : Nat) (hN : 2 ≤ obs) (hs : StartOK obs min_wt t)
    (hW : WeightsAbove ext t dim obs cc alp min_wt nfv) :
    ∃ v fin, bayeslink_binf ext t dim obs cc alp min_wt nfv = some (v, fin) ∧
      (∀ k, k < obs → (fin k).nk = 1) ∧
      (∀ m, obs ≤ m → m ≤ 2 * obs - 2 →
        (fin m).nk = (fin (fin m).pleft.toNat).nk + (fin (fin m).pright.toNat).nk) ∧
      (fin (2 * obs - 2)).nk = (obs : R) := by
  obtain ⟨L, _, hI, hret⟩ := run_final ext t dim obs cc alp min_wt nfv (by omega) hs hW
  have hA := final_active hN hI
  refine ⟨_, _, hret, hI.nk_leaf, fun m h1 h2 => hI.nk_add m h1 (by omega), ?_⟩
  have hsum := hI.nk_sum
  have e : obs + (obs - 1) = 2 * obs - 1 := by omega
  rw [e, hA, Finset.sum_singleton] at hsum
  exact hsum

/-- Witness for C2: the run on two data points over the integers. -/
theorem additive_nk_witness :
    ∃ v fin, bayeslink_binf demoExt demoNodes 1 2 0 1 (-1000) 1 = some (v, fin) ∧
      (∀ k, k < 2 → (fin k).nk = 1) ∧
      (∀ m, 2 ≤ m → m ≤ 2 * 2 - 2 →
        (fin m).nk = (fin (fin m).pleft.toNat).nk + (fin (fin m).pright.toNat).nk) ∧
      (fin (2 * 2 - 2)).nk = ((2 : Nat) : ℤ) :=
  additive_nk demoExt demoNodes 1 2 0 1 (-1000) 1 (le_refl 2) demo_start demo_weights

/-- C3 (termination).  For `obs >= 2` under the same start state each of the `obs - 1`
iterations of the merging loop merges a pair of distinct active nodes into the next free
slot; afterwards `merged_node = 2*obs-2`, node `2*obs-2` is the only node among
`0 .. 2*obs-2` whose flag is 0, every other node has flag 1 and was selected by exactly
one merge, and the value returned is `den` of node `2*obs-2`. -/
theorem termination_active_root (ext : Externals R H) (t : Nodes R) (dim obs : Nat)
    (cc alp min_wt : R) (nfv : Nat) (hN : 2 ≤ obs) (hs : StartOK obs min_wt t)
    (hW : WeightsAbove ext t dim obs cc alp min_wt nfv) :
    (∀ n, n + 1 < obs → ∃ (L : MergeState R) (a b : Nat),
      runMerges ext t dim obs cc alp min_wt nfv n = some L ∧ a < b ∧
      (L.tr_node a).flag = 0 ∧ (L.tr_node b).flag = 0 ∧
      runMerges ext t dim obs cc alp min_wt nfv (n + 1) = some
        { tr_node := mergeBody ext (ext.CalculateHyperparameters t dim obs nfv cc) dim nfv
            alp (obs + n) a b L.tr_node,
          node1 := a, node2 := b, merged_node := obs + n }) ∧
    ∃ L, runMerges ext t dim obs cc alp min_wt nfv (obs - 1) = some L ∧
      L.merged_node = 2 * obs - 2 ∧
      (∀ k, k ≤ 2 * obs - 2 → ((L.tr_node k).flag = 0 ↔ k = 2 * obs - 2)) ∧
      (∀ k, k < 2 * obs - 2 → (L.tr_node k).flag = 1 ∧
        ∃! m, (obs ≤ m ∧ m ≤ 2 * obs - 2) ∧ IsChild L.tr_node m k) ∧
      bayeslink_binf ext t dim obs cc alp min_wt nfv =
        some ((L.tr_node (2 * obs - 2)).den, L.tr_node) := by
  constructor
  · intro n hn
    obtain ⟨L, hL, _, hstep⟩ := runMerges_step ext t dim obs cc alp min_wt nfv hs hW n
      (by omega)
    obtain ⟨a, b, h1, _, h3, h4, _, _, h7⟩ := hstep hn
    exact ⟨L, a, b, hL, h1, h3, h4, h7⟩
  · obtain ⟨L, hL, hI, hret⟩ := run_final ext t dim obs cc alp min_wt nfv (by omega) hs hW
    have hA := final_active hN hI
    have hflag : ∀ k, k ≤ 2 * obs - 2 → ((L.tr_node k).flag = 0 ↔ k = 2 * obs - 2) := by
      intro k hk
      have := @mem_activeSet R L.tr_node (2 * obs - 1) k
      rw [hA, Finset.mem_singleton] at this
      constructor
      · intro h; exact this.2 ⟨by omega, h⟩
      · intro h; exact (this.1 h).2
    refine ⟨L, hL, by rw [hI.merged]; omega, hflag, fun k hk => ?_, hret⟩
    have hk1 : (L.tr_node k).flag = 1 := by
      rcases hI.flag01 k (by omega) with h | h
      · have := (hflag k (by omega)).1 h
        omega
      · exact h
    obtain ⟨m, h1, h2, hc⟩ := (hI.consumed k (by omega)).1 hk1
    exact ⟨hk1, m, ⟨⟨h1, by omega⟩, hc⟩,
      fun m' hm' => hI.oneParent k m' m hm'.1.1 (by omega) h1 h2 hm'.2 hc⟩

/-- Witness for C3: the run on two data points over the integers. -/
theorem termination_active_root_witness :
    (∀ n, n + 1 < 2 → ∃ (L : MergeState ℤ) (a b : Nat),
      runMerges demoExt demoNodes 1 2 0 1 (-1000) 1 n = some L ∧ a < b ∧
      (L.tr_node a).flag = 0 ∧ (L.tr_node b).flag = 0 ∧
      runMerges demoExt demoNodes 1 2 0 1 (-1000) 1 (n + 1) = some
        { tr_node := mergeBody demoExt
            (demoExt.CalculateHyperparameters demoNodes 1 2 1 0) 1 1 1 (2 + n) a b L.tr_node,
          node1 := a, node2 := b, merged_node := 2 + n }) ∧
    ∃ L, runMerges demoExt demoNodes 1 2 0 1 (-1000) 1 (2 - 1) = some L ∧
      L.merged_node = 2 * 2 - 2 ∧
      (∀ k, k ≤ 2 * 2 - 2 → ((L.tr_node k).flag = 0 ↔ k = 2 * 2 - 2)) ∧
      (∀ k, k < 2 * 2 - 2 → (L.tr_node k).flag = 1 ∧
        ∃! m, (2 ≤ m ∧ m ≤ 2 * 2 - 2) ∧ IsChild L.tr_node m k) ∧
      bayeslink_binf demoExt demoNodes 1 2 0 1 (-1000) 1 =
        some ((L.tr_node (2 * 2 - 2)).den, L.tr_node) :=
  termination_active_root demoExt demoNodes 1 2 0 1 (-1000) 1 (le_refl 2) demo_start
    demo_weights

/-! ## Merge selection -/

/-- C4 (merge selection).  In any iteration of the merging loop, from any state, in which
some pair of active slots `i < j < 2*obs` has `wt[i][j] > min_wt`: the scan ends with
`(node1, node2) = (a, b)` for an active pair `a < b` whose weight is maximal over all
active pairs and which comes first in scan order among the active pairs of that weight;
`wt_temp` is that weight, the iteration goes through, and the new node gets
`pleft = a`, `pright = b`. -/
theorem merge_selection (ext : Externals R H) (hp : H) (dim obs nfv : Nat)
    (alp min_wt : R) (L : MergeState R)
    (hex : ∃ i j, Cand obs L.tr_node i j ∧ min_wt < (L.tr_node i).wt j) :
    ∃ a b : Nat, Cand obs L.tr_node a b ∧
      (∀ i j, Cand obs L.tr_node i j → (L.tr_node i).wt j ≤ (L.tr_node a).wt b) ∧
      (∀ i j, Cand obs L.tr_node i j → (L.tr_node i).wt j = (L.tr_node a).wt b →
        FirstOrSame a b i j) ∧
      scan obs L.tr_node { wt_temp := min_wt, node1 := L.node1, node2 := L.node2 } =
        { wt_temp := (L.tr_node a).wt b, node1 := a, node2 := b } ∧
      ∃ L', mergeStep ext hp dim obs nfv alp min_wt L = some L' ∧
        L'.node1 = a ∧ L'.node2 = b ∧ L'.merged_node = L.merged_node + 1 ∧
        (L'.tr_node L'.merged_node).pleft = a ∧ (L'.tr_node L'.merged_node).pright = b := by
  obtain ⟨i0, j0, hC0, hw0⟩ := hex
  rcases scan_spec obs L.tr_node { wt_temp := min_wt, node1 := L.node1, node2 := L.node2 }
    with ⟨_, hall⟩ | ⟨a, b, hC, e, _, hall⟩
  · exact absurd hw0 (not_lt.2 (hall i0 j0 hC0))
  · refine ⟨a, b, hC, fun i j h => (hall i j h).1, fun i j h => (hall i j h).2, e, ?_⟩
    have hneg : ¬ ((a : Int) < 0 ∨ (b : Int) < 0) := by omega
    have hstep : mergeStep ext hp dim obs nfv alp min_wt L = some
        { tr_node := mergeBody ext hp dim nfv alp (L.merged_node + 1) a b L.tr_node,
          node1 := a, node2 := b, merged_node := L.merged_node + 1 } := by
      simp only [mergeStep, e, if_neg hneg]
    refine ⟨_, hstep, rfl, rfl, rfl, ?_, ?_⟩
    · show (mergeBody ext hp dim nfv alp (L.merged_node + 1) a b L.tr_node
        (L.merged_node + 1)).pleft = a
      rw [mergeBody_pleft, if_pos rfl]
    · show (mergeBody ext hp dim nfv alp (L.merged_node + 1) a b L.tr_node
        (L.merged_node + 1)).pright = b
      rw [mergeBody_pright, if_pos rfl]

/-- Witness for C4: the first iteration of the run on two data points over the integers,
where the pair `(0, 1)` is active with weight `1 > -1000`. -/
theorem merge_selection_witness :
    ∃ a b : Nat, Cand 2 (initState demoExt demoNodes 1 2 0 1 1).tr_node a b ∧
      (∀ i j, Cand 2 (initState demoExt demoNodes 1 2 0 1 1).tr_node i j →
        ((initState demoExt demoNodes 1 2 0 1 1).tr_node i).wt j ≤
          ((initState demoExt demoNodes 1 2 0 1 1).tr_node a).wt b) ∧
      (∀ i j, Cand 2 (initState demoExt demoNodes 1 2 0 1 1).tr_node i j →
        ((initState demoExt demoNodes 1 2 0 1 1).tr_node i).wt j =
          ((initState demoExt demoNodes 1 2 0 1 1).tr_node a).wt b → FirstOrSame a b i j) ∧
      scan 2 (initState demoExt demoNodes 1 2 0 1 1).tr_node
          { wt_temp := -1000, node1 := (initState demoExt demoNodes 1 2 0 1 1).node1,
            node2 := (initState demoExt demoNodes 1 2 0 1 1).node2 } =
        { wt_temp := ((initState demoExt demoNodes 1 2 0 1 1).tr_node a).wt b,
          node1 := a, node2 := b } ∧
      ∃ L', mergeStep demoExt () 1 2 1 1 (-1000) (initState demoExt demoNodes 1 2 0 1 1) =
          some L' ∧
        L'.node1 = a ∧ L'.node2 = b ∧
        L'.merged_node = (initState demoExt demoNodes 1 2 0 1 1).merged_node + 1 ∧
        (L'.tr_node L'.merged_node).pleft = a ∧ (L'.tr_node L'.merged_node).pright = b :=
  merge_selection demoExt () 1 2 1 1 (-1000) (initState demoExt demoNodes 1 2 0 1 1)
    ⟨0, 1, ⟨by decide, by decide, by decide, by decide⟩, by decide⟩

/-! ## Leaves -/

/-- An iteration that goes through has merged two nodes with non-negative indices into
slot `merged_node + 1`. -/
theorem mergeStep_some (ext : Externals R H) (hp : H) (dim obs nfv : Nat)
    (alp min_wt : R) (L L' : MergeState R)
    (h : mergeStep ext hp dim obs nfv alp min_wt L = some L') :
    ∃ a b : Nat, L' =
      { tr_node := mergeBody ext hp dim nfv alp (L.merged_node + 1) a b L.tr_node,
        node1 := a, node2 := b, merged_node := L.merged_node + 1 } := by
  simp only [mergeStep] at h
  split_ifs at h with hneg
  have h1 : 0 ≤ (scan obs L.tr_node
      { wt_temp := min_wt, node1 := L.node1, node2 := L.node2 }).node1 := by omega
  have h2 : 0 ≤ (scan obs L.tr_node
      { wt_temp := min_wt, node1 := L.node1, node2 := L.node2 }).node2 := by omega
  refine ⟨(scan obs L.tr_node
      { wt_temp := min_wt, node1 := L.node1, node2 := L.node2 }).node1.toNat,
    (scan obs L.tr_node
      { wt_temp := min_wt, node1 := L.node1, node2 := L.node2 }).node2.toNat, ?_⟩
  rw [Int.toNat_of_nonneg h1, Int.toNat_of_nonneg h2]
  exact (Option.some.inj h).symm

/-- The merging loop never writes `den`, `ck`, `nk`, the diagonal weight, the count table
or `vec_no` of a data point, whatever the start state. -/
theorem runMerges_leaf (ext : Externals R H) (t : Nodes R) (dim obs : Nat)
    (cc alp min_wt : R) (nfv : Nat) (hN : 1 ≤ obs) (n : Nat) (L : MergeState R)
    (hL : runMerges ext t dim obs cc alp min_wt nfv n = some L) :
    L.merged_node = obs - 1 + n ∧
    ∀ i, i < obs →
      (L.tr_node i).den = (initNodes ext t dim obs cc alp nfv i).den ∧
      (L.tr_node i).ck = (initNodes ext t dim obs cc alp nfv i).ck ∧
      (L.tr_node i).nk = (initNodes ext t dim obs cc alp nfv i).nk ∧
      (L.tr_node i).wt i = (initNodes ext t dim obs cc alp nfv i).wt i ∧
      (L.tr_node i).dat = (initNodes ext t dim obs cc alp nfv i).dat ∧
      (L.tr_node i).vec_no = (initNodes ext t dim obs cc alp nfv i).vec_no := by
  induction n generalizing L with
  | zero =>
    rw [runMerges_zero] at hL
    rw [← Option.some.inj hL]
    exact ⟨rfl, fun i _ => ⟨rfl, rfl, rfl, rfl, rfl, rfl⟩⟩
  | succ n ih =>
    rw [runMerges_succ] at hL
    obtain ⟨L0, hL0, hstep⟩ := Option.bind_eq_some.1 hL
    obtain ⟨hm, hleaf⟩ := ih L0 hL0
    obtain ⟨a, b, e⟩ := mergeStep_some ext _ dim obs nfv alp min_wt L0 L hstep
    subst e
    refine ⟨by show L0.merged_node + 1 = obs - 1 + (n + 1); omega, fun i hi => ?_⟩
    have hne : i ≠ L0.merged_node + 1 := by omega
    obtain ⟨h1, h2, h3, h4, h5, h6⟩ := hleaf i hi
    refine ⟨?_, ?_, ?_, ?_, ?_, ?_⟩
    · show (mergeBody ext _ dim nfv alp (L0.merged_node + 1) a b L0.tr_node i).den = _
      rw [mergeBody_den, if_neg hne, h1]
    · show (mergeBody ext _ dim nfv alp (L0.merged_node + 1) a b L0.tr_node i).ck = _
      rw [mergeBody_ck, if_neg hne, h2]
    · show (mergeBody ext _ dim nfv alp (L0.merged_node + 1) a b L0.tr_node i).nk = _
      rw [mergeBody_nk, if_neg hne, h3]
    · show (mergeBody ext _ dim nfv alp (L0.merged_node + 1) a b L0.tr_node i).wt i = _
      rw [(mergeBody_pairs_ne ext _ dim nfv alp _ a b L0.tr_node i i hne).2.2, h4]
    · show (mergeBody ext _ dim nfv alp (L0.merged_node + 1) a b L0.tr_node i).dat = _
      rw [mergeBody_dat_ne ext _ dim nfv alp _ a b L0.tr_node i hne, h5]
    · show (mergeBody ext _ dim nfv alp (L0.merged_node + 1) a b L0.tr_node i).vec_no = _
      rw [mergeBody_vec_no_ne ext _ dim nfv alp _ a b L0.tr_node i hne, h6]

/-- The single-point initialisation writes no count table and no `vec_no`. -/
theorem leafLoop_data (ext : Externals R H) (hp : H) (dim nfv : Nat) (alp : R)
    (t : Nodes R) (n k : Nat) :
    (forLoop (leafInit ext hp dim nfv alp) 0 n t k).dat = (t k).dat ∧
    (forLoop (leafInit ext hp dim nfv alp) 0 n t k).vec_no = (t k).vec_no := by
  rw [leafLoop_apply]
  split_ifs <;> exact ⟨rfl, rfl⟩

/-- C6 (leaf consistency).  For `obs >= 1`, whatever the start state: if the run returns,
every data point `i < obs` ends with `den = wt[i][i]`, both equal to the value
`binevidence(i, -1)` returned on line 69 (called on the array after the first `i`
single-point initialisations, which is the value on the input array when the evidence
reads only count tables and `vec_no`), with `ck = log(alp)` and `nk = 1`.  With
`obs = 1` the run returns `binevidence(0, -1)` on the input array; and under the working
start state of C1 the run does return. -/
theorem leaf_consistency (ext : Externals R H) (t : Nodes R) (dim obs : Nat)
    (cc alp min_wt : R) (nfv : Nat) (hN : 1 ≤ obs) :
    (∀ v fin, bayeslink_binf ext t dim obs cc alp min_wt nfv = some (v, fin) →
      ∀ i, i < obs →
        (fin i).den = (fin i).wt i ∧
        (fin i).den = ext.binevidence
          (forLoop (leafInit ext (ext.CalculateHyperparameters t dim obs nfv cc) dim nfv alp)
            0 i t)
          dim (ext.CalculateHyperparameters t dim obs nfv cc) i (-1) nfv ∧
        (EvidenceLocal ext → (fin i).den = ext.binevidence t dim
          (ext.CalculateHyperparameters t dim obs nfv cc) i (-1) nfv) ∧
        (fin i).ck = ext.log alp ∧ (fin i).nk = 1) ∧
    (obs = 1 → ∃ fin, bayeslink_binf ext t dim obs cc alp min_wt nfv =
      some (ext.binevidence t dim (ext.CalculateHyperparameters t dim obs nfv cc) 0 (-1) nfv,
        fin)) ∧
    (StartOK obs min_wt t → WeightsAbove ext t dim obs cc alp min_wt nfv →
      ∃ v fin, bayeslink_binf ext t dim obs cc alp min_wt nfv = some (v, fin)) := by
  refine ⟨fun v fin hret i hi => ?_, fun h1 => ?_, fun hs hW => ?_⟩
  · simp only [bayeslink_binf, if_neg (show ¬ obs = 0 by omega)] at hret
    obtain ⟨L, hL, e⟩ := Option.map_eq_some'.1 hret
    have efin : L.tr_node = fin := congrArg Prod.snd e
    obtain ⟨_, hleaf⟩ := runMerges_leaf ext t dim obs cc alp min_wt nfv hN (obs - 1) L hL
    obtain ⟨h1, h2, h3, h4, _, _⟩ := hleaf i hi
    obtain ⟨g1, g2, g3, g4⟩ := initNodes_leaf ext t dim obs cc alp nfv i hi
    rw [← efin, h1, h2, h3, h4, g1, g2, g3, g4]
    refine ⟨rfl, rfl, fun hloc => ?_, rfl, rfl⟩
    exact hloc _ _ dim _ i (-1) nfv (leafLoop_data ext _ dim nfv alp t i i).1
      (leafLoop_data ext _ dim nfv alp t i i).2 (fun h => absurd h (by decide))
  · subst h1
    refine ⟨initNodes ext t dim 1 cc alp nfv, ?_⟩
    simp only [bayeslink_binf, if_neg (show ¬ 1 = 0 by decide), Nat.sub_self, runMerges_zero,
      Option.map_some']
    have := (initNodes_leaf ext t dim 1 cc alp nfv 0 (by decide)).2.2.1
    simp only [forLoop_zero] at this
    show some ((initNodes ext t dim 1 cc alp nfv 0).den, _) = _
    rw [this]
    rfl
  · obtain ⟨L, _, _, hret⟩ := run_final ext t dim obs cc alp min_wt nfv hN hs hW
    exact ⟨_, _, hret⟩

/-- Witness for C6: the run on two data points over the integers. -/
theorem leaf_consistency_witness :
    (∀ v fin, bayeslink_binf demoExt demoNodes 1 2 0 1 (-1000) 1 = some (v, fin) →
      ∀ i, i < 2 →
        (fin i).den = (fin i).wt i ∧
        (fin i).den = demoExt.binevidence
          (forLoop (leafInit demoExt (demoExt.CalculateHyperparameters demoNodes 1 2 1 0) 1 1 1)
            0 i demoNodes)
          1 (demoExt.CalculateHyperparameters demoNodes 1 2 1 0) i (-1) 1 ∧
        (EvidenceLocal demoExt → (fin i).den = demoExt.binevidence demoNodes 1
          (demoExt.CalculateHyperparameters demoNodes 1 2 1 0) i (-1) 1) ∧
        (fin i).ck = demoExt.log 1 ∧ (fin i).nk = 1) ∧
    (2 = 1 → ∃ fin, bayeslink_binf demoExt demoNodes 1 2 0 1 (-1000) 1 =
      some (demoExt.binevidence demoNodes 1
        (demoExt.CalculateHyperparameters demoNodes 1 2 1 0) 0 (-1) 1, fin)) ∧
    (StartOK 2 (-1000) demoNodes → WeightsAbove demoExt demoNodes 1 2 0 1 (-1000) 1 →
      ∃ v fin, bayeslink_binf demoExt demoNodes 1 2 0 1 (-1000) 1 = some (v, fin)) :=
  leaf_consistency demoExt demoNodes 1 2 0 1 (-1000) 1 (by decide)

/-! ## Values written by the pair loops -/

/-- The evidence call of lines 94 and 159 is made on an array that has the count tables
and `vec_no` of `t`. -/
theorem PairFrame.sameData {W : Nat → Nat → Prop} {t x : Nodes R} (h : PairFrame W t x)
    (k : Nat) : (x k).dat = (t k).dat ∧ (x k).vec_no = (t k).vec_no :=
  ⟨h.dat k, h.vec_no k⟩

/-- Row `k` of the array after the partner loop is the row written by iteration `k`. -/
theorem mergePartners_row (ext : Externals R H) (hp : H) (dim nfv : Nat) (alp : R)
    (m n1 n2 : Nat) (t : Nodes R) (k : Nat) (hk : k < m) :
    mergePartners ext hp dim nfv alp m n1 n2 t k =
      partner ext hp dim nfv alp m n1 n2 k
        (forLoop (partner ext hp dim nfv alp m n1 n2) 0 k t) k := by
  have h := forLoop_obs (partner ext hp dim nfv alp m n1 n2) (fun j (x : Nodes R) => x j)
    (fun i j x hij => by
      show partner ext hp dim nfv alp m n1 n2 i x j = x j
      unfold partner
      split_ifs
      · simp only [setNode, Function.update_idem, Function.update_same]
        exact Function.update_noteq (Ne.symm hij) _ _
      · rfl) 0 m t k (Nat.zero_le k) (by omega)
  simpa [mergePartners] using h

/-- Lines 153-162 for a partner `k` that is neither consumed nor selected: the three
entries `(k, m)` are computed from the values of nodes `m` and `k` after the merge, with
the evidence `binevidence(m, k)` called on an array `x` holding the same data. -/
theorem mergeBody_entry (ext : Externals R H) (hp : H) (dim nfv : Nat) (alp : R)
    (m n1 n2 : Nat) (t : Nodes R) (k : Nat) (hk : k < m) (hf : (t k).flag ≠ 1)
    (hk1 : k ≠ n1) (hk2 : k ≠ n2) :
    ∃ x : Nodes R,
      (∀ i, (x i).dat = (mergeBody ext hp dim nfv alp m n1 n2 t i).dat ∧
        (x i).vec_no = (mergeBody ext hp dim nfv alp m n1 n2 t i).vec_no) ∧
      (mergeBody ext hp dim nfv alp m n1 n2 t k).num1 m =
        ext.log alp + ext.fast_gammaln ((mergeBody ext hp dim nfv alp m n1 n2 t m).nk +
            (mergeBody ext hp dim nfv alp m n1 n2 t k).nk)
          - logSumExp ext
              (ext.log alp + ext.fast_gammaln ((mergeBody ext hp dim nfv alp m n1 n2 t m).nk +
                (mergeBody ext hp dim nfv alp m n1 n2 t k).nk))
              ((mergeBody ext hp dim nfv alp m n1 n2 t m).ck +
                (mergeBody ext hp dim nfv alp m n1 n2 t k).ck)
          + ext.binevidence x dim hp m k nfv ∧
      (mergeBody ext hp dim nfv alp m n1 n2 t k).num2 m =
        (mergeBody ext hp dim nfv alp m n1 n2 t m).ck +
            (mergeBody ext hp dim nfv alp m n1 n2 t k).ck
          - logSumExp ext
              (ext.log alp + ext.fast_gammaln ((mergeBody ext hp dim nfv alp m n1 n2 t m).nk +
                (mergeBody ext hp dim nfv alp m n1 n2 t k).nk))
              ((mergeBody ext hp dim nfv alp m n1 n2 t m).ck +
                (mergeBody ext hp dim nfv alp m n1 n2 t k).ck)
          + (mergeBody ext hp dim nfv alp m n1 n2 t m).den +
            (mergeBody ext hp dim nfv alp m n1 n2 t k).den ∧
      (mergeBody ext hp dim nfv alp m n1 n2 t k).wt m =
        (mergeBody ext hp dim nfv alp m n1 n2 t k).num1 m -
          (mergeBody ext hp dim nfv alp m n1 n2 t k).num2 m := by
  obtain ⟨d, e⟩ := mergeBody_stages ext hp dim nfv alp m n1 n2 t
  generalize hu : setNode t m _ = u at e
  -- the array at the moment iteration `k` of the partner loop starts
  have hx := PairFrame.forLoop (partner ext hp dim nfv alp m n1 n2) 0 k u
    (W := fun k' j => j = m ∧ k' < m)
    (fun i y _ hi => by
      have him : i < m := by omega
      by_cases hc : (y i).flag ≠ 1 ∧ i ≠ n1 ∧ i ≠ n2
      · rw [partner_eq ext hp dim nfv alp m n1 n2 i (ne_of_lt him) y hc]
        exact (PairFrame.of_write y i m _ _ _).mono
          (fun k' j (h : k' = i ∧ j = m) => ⟨h.2, h.1 ▸ him⟩)
      · have : partner ext hp dim nfv alp m n1 n2 i y = y := by simp only [partner, if_neg hc]
        rw [this]
        exact PairFrame.refl _ y)
  have hp2 := mergePartners_frame ext hp dim nfv alp m n1 n2 u
  have hrow := mergePartners_row ext hp dim nfv alp m n1 n2 u k hk
  have hkm : k ≠ m := ne_of_lt hk
  have hfu : (u k).flag = (t k).flag := by
    rw [← hu]; simp [setNode, Function.update_apply, hkm]
  have hc : ((forLoop (partner ext hp dim nfv alp m n1 n2) 0 k u) k).flag ≠ 1 ∧
      k ≠ n1 ∧ k ≠ n2 := ⟨by rw [hx.flag k, hfu]; exact hf, hk1, hk2⟩
  rw [partner_eq ext hp dim nfv alp m n1 n2 k hkm _ hc] at hrow
  -- fields after the merge in terms of `u`
  have hnk : ∀ i, (mergeBody ext hp dim nfv alp m n1 n2 t i).nk = (u i).nk := by
    intro i
    rw [e, mergeFlags_apply]
    have := hp2.nk i
    split_ifs <;> simpa using this
  have hck : ∀ i, (mergeBody ext hp dim nfv alp m n1 n2 t i).ck = (u i).ck := by
    intro i
    rw [e, mergeFlags_apply]
    have := hp2.ck i
    split_ifs <;> simpa using this
  have hden : ∀ i, (mergeBody ext hp dim nfv alp m n1 n2 t i).den = (u i).den := by
    intro i
    rw [e, mergeFlags_apply]
    have := hp2.den i
    split_ifs <;> simpa using this
  have hdat : ∀ i, (mergeBody ext hp dim nfv alp m n1 n2 t i).dat = (u i).dat := by
    intro i
    rw [e, mergeFlags_apply]
    have := hp2.dat i
    split_ifs <;> simpa using this
  have hvec : ∀ i, (mergeBody ext hp dim nfv alp m n1 n2 t i).vec_no = (u i).vec_no := by
    intro i
    rw [e, mergeFlags_apply]
    have := hp2.vec_no i
    split_ifs <;> simpa using this
  have hrowk : mergeBody ext hp dim nfv alp m n1 n2 t k =
      mergePartners ext hp dim nfv alp m n1 n2 u k := by
    rw [e, mergeFlags_apply, if_neg (by tauto)]
  refine ⟨forLoop (partner ext hp dim nfv alp m n1 n2) 0 k u,
    fun i => ⟨by rw [hx.dat i, hdat i], by rw [hx.vec_no i, hvec i]⟩, ?_⟩
  rw [hnk, hnk, hck, hck, hden, hden, hrowk, hrow]
  simp [setNode, Function.update_same, hx.nk, hx.ck, hx.den]

/-- Lines 84-106 for two data points `i < j < obs`: the three entries `(i, j)` are
computed from the values of the two nodes after initialisation, with the evidence
`binevidence(i, j)` called on an array `x` holding the same data. -/
theorem initNodes_entry (ext : Externals R H) (t : Nodes R) (dim obs : Nat) (cc alp : R)
    (nfv : Nat) (i j : Nat) (hij : i < j) (hj : j < obs) :
    ∃ x : Nodes R,
      (∀ k, (x k).dat = (initNodes ext t dim obs cc alp nfv k).dat ∧
        (x k).vec_no = (initNodes ext t dim obs cc alp nfv k).vec_no) ∧
      (initNodes ext t dim obs cc alp nfv i).num1 j =
        ext.log alp + ext.fast_gammaln ((initNodes ext t dim obs cc alp nfv i).nk +
            (initNodes ext t dim obs cc alp nfv j).nk)
          - logSumExp ext
              (ext.log alp + ext.fast_gammaln ((initNodes ext t dim obs cc alp nfv i).nk +
                (initNodes ext t dim obs cc alp nfv j).nk))
              ((initNodes ext t dim obs cc alp nfv i).ck +
                (initNodes ext t dim obs cc alp nfv j).ck)
          + ext.binevidence x dim (ext.CalculateHyperparameters t dim obs nfv cc) i j nfv ∧
      (initNodes ext t dim obs cc alp nfv i).num2 j =
        (initNodes ext t dim obs cc alp nfv i).ck + (initNodes ext t dim obs cc alp nfv j).ck
          - logSumExp ext
              (ext.log alp + ext.fast_gammaln ((initNodes ext t dim obs cc alp nfv i).nk +
                (initNodes ext t dim obs cc alp nfv j).nk))
              ((initNodes ext t dim obs cc alp nfv i).ck +
                (initNodes ext t dim obs cc alp nfv j).ck)
          + (initNodes ext t dim obs cc alp nfv i).wt i +
            (initNodes ext t dim obs cc alp nfv j).wt j ∧
      (initNodes ext t dim obs cc alp nfv i).wt j =
        (initNodes ext t dim obs cc alp nfv i).num1 j -
          (initNodes ext t dim obs cc alp nfv i).num2 j := by
  generalize hhp : ext.CalculateHyperparameters t dim obs nfv cc = hp
  generalize ht1 : forLoop (leafInit ext hp dim nfv alp) 0 obs t = t1
  have hs0 : initNodes ext t dim obs cc alp nfv =
      forLoop (fun i => forLoop (pairInit ext hp dim nfv alp i) (i + 1) (obs - (i + 1)))
        0 obs t1 := by
    simp only [initNodes, hhp, ht1]
  -- frames
  have hF := pairLoop_frame ext hp dim nfv alp obs t1
  rw [← hs0] at hF
  have hstepF : ∀ (i' : Nat) (y : Nodes R) (n : Nat),
      PairFrame (fun k l => k < l ∧ l < obs) y
        (forLoop (pairInit ext hp dim nfv alp i') (i' + 1) n y) ∨ obs < i' + 1 + n := by
    intro i' y n
    by_cases hle : obs < i' + 1 + n
    · exact Or.inr hle
    · refine Or.inl (PairFrame.forLoop _ (i' + 1) n y (fun j' z hj' hlt => ?_))
      rw [pairInit_eq ext hp dim nfv alp i' j' (by omega) z]
      exact (PairFrame.of_write z i' j' _ _ _).mono
        (fun k l (h : k = i' ∧ l = j') => by rw [h.1, h.2]; exact ⟨by omega, by omega⟩)
  -- the array when the outer loop reaches row `i`
  have hX : PairFrame (fun k l => k < l ∧ l < obs) t1
      (forLoop (fun i => forLoop (pairInit ext hp dim nfv alp i) (i + 1) (obs - (i + 1)))
        0 i t1) := by
    refine PairFrame.forLoop _ 0 i t1 (fun i' y _ _ => ?_)
    rcases hstepF i' y (obs - (i' + 1)) with h | h
    · exact h
    · omega
  generalize hXe : forLoop (fun i => forLoop (pairInit ext hp dim nfv alp i) (i + 1)
    (obs - (i + 1))) 0 i t1 = X at hX
  -- the array when the inner loop of row `i` reaches column `j`
  have hY : PairFrame (fun k l => k < l ∧ l < obs) X
      (forLoop (pairInit ext hp dim nfv alp i) (i + 1) (j - (i + 1)) X) := by
    rcases hstepF i X (j - (i + 1)) with h | h
    · exact h
    · omega
  generalize hYe : forLoop (pairInit ext hp dim nfv alp i) (i + 1) (j - (i + 1)) X = Y at hY
  have hTY := hX.trans hY
  -- row `i` after the outer loop is row `i` after the inner loop of row `i`
  have hrow : initNodes ext t dim obs cc alp nfv i =
      forLoop (pairInit ext hp dim nfv alp i) (i + 1) (obs - (i + 1)) X i := by
    have h := forLoop_obs
      (fun i => forLoop (pairInit ext hp dim nfv alp i) (i + 1) (obs - (i + 1)))
      (fun k (x : Nodes R) => x k)
      (fun i' k x hik => by
        show forLoop (pairInit ext hp dim nfv alp i') (i' + 1) (obs - (i' + 1)) x k = x k
        refine forLoop_frame (fun (z : Nodes R) => z k) _ _ _ x (fun j' z _ _ => ?_)
        show pairInit ext hp dim nfv alp i' j' z k = z k
        simp only [pairInit, setNode, Function.update_idem]
        exact Function.update_noteq (Ne.symm hik) _ _)
      0 obs t1 i (Nat.zero_le i) (by omega)
    rw [hs0]
    simpa [hXe] using h
  -- entry `(i, j)` after the inner loop is the entry written by iteration `j`
  have hcol := forLoop_obs (pairInit ext hp dim nfv alp i)
    (fun l (x : Nodes R) => ((x i).num1 l, (x i).num2 l, (x i).wt l))
    (fun j' l x hjl => by
      show ((pairInit ext hp dim nfv alp i j' x i).num1 l,
        (pairInit ext hp dim nfv alp i j' x i).num2 l,
        (pairInit ext hp dim nfv alp i j' x i).wt l) = _
      have hlj : l ≠ j' := Ne.symm hjl
      simp [pairInit, setNode, Function.update_apply, hlj])
    (i + 1) (obs - (i + 1)) X j (by omega) (by omega)
  simp only [hYe] at hcol
  rw [pairInit_eq ext hp dim nfv alp i j (ne_of_lt hij) Y] at hcol
  simp only [setNode, Function.update_same, Prod.mk.injEq] at hcol
  obtain ⟨c1, c2, c3⟩ := hcol
  have hji : j ≠ i := fun e => by omega
  have hdiag : ∀ k, (Y k).wt k = (initNodes ext t dim obs cc alp nfv k).wt k := by
    intro k
    rw [((hTY k).2 k (fun h => absurd h.1 (lt_irrefl k))).2.2,
      ((hF k).2 k (fun h => absurd h.1 (lt_irrefl k))).2.2]
  have hnk : ∀ k, (Y k).nk = (initNodes ext t dim obs cc alp nfv k).nk :=
    fun k => by rw [hTY.nk k, hF.nk k]
  have hck : ∀ k, (Y k).ck = (initNodes ext t dim obs cc alp nfv k).ck :=
    fun k => by rw [hTY.ck k, hF.ck k]
  refine ⟨Y, fun k => ⟨by rw [hTY.dat k, hF.dat k], by rw [hTY.vec_no k, hF.vec_no k]⟩, ?_⟩
  rw [← hrow] at c1 c2 c3
  simp only [hnk, hck, hdiag] at c1 c2 c3
  exact ⟨c1, c2, by rw [c3, c1, c2]⟩

/-! ## The value invariant -/

/-- A filled-in entry of two nodes below `m` stays filled in when slot `m` is merged. -/
theorem PairOK.mergeBody (ext : Externals R H) (hp : H) (dim nfv : Nat) (alp : R)
    (obs m n1 n2 : Nat) (t : Nodes R) (k j : Nat) (hk : k ≠ m) (hj : j ≠ m)
    (h : PairOK ext hp dim nfv alp obs t k j) :
    PairOK ext hp dim nfv alp obs (mergeBody ext hp dim nfv alp m n1 n2 t) k j := by
  obtain ⟨x, hxk, hxj, h1, h2, h3⟩ := h
  have hp3 := mergeBody_pairs_ne ext hp dim nfv alp m n1 n2 t k j hj
  refine ⟨x, ?_, ?_, ?_, ?_, ?_⟩
  · rw [mergeBody_dat_ne ext hp dim nfv alp m n1 n2 t k hk,
      mergeBody_vec_no_ne ext hp dim nfv alp m n1 n2 t k hk]
    exact hxk
  · rw [mergeBody_dat_ne ext hp dim nfv alp m n1 n2 t j hj,
      mergeBody_vec_no_ne ext hp dim nfv alp m n1 n2 t j hj]
    exact hxj
  · rw [hp3.1, mergeBody_nk, mergeBody_nk, mergeBody_ck, mergeBody_ck, if_neg hk, if_neg hj,
      if_neg hk, if_neg hj]
    exact h1
  · rw [hp3.2.1, mergeBody_nk, mergeBody_nk, mergeBody_ck, mergeBody_ck, mergeBody_den,
      mergeBody_den, if_neg hk, if_neg hj, if_neg hk, if_neg hj, if_neg hk, if_neg hj]
    exact h2
  · rw [hp3.1, hp3.2.1, hp3.2.2]
    exact h3

/-- The value invariant holds on entry to the merging loop. -/
theorem initState_valueInv (ext : Externals R H) (t : Nodes R) (dim obs : Nat)
    (cc alp : R) (nfv : Nat) :
    ValueInv ext (ext.CalculateHyperparameters t dim obs nfv cc) dim nfv alp obs 0
      (initState ext t dim obs cc alp nfv) := by
  have hden : ∀ k, k < obs → (initNodes ext t dim obs cc alp nfv k).den =
      (initNodes ext t dim obs cc alp nfv k).wt k := by
    intro k hk
    obtain ⟨_, _, h3, h4⟩ := initNodes_leaf ext t dim obs cc alp nfv k hk
    rw [h3, h4]
  refine
    { pairs := fun k j hkj hj _ _ => ?_
      nodes := fun m h1 h2 => by omega
      leaves := fun k hk => ⟨(initNodes_leaf ext t dim obs cc alp nfv k hk).2.1, hden k hk⟩ }
  have hj2 : j < obs := by omega
  obtain ⟨x, hx, e1, e2, e3⟩ := initNodes_entry ext t dim obs cc alp nfv k j hkj hj2
  refine ⟨x, hx k, hx j, ?_⟩
  simp only [evArgs, if_pos hj2]
  refine ⟨e1, ?_, e3⟩
  show (initNodes ext t dim obs cc alp nfv k).num2 j =
    (initNodes ext t dim obs cc alp nfv k).ck + (initNodes ext t dim obs cc alp nfv j).ck
      - logSumExp ext
          (ext.log alp + ext.fast_gammaln ((initNodes ext t dim obs cc alp nfv k).nk +
            (initNodes ext t dim obs cc alp nfv j).nk))
          ((initNodes ext t dim obs cc alp nfv k).ck + (initNodes ext t dim obs cc alp nfv j).ck)
      + (initNodes ext t dim obs cc alp nfv k).den + (initNodes ext t dim obs cc alp nfv j).den
  rw [e2, hden k (by omega), hden j hj2]

/-- Merging an active pair `a < b` of populated nodes preserves the value invariant. -/
theorem mergeBody_valueInv (ext : Externals R H) (hp : H) (dim obs nfv : Nat)
    (alp min_wt : R) (t0 : Nodes R) (n : Nat) (L : MergeState R)
    (hI : MergeInv obs min_wt t0 n L) (hV : ValueInv ext hp dim nfv alp obs n L)
    (a b : Nat) (hab : a < b) (hb : b < obs + n)
    (ha0 : (L.tr_node a).flag = 0) (hb0 : (L.tr_node b).flag = 0) :
    ValueInv ext hp dim nfv alp obs (n + 1)
      { tr_node := mergeBody ext hp dim nfv alp (obs + n) a b L.tr_node,
        node1 := a, node2 := b, merged_node := obs + n } := by
  have hF := mergeBody_flag ext hp dim nfv alp (obs + n) a b L.tr_node
  have hPl := mergeBody_pleft ext hp dim nfv alp (obs + n) a b L.tr_node
  have hPr := mergeBody_pright ext hp dim nfv alp (obs + n) a b L.tr_node
  have hNk := mergeBody_nk ext hp dim nfv alp (obs + n) a b L.tr_node
  have hCk := mergeBody_ck ext hp dim nfv alp (obs + n) a b L.tr_node
  have hDen := mergeBody_den ext hp dim nfv alp (obs + n) a b L.tr_node
  have hWt := mergeBody_pairs_ne ext hp dim nfv alp (obs + n) a b L.tr_node
  have ham : a ≠ obs + n := by omega
  have hbm : b ≠ obs + n := by omega
  refine
    { pairs := fun k j hkj hj hk0 hj0 => ?_
      nodes := fun m h1 h2 => ?_
      leaves := fun k hk => ?_ }
  · -- active pairs
    have hk0' : (mergeBody ext hp dim nfv alp (obs + n) a b L.tr_node k).flag = 0 := hk0
    have hj0' : (mergeBody ext hp dim nfv alp (obs + n) a b L.tr_node j).flag = 0 := hj0
    rw [hF] at hk0' hj0'
    have hka : ¬ (k = a ∨ k = b) := fun h => by
      rw [if_pos h] at hk0'; exact absurd hk0' (by decide)
    have hja : ¬ (j = a ∨ j = b) := fun h => by
      rw [if_pos h] at hj0'; exact absurd hj0' (by decide)
    rw [if_neg hka] at hk0'
    rw [if_neg hja] at hj0'
    show PairOK ext hp dim nfv alp obs (mergeBody ext hp dim nfv alp (obs + n) a b L.tr_node) k j
    by_cases hjm : j = obs + n
    · -- the pair of a partner with the new node
      subst hjm
      obtain ⟨x, hx, e1, e2, e3⟩ := mergeBody_entry ext hp dim nfv alp (obs + n) a b L.tr_node
        k hkj (by rw [hk0']; decide) (fun e => hka (Or.inl e)) (fun e => hka (Or.inr e))
      refine ⟨x, hx k, hx (obs + n), ?_⟩
      simp only [evArgs, if_neg (show ¬ obs + n < obs by omega)]
      refine ⟨?_, ?_, e3⟩
      · rw [e1, add_comm (mergeBody ext hp dim nfv alp (obs + n) a b L.tr_node (obs + n)).nk,
          add_comm (mergeBody ext hp dim nfv alp (obs + n) a b L.tr_node (obs + n)).ck]
      · rw [e2, add_comm (mergeBody ext hp dim nfv alp (obs + n) a b L.tr_node (obs + n)).nk,
          add_comm (mergeBody ext hp dim nfv alp (obs + n) a b L.tr_node (obs + n)).ck,
          add_right_comm]
    · exact PairOK.mergeBody ext hp dim nfv alp obs (obs + n) a b L.tr_node k j (by omega) hjm
        (hV.pairs k j hkj (by omega) hk0' hj0')
  · -- internal nodes
    show PairOK ext hp dim nfv alp obs (mergeBody ext hp dim nfv alp (obs + n) a b L.tr_node)
        (mergeBody ext hp dim nfv alp (obs + n) a b L.tr_node m).pleft.toNat
        (mergeBody ext hp dim nfv alp (obs + n) a b L.tr_node m).pright.toNat ∧
      (mergeBody ext hp dim nfv alp (obs + n) a b L.tr_node m).den =
        logSumExp ext
          ((mergeBody ext hp dim nfv alp (obs + n) a b L.tr_node
            (mergeBody ext hp dim nfv alp (obs + n) a b L.tr_node m).pleft.toNat).num1
            (mergeBody ext hp dim nfv alp (obs + n) a b L.tr_node m).pright.toNat)
          ((mergeBody ext hp dim nfv alp (obs + n) a b L.tr_node
            (mergeBody ext hp dim nfv alp (obs + n) a b L.tr_node m).pleft.toNat).num2
            (mergeBody ext hp dim nfv alp (obs + n) a b L.tr_node m).pright.toNat) ∧
      (mergeBody ext hp dim nfv alp (obs + n) a b L.tr_node m).ck =
        logSumExp ext
          (ext.log alp + ext.fast_gammaln
            ((mergeBody ext hp dim nfv alp (obs + n) a b L.tr_node
              (mergeBody ext hp dim nfv alp (obs + n) a b L.tr_node m).pleft.toNat).nk +
             (mergeBody ext hp dim nfv alp (obs + n) a b L.tr_node
              (mergeBody ext hp dim nfv alp (obs + n) a b L.tr_node m).pright.toNat).nk))
          ((mergeBody ext hp dim nfv alp (obs + n) a b L.tr_node
              (mergeBody ext hp dim nfv alp (obs + n) a b L.tr_node m).pleft.toNat).ck +
           (mergeBody ext hp dim nfv alp (obs + n) a b L.tr_node
              (mergeBody ext hp dim nfv alp (obs + n) a b L.tr_node m).pright.toNat).ck)
    by_cases hm : m = obs + n
    · subst hm
      rw [hPl, hPr, if_pos rfl, if_pos rfl, Int.toNat_ofNat, Int.toNat_ofNat]
      refine ⟨PairOK.mergeBody ext hp dim nfv alp obs (obs + n) a b L.tr_node a b ham hbm
        (hV.pairs a b hab hb ha0 hb0), ?_, ?_⟩
      · rw [hDen, if_pos rfl, (hWt a b hbm).1, (hWt a b hbm).2.1]
      · rw [hCk, if_pos rfl, hNk, hNk, hCk, hCk, if_neg ham, if_neg hbm, if_neg ham, if_neg hbm]
    · obtain ⟨l, r, hl, hr, hlr, hrm⟩ := hI.kids m h1 (by omega)
      obtain ⟨g1, g2, g3⟩ := hV.nodes m h1 (by omega)
      rw [hl, hr, Int.toNat_ofNat, Int.toNat_ofNat] at g1 g2 g3
      have hlm : l ≠ obs + n := by omega
      have hrm2 : r ≠ obs + n := by omega
      rw [hPl, hPr, if_neg hm, if_neg hm, hl, hr, Int.toNat_ofNat, Int.toNat_ofNat]
      refine ⟨PairOK.mergeBody ext hp dim nfv alp obs (obs + n) a b L.tr_node l r hlm hrm2 g1,
        ?_, ?_⟩
      · rw [hDen, if_neg hm, (hWt l r hrm2).1, (hWt l r hrm2).2.1]
        exact g2
      · rw [hCk, if_neg hm, hNk, hNk, hCk, hCk, if_neg hlm, if_neg hrm2, if_neg hlm,
          if_neg hrm2]
        exact g3
  · -- leaves
    show (mergeBody ext hp dim nfv alp (obs + n) a b L.tr_node k).ck = ext.log alp ∧
      (mergeBody ext hp dim nfv alp (obs + n) a b L.tr_node k).den =
        (mergeBody ext hp dim nfv alp (obs + n) a b L.tr_node k).wt k
    have hkm : k ≠ obs + n := by omega
    rw [hCk, hDen, if_neg hkm, if_neg hkm, (hWt k k hkm).2.2]
    exact hV.leaves k hk

/-- Along a run from a working start state both invariants hold after every merge. -/
theorem runMerges_values (ext : Externals R H) (t : Nodes R) (dim obs : Nat)
    (cc alp min_wt : R) (nfv : Nat) (hs : StartOK obs min_wt t)
    (hW : WeightsAbove ext t dim obs cc alp min_wt nfv) (n : Nat) (hn : n + 1 ≤ obs) :
    ∃ L, runMerges ext t dim obs cc alp min_wt nfv n = some L ∧ MergeInv obs min_wt t n L ∧
      ValueInv ext (ext.CalculateHyperparameters t dim obs nfv cc) dim nfv alp obs n L := by
  induction n with
  | zero =>
    exact ⟨_, runMerges_zero ext t dim obs cc alp min_wt nfv,
      initState_inv ext t dim obs cc alp min_wt nfv hs,
      initState_valueInv ext t dim obs cc alp nfv⟩
  | succ n ih =>
    obtain ⟨L, hL, hI, hV⟩ := ih (by omega)
    obtain ⟨L', hL', _, hstep⟩ := runMerges_step ext t dim obs cc alp min_wt nfv hs hW n
      (by omega)
    have eL : L' = L := Option.some.inj (hL'.symm.trans hL)
    subst eL
    obtain ⟨a, b, h1, h2, h3, h4, _, _, h7⟩ := hstep (by omega)
    exact ⟨_, h7,
      mergeBody_inv ext _ dim obs nfv alp min_wt t n L' hI (by omega) a b h1 h2 h3 h4,
      mergeBody_valueInv ext _ dim obs nfv alp min_wt t n L' hI hV a b h1 h2 h3 h4⟩

/-- Every populated node has `nk >= 1`. -/
theorem MergeInv.one_le_nk {obs : Nat} {min_wt : R} {t0 : Nodes R} {n : Nat}
    {L : MergeState R} (hI : MergeInv obs min_wt t0 n L) (m : Nat) (hm : m < obs + n) :
    1 ≤ (L.tr_node m).nk := by
  induction m using Nat.strong_induction_on with
  | _ m ih =>
    by_cases hlt : m < obs
    · rw [hI.nk_leaf m hlt]
    · obtain ⟨l, r, hl, hr, hlr, hrm⟩ := hI.kids m (by omega) hm
      have h := hI.nk_add m (by omega) hm
      rw [hl, hr, Int.toNat_ofNat, Int.toNat_ofNat] at h
      have h1 := ih l (by omega) (by omega)
      have h2 := ih r (by omega) (by omega)
      rw [h]
      exact le_add_of_le_of_nonneg h1 (le_trans zero_le_one h2)

/-! ## The count table of a new node -/

/-- Lines 147-149: with both selected nodes different from `m`, every cell of the
`dim x nFeatureValues` count table of the new node is the sum of the two cells. -/
theorem mergeData_cells (dim nfv m n1 n2 : Nat) (t : Nodes R) (h1 : n1 ≠ m) (h2 : n2 ≠ m)
    (a b : Nat) (ha : a < dim) (hb : b < nfv) :
    (mergeData dim nfv m n1 n2 t m).dat a b = (t n1).dat a b + (t n2).dat a b := by
  have hshape : ∀ y : Nodes R, (∃ d, y = setNode t m { t m with dat := d }) →
      y n1 = t n1 ∧ y n2 = t n2 := by
    rintro y ⟨d, rfl⟩
    exact ⟨by simp [setNode, Function.update_noteq h1],
      by simp [setNode, Function.update_noteq h2]⟩
  have hcell : ∀ (i j : Nat) (y : Nodes R) (a' b' : Nat),
      (datCell m n1 n2 i j y m).dat a' b' =
        if a' = i ∧ b' = j then (y n1).dat i j + (y n2).dat i j else (y m).dat a' b' := by
    intro i j y a' b'
    simp only [datCell, setNode, Function.update_same]
    by_cases hi : a' = i
    · subst hi
      by_cases hj : b' = j
      · subst hj; simp
      · simp [Function.update_apply, hj]
    · simp [Function.update_apply, hi]
  have hmain := forLoop_induct
    (fun i (y : Nodes R) => (∃ d, y = setNode t m { t m with dat := d }) ∧
      ∀ a' b', a' < i → b' < nfv → (y m).dat a' b' = (t n1).dat a' b' + (t n2).dat a' b')
    (fun k => forLoop (datCell m n1 n2 k) 0 nfv) 0 dim t
    ⟨⟨(t m).dat, by simp [setNode]⟩, fun a' b' h _ => absurd h (Nat.not_lt_zero _)⟩
    (fun i x _ _ hx => by
      have h2 := forLoop_induct
        (fun j (y : Nodes R) => (∃ d, y = setNode t m { t m with dat := d }) ∧
          (∀ a' b', a' < i → b' < nfv →
            (y m).dat a' b' = (t n1).dat a' b' + (t n2).dat a' b') ∧
          ∀ b', b' < j → (y m).dat i b' = (t n1).dat i b' + (t n2).dat i b')
        (datCell m n1 n2 i) 0 nfv x
        ⟨hx.1, hx.2, fun b' h => absurd h (Nat.not_lt_zero _)⟩
        (fun j y _ _ hy => by
          obtain ⟨hsh, hrows, hcols⟩ := hy
          obtain ⟨e1, e2⟩ := hshape y hsh
          refine ⟨?_, ?_, ?_⟩
          · obtain ⟨d, rfl⟩ := hsh
            show ∃ d', datCell m n1 n2 i j _ = setNode t m { t m with dat := d' }
            simp only [datCell, setNode, Function.update_same, Function.update_idem]
            exact ⟨_, rfl⟩
          · intro a' b' ha' hb'
            rw [hcell, if_neg (by omega)]
            exact hrows a' b' ha' hb'
          · intro b' hb'
            rw [hcell]
            by_cases hj : b' = j
            · rw [if_pos ⟨rfl, hj⟩, e1, e2, hj]
            · rw [if_neg (fun h => hj h.2)]
              exact hcols b' (by omega))
      obtain ⟨hsh, hrows, hcols⟩ := h2
      refine ⟨hsh, fun a' b' ha' hb' => ?_⟩
      by_cases hai : a' = i
      · rw [hai]; exact hcols b' (by omega)
      · exact hrows a' b' (by omega) hb')
  obtain ⟨_, hall⟩ := hmain
  have := hall a b (by omega) hb
  simp only [mergeData, setNode, Function.update_same]
  exact this

/-- The count table of the node created by a merge of `n1, n2 ≠ m`. -/
theorem mergeBody_dat_new (ext : Externals R H) (hp : H) (dim nfv : Nat) (alp : R)
    (m n1 n2 : Nat) (t : Nodes R) (h1 : n1 ≠ m) (h2 : n2 ≠ m)
    (a b : Nat) (ha : a < dim) (hb : b < nfv) :
    (mergeBody ext hp dim nfv alp m n1 n2 t m).dat a b =
      (t n1).dat a b + (t n2).dat a b := by
  have e : mergeBody ext hp dim nfv alp m n1 n2 t =
      mergeFlags n1 n2 (mergePartners ext hp dim nfv alp m n1 n2
        (mergeData dim nfv m n1 n2 (mergeNode ext alp m n1 n2 t))) := by
    simp only [mergeBody, Int.toNat_ofNat]
  have hf := mergePartners_frame ext hp dim nfv alp m n1 n2
    (mergeData dim nfv m n1 n2 (mergeNode ext alp m n1 n2 t))
  have hflag : ∀ (x : Nodes R) k, (mergeFlags n1 n2 x k).dat = (x k).dat := by
    intro x k
    rw [mergeFlags_apply]
    split_ifs <;> rfl
  rw [e, hflag, hf.dat m, mergeData_cells dim nfv m n1 n2 _ h1 h2 a b ha hb, mergeNode_eq]
  simp [setNode, Function.update_noteq h1, Function.update_noteq h2]

/-! ## Forced selection -/

/-- The active populated nodes after the merge of `a < b` into the new node `obs + n`. -/
theorem activeSet_mergeBody (ext : Externals R H) (hp : H) (dim obs nfv : Nat)
    (alp min_wt : R) (t0 : Nodes R) (n : Nat) (L : MergeState R)
    (hI : MergeInv obs min_wt t0 n L) (hn : n + 1 < obs) (a b : Nat)
    (hab : a < b) (hb : b < obs + n) :
    activeSet (mergeBody ext hp dim nfv alp (obs + n) a b L.tr_node) (obs + (n + 1)) =
      insert (obs + n) (((activeSet L.tr_node (obs + n)).erase a).erase b) := by
  have hF := mergeBody_flag ext hp dim nfv alp (obs + n) a b L.tr_node
  have hm0 : (L.tr_node (obs + n)).flag = 0 := hI.flagHi (obs + n) (le_refl _) (by omega)
  ext k
  simp only [mem_activeSet, Finset.mem_insert, Finset.mem_erase, hF]
  by_cases hk : k = obs + n
  · subst hk
    simp only [if_neg (show ¬ (obs + n = a ∨ obs + n = b) by omega), hm0]
    exact ⟨fun _ => Or.inl trivial, fun _ => ⟨by omega, trivial⟩⟩
  · by_cases hka : k = a ∨ k = b
    · rw [if_pos hka]
      constructor
      · intro h; exact absurd h.2 (by decide)
      · rintro (h | ⟨h1, h2, _⟩)
        · exact absurd h hk
        · rcases hka with h | h
          · exact absurd h h2
          · exact absurd h h1
    · rw [if_neg hka]
      constructor
      · rintro ⟨h1, h2⟩
        exact Or.inr ⟨fun e => hka (Or.inr e), fun e => hka (Or.inl e), by omega, h2⟩
      · rintro (h | ⟨_, _, h3, h4⟩)
        · exact absurd h hk
        · exact ⟨by omega, h4⟩

/-- The invariant on count tables holds on entry to the merging loop. -/
theorem initState_datInv (ext : Externals R H) (t : Nodes R) (dim obs : Nat)
    (cc alp min_wt : R) (nfv : Nat) (hs : StartOK obs min_wt t) :
    DatInv dim nfv obs t 0 (initState ext t dim obs cc alp nfv) := by
  have hA : activeSet (initNodes ext t dim obs cc alp nfv) (obs + 0) = Finset.range obs := by
    ext k
    rw [mem_activeSet, Finset.mem_range, (initNodes_frame ext t dim obs cc alp nfv k).1]
    exact ⟨fun h => h.1, fun h => ⟨h, hs.flags k (by omega)⟩⟩
  refine
    { leaf := fun k _ => (initNodes_frame ext t dim obs cc alp nfv k).2.2.2.1
      add := fun m h1 h2 => absurd h2 (by omega)
      sum := fun a b _ _ => ?_ }
  show (∑ k in activeSet (initNodes ext t dim obs cc alp nfv) (obs + 0),
    (initNodes ext t dim obs cc alp nfv k).dat a b) = _
  rw [hA]
  exact Finset.sum_congr rfl
    (fun k _ => by rw [(initNodes_frame ext t dim obs cc alp nfv k).2.2.2.1])

/-- Merging an active pair `a < b` of populated nodes preserves the invariant on count
tables. -/
theorem mergeBody_datInv (ext : Externals R H) (hp : H) (dim obs nfv : Nat)
    (alp min_wt : R) (t0 : Nodes R) (n : Nat) (L : MergeState R)
    (hI : MergeInv obs min_wt t0 n L) (hD : DatInv dim nfv obs t0 n L) (hn : n + 1 < obs)
    (a b : Nat) (hab : a < b) (hb : b < obs + n)
    (ha0 : (L.tr_node a).flag = 0) (hb0 : (L.tr_node b).flag = 0) :
    DatInv dim nfv obs t0 (n + 1)
      { tr_node := mergeBody ext hp dim nfv alp (obs + n) a b L.tr_node,
        node1 := a, node2 := b, merged_node := obs + n } := by
  have hPl := mergeBody_pleft ext hp dim nfv alp (obs + n) a b L.tr_node
  have hPr := mergeBody_pright ext hp dim nfv alp (obs + n) a b L.tr_node
  have hT := mergeBody_dat_ne ext hp dim nfv alp (obs + n) a b L.tr_node
  have hTn := mergeBody_dat_new ext hp dim nfv alp (obs + n) a b L.tr_node
    (show a ≠ obs + n by omega) (show b ≠ obs + n by omega)
  have hAset := activeSet_mergeBody ext hp dim obs nfv alp min_wt t0 n L hI hn a b hab hb
  have haA : a ∈ activeSet L.tr_node (obs + n) := mem_activeSet.2 ⟨by omega, ha0⟩
  have hbA : b ∈ (activeSet L.tr_node (obs + n)).erase a :=
    Finset.mem_erase.2 ⟨fun e => by omega, mem_activeSet.2 ⟨hb, hb0⟩⟩
  have hmA : obs + n ∉ ((activeSet L.tr_node (obs + n)).erase a).erase b := by
    intro h
    have := (mem_activeSet.1 (Finset.mem_of_mem_erase (Finset.mem_of_mem_erase h))).1
    omega
  refine { leaf := fun k hk => ?_, add := fun m h1 h2 x y hx hy => ?_,
           sum := fun x y hx hy => ?_ }
  · show (mergeBody ext hp dim nfv alp (obs + n) a b L.tr_node k).dat = (t0 k).dat
    rw [hT k (by omega)]
    exact hD.leaf k hk
  · show (mergeBody ext hp dim nfv alp (obs + n) a b L.tr_node m).dat x y =
      (mergeBody ext hp dim nfv alp (obs + n) a b L.tr_node
        (mergeBody ext hp dim nfv alp (obs + n) a b L.tr_node m).pleft.toNat).dat x y +
      (mergeBody ext hp dim nfv alp (obs + n) a b L.tr_node
        (mergeBody ext hp dim nfv alp (obs + n) a b L.tr_node m).pright.toNat).dat x y
    rw [hPl, hPr]
    by_cases hm : m = obs + n
    · rw [if_pos hm, if_pos hm, Int.toNat_ofNat, Int.toNat_ofNat, hm, hTn x y hx hy,
        hT a (by omega), hT b (by omega)]
    · obtain ⟨l, r, hl, hr, hlr, hrm⟩ := hI.kids m h1 (by omega)
      rw [if_neg hm, if_neg hm, hl, hr, Int.toNat_ofNat, Int.toNat_ofNat, hT m hm,
        hT l (by omega), hT r (by omega)]
      have := hD.add m h1 (by omega) x y hx hy
      rw [hl, hr, Int.toNat_ofNat, Int.toNat_ofNat] at this
      exact this
  · show (∑ k in activeSet (mergeBody ext hp dim nfv alp (obs + n) a b L.tr_node)
      (obs + (n + 1)), (mergeBody ext hp dim nfv alp (obs + n) a b L.tr_node k).dat x y) = _
    rw [hAset, Finset.sum_insert hmA, hTn x y hx hy]
    have hrest : (∑ k in ((activeSet L.tr_node (obs + n)).erase a).erase b,
        (mergeBody ext hp dim nfv alp (obs + n) a b L.tr_node k).dat x y) =
        ∑ k in ((activeSet L.tr_node (obs + n)).erase a).erase b, (L.tr_node k).dat x y := by
      refine Finset.sum_congr rfl (fun k hk => ?_)
      have := (mem_activeSet.1 (Finset.mem_of_mem_erase (Finset.mem_of_mem_erase hk))).1
      rw [hT k (by omega)]
    rw [hrest, add_assoc, Finset.add_sum_erase _ (fun k => (L.tr_node k).dat x y) hbA,
      Finset.add_sum_erase _ (fun k => (L.tr_node k).dat x y) haA]
    exact hD.sum x y hx hy

/-- Along the run both the structural invariant and the invariant on count tables hold. -/
theorem runMerges_dat (ext : Externals R H) (t : Nodes R) (dim obs : Nat)
    (cc alp min_wt : R) (nfv : Nat) (hs : StartOK obs min_wt t)
    (hW : WeightsAbove ext t dim obs cc alp min_wt nfv) (n : Nat) (hn : n + 1 ≤ obs) :
    ∃ L, runMerges ext t dim obs cc alp min_wt nfv n = some L ∧ MergeInv obs min_wt t n L ∧
      DatInv dim nfv obs t n L := by
  induction n with
  | zero =>
    exact ⟨_, runMerges_zero ext t dim obs cc alp min_wt nfv,
      initState_inv ext t dim obs cc alp min_wt nfv hs,
      initState_datInv ext t dim obs cc alp min_wt nfv hs⟩
  | succ n ih =>
    obtain ⟨L, hL, hI, hD⟩ := ih (by omega)
    obtain ⟨L', hL', _, hstep⟩ := runMerges_step ext t dim obs cc alp min_wt nfv hs hW n
      (by omega)
    have eL : L' = L := Option.some.inj (hL'.symm.trans hL)
    subst eL
    obtain ⟨a, b, h1, h2, h3, h4, _, _, h7⟩ := hstep (by omega)
    exact ⟨_, h7,
      mergeBody_inv ext _ dim obs nfv alp min_wt t n L' hI (by omega) a b h1 h2 h3 h4,
      mergeBody_datInv ext _ dim obs nfv alp min_wt t n L' hI hD (by omega) a b h1 h2 h3 h4⟩

/-- Under the invariants, the count table of a populated node is the sum of the input
tables of the leaves of its subtree. -/
theorem dat_leavesBelow {dim nfv obs : Nat} {min_wt : R} {t0 : Nodes R} {n : Nat}
    {L : MergeState R} (hI : MergeInv obs min_wt t0 n L) (hD : DatInv dim nfv obs t0 n L)
    (a b : Nat) (ha : a < dim) (hb : b < nfv) (m : Nat) :
    m < obs + n → ∀ fuel, m ≤ fuel →
      (L.tr_node m).dat a b =
        ((leavesBelow obs L.tr_node fuel m).map (fun i => (t0 i).dat a b)).sum := by
  induction m using Nat.strong_induction_on with
  | _ m ih =>
    intro hm fuel hf
    by_cases hleaf : m < obs
    · have e : leavesBelow obs L.tr_node fuel m = [m] := by
        cases fuel <;> simp [leavesBelow, hleaf]
      rw [e, hD.leaf m hleaf]
      simp
    · obtain ⟨l, r, hl, hr, hlr, hrm⟩ := hI.kids m (by omega) hm
      obtain ⟨f, rfl⟩ : ∃ f, fuel = f + 1 := ⟨fuel - 1, by omega⟩
      have e : leavesBelow obs L.tr_node (f + 1) m =
          leavesBelow obs L.tr_node f l ++ leavesBelow obs L.tr_node f r := by
        simp [leavesBelow, hleaf, hl, hr]
      have hadd := hD.add m (by omega) hm a b ha hb
      rw [hl, hr, Int.toNat_ofNat, Int.toNat_ofNat] at hadd
      rw [e, List.map_append, List.sum_append, hadd,
        ih l (by omega) (by omega) f (by omega), ih r (by omega) (by omega) f (by omega)]

/-- C13 (count tables).  For `obs >= 2` in the working start state, after the run the
leaf tables are those of the input, every cell of the `dim x nFeatureValues` table of an
internal node `m` is the sum of that cell over the leaves of the subtree of `m`, and every
cell of the table of the root `2*obs-2` is the sum of that cell over all `obs` leaves. -/
theorem count_tables (ext : Externals R H) (t : Nodes R) (dim obs : Nat)
    (cc alp min_wt : R) (nfv : Nat) (hN : 2 ≤ obs) (hs : StartOK obs min_wt t)
    (hW : WeightsAbove ext t dim obs cc alp min_wt nfv) :
    ∃ v fin, bayeslink_binf ext t dim obs cc alp min_wt nfv = some (v, fin) ∧
      (∀ k, k < obs → (fin k).dat = (t k).dat) ∧
      (∀ m, obs ≤ m → m ≤ 2 * obs - 2 → ∀ a b, a < dim → b < nfv →
        (fin m).dat a b = ((leavesBelow obs fin m m).map (fun i => (t i).dat a b)).sum) ∧
      (∀ a b, a < dim → b < nfv →
        (fin (2 * obs - 2)).dat a b = ∑ i in Finset.range obs, (t i).dat a b) := by
  obtain ⟨L, hL, hI, hD⟩ := runMerges_dat ext t dim obs cc alp min_wt nfv hs hW (obs - 1)
    (by omega)
  obtain ⟨L', hL', _, hret⟩ := run_final ext t dim obs cc alp min_wt nfv (by omega) hs hW
  have eL : L' = L := Option.some.inj (hL'.symm.trans hL)
  subst eL
  have hA := final_active hN hI
  refine ⟨_, _, hret, hD.leaf, fun m h1 h2 a b ha hb => ?_, fun a b ha hb => ?_⟩
  · exact dat_leavesBelow hI hD a b ha hb m (by omega) m (le_refl m)
  · have hsum := hD.sum a b ha hb
    have e : obs + (obs - 1) = 2 * obs - 1 := by omega
    rw [e, hA, Finset.sum_singleton] at hsum
    exact hsum

/-- Witness for C13: the run on two data points over the integers. -/
theorem count_tables_witness :
    ∃ v fin, bayeslink_binf demoExt demoNodes 1 2 0 1 (-1000) 1 = some (v, fin) ∧
      (∀ k, k < 2 → (fin k).dat = (demoNodes k).dat) ∧
      (∀ m, 2 ≤ m → m ≤ 2 * 2 - 2 → ∀ a b, a < 1 → b < 1 →
        (fin m).dat a b =
          ((leavesBelow 2 fin m m).map (fun i => (demoNodes i).dat a b)).sum) ∧
      (∀ a b, a < 1 → b < 1 →
        (fin (2 * 2 - 2)).dat a b = ∑ i in Finset.range 2, (demoNodes i).dat a b) :=
  count_tables demoExt demoNodes 1 2 0 1 (-1000) 1 (le_refl 2) demo_start demo_weights

/-! ## Internal slots that start consumed -/

/-- With the slots `obs .. 2*obs-1` consumed, an iteration merges two data points: the
pair the scan selects, or the pair of the previous iteration when the scan selects
nothing. -/
theorem leafOnly_step (ext : Externals R H) (hp : H) (dim obs nfv : Nat)
    (alp min_wt : R) (n : Nat) (L : MergeState R) (hI : LeafOnly obs n L) (hn : n + 1 < obs)
    (h0 : n = 0 → ∃ i j, Cand obs L.tr_node i j ∧ min_wt < (L.tr_node i).wt j) :
    ∃ L', mergeStep ext hp dim obs nfv alp min_wt L = some L' ∧ LeafOnly obs (n + 1) L' := by
  have hm : L.merged_node + 1 = obs + n := by rw [hI.merged]; omega
  have key : ∃ a b : Nat, a < b ∧ b < obs ∧
      mergeStep ext hp dim obs nfv alp min_wt L = some
        { tr_node := mergeBody ext hp dim nfv alp (obs + n) a b L.tr_node,
          node1 := a, node2 := b, merged_node := obs + n } := by
    rcases scan_spec obs L.tr_node { wt_temp := min_wt, node1 := L.node1, node2 := L.node2 }
      with ⟨e, hall⟩ | ⟨a, b, hC, e, _, _⟩
    · by_cases hn0 : n = 0
      · obtain ⟨i, j, hC, hw⟩ := h0 hn0
        exact absurd hw (not_lt.2 (hall i j hC))
      · obtain ⟨a, b, ha, hb, hab, hbo⟩ := hI.last (by omega)
        refine ⟨a, b, hab, hbo, ?_⟩
        have hneg : ¬ ((a : Int) < 0 ∨ (b : Int) < 0) := by omega
        rw [ha, hb] at e
        simp only [mergeStep, ha, hb, e, hm, if_neg hneg]
    · have hbo : b < obs := by
        by_contra hcon
        have := hI.flagHi b (by omega) hC.2.1
        rw [hC.2.2.2] at this
        exact absurd this (by decide)
      refine ⟨a, b, hC.1, hbo, ?_⟩
      have hneg : ¬ ((a : Int) < 0 ∨ (b : Int) < 0) := by omega
      simp only [mergeStep, e, hm, if_neg hneg]
  obtain ⟨a, b, hab, hbo, hstep⟩ := key
  refine ⟨_, hstep, ?_⟩
  have hF := mergeBody_flag ext hp dim nfv alp (obs + n) a b L.tr_node
  have hPl := mergeBody_pleft ext hp dim nfv alp (obs + n) a b L.tr_node
  have hPr := mergeBody_pright ext hp dim nfv alp (obs + n) a b L.tr_node
  refine
    { merged := by show obs + n = obs - 1 + (n + 1); omega
      flagHi := fun k h1 h2 => ?_
      last := fun _ => ⟨a, b, rfl, rfl, hab, hbo⟩
      kids := fun m h1 h2 => ?_ }
  · show (mergeBody ext hp dim nfv alp (obs + n) a b L.tr_node k).flag = 1
    rw [hF, if_neg (by omega)]
    exact hI.flagHi k h1 h2
  · show ∃ l r : Nat, (mergeBody ext hp dim nfv alp (obs + n) a b L.tr_node m).pleft = l ∧
      (mergeBody ext hp dim nfv alp (obs + n) a b L.tr_node m).pright = r ∧ l < r ∧ r < obs
    rw [hPl, hPr]
    by_cases hmn : m = obs + n
    · rw [if_pos hmn, if_pos hmn]
      exact ⟨a, b, rfl, rfl, hab, hbo⟩
    · rw [if_neg hmn, if_neg hmn]
      exact hI.kids m h1 (by omega)

/-- With the slots `obs .. 2*obs-1` consumed and a pair of data points above `min_wt`,
every iteration of the merging loop goes through and the invariant `LeafOnly` holds. -/
theorem runMerges_leafOnly (ext : Externals R H) (t : Nodes R) (dim obs : Nat)
    (cc alp min_wt : R) (nfv : Nat)
    (hleaf : ∀ k, k < obs → (t k).flag = 0)
    (hint : ∀ k, obs ≤ k → k < 2 * obs → (t k).flag = 1)
    (hsel : ∃ i j, i < j ∧ j < obs ∧ min_wt < (initNodes ext t dim obs cc alp nfv i).wt j)
    (n : Nat) (hn : n + 1 ≤ obs) :
    ∃ L, runMerges ext t dim obs cc alp min_wt nfv n = some L ∧ LeafOnly obs n L := by
  induction n with
  | zero =>
    refine ⟨_, runMerges_zero ext t dim obs cc alp min_wt nfv, ?_⟩
    exact
      { merged := rfl
        flagHi := fun k h1 h2 => by
          show (initNodes ext t dim obs cc alp nfv k).flag = 1
          rw [(initNodes_frame ext t dim obs cc alp nfv k).1]
          exact hint k h1 h2
        last := fun h => absurd h (lt_irrefl 0)
        kids := fun m h1 h2 => absurd h2 (by omega) }
  | succ n ih =>
    obtain ⟨L, hL, hI⟩ := ih (by omega)
    obtain ⟨L', hL', hI'⟩ := leafOnly_step ext (ext.CalculateHyperparameters t dim obs nfv cc)
      dim obs nfv alp min_wt n L hI (by omega) (fun hn0 => by
        subst hn0
        rw [runMerges_zero] at hL
        have e := (Option.some.inj hL).symm
        subst e
        obtain ⟨i, j, hij, hj, hw⟩ := hsel
        refine ⟨i, j, ⟨hij, by omega, ?_, ?_⟩, hw⟩
        · show (initNodes ext t dim obs cc alp nfv i).flag = 0
          rw [(initNodes_frame ext t dim obs cc alp nfv i).1]
          exact hleaf i (by omega)
        · show (initNodes ext t dim obs cc alp nfv j).flag = 0
          rw [(initNodes_frame ext t dim obs cc alp nfv j).1]
          exact hleaf j hj)
    exact ⟨L', by rw [runMerges_succ, hL, Option.some_bind, hL'], hI'⟩

/-- C17, amended.  For `obs >= 2`, when the leaves `0 .. obs-1` start active, the slots
`obs .. 2*obs-1` start consumed (flag 1) and some pair of data points has an initial
weight above `min_wt`: `bayeslink_binf` returns, every internal node `obs .. 2*obs-2`
still has flag 1 at the end, the root `2*obs-2` included, and both children of every
internal node are data points. -/
theorem consumed_internal_slots (ext : Externals R H) (t : Nodes R) (dim obs : Nat)
    (cc alp min_wt : R) (nfv : Nat) (hN : 2 ≤ obs)
    (hleaf : ∀ k, k < obs → (t k).flag = 0)
    (hint : ∀ k, obs ≤ k → k < 2 * obs → (t k).flag = 1)
    (hsel : ∃ i j, i < j ∧ j < obs ∧ min_wt < (initNodes ext t dim obs cc alp nfv i).wt j) :
    ∃ v fin, bayeslink_binf ext t dim obs cc alp min_wt nfv = some (v, fin) ∧
      v = (fin (2 * obs - 2)).den ∧
      ∀ m, obs ≤ m → m ≤ 2 * obs - 2 →
        (fin m).flag = 1 ∧
        ∃ l r : Nat, (fin m).pleft = l ∧ (fin m).pright = r ∧ l < r ∧ r < obs := by
  obtain ⟨L, hL, hI⟩ := runMerges_leafOnly ext t dim obs cc alp min_wt nfv hleaf hint hsel
    (obs - 1) (by omega)
  have hm : L.merged_node = 2 * obs - 2 := by rw [hI.merged]; omega
  refine ⟨(L.tr_node (2 * obs - 2)).den, L.tr_node, ?_, rfl, fun m h1 h2 =>
    ⟨hI.flagHi m h1 (by omega), hI.kids m h1 (by omega)⟩⟩
  simp only [bayeslink_binf, if_neg (show ¬ obs = 0 by omega), hL, Option.map_some', hm]

/-- Witness for the amended C17: two data points over the integers, slots 2 and 3
consumed. -/
theorem consumed_internal_slots_witness :
    ∃ v fin, bayeslink_binf demoExt specNodes 1 2 0 1 (-1000) 1 = some (v, fin) ∧
      v = (fin (2 * 2 - 2)).den ∧
      ∀ m, 2 ≤ m → m ≤ 2 * 2 - 2 →
        (fin m).flag = 1 ∧
        ∃ l r : Nat, (fin m).pleft = l ∧ (fin m).pright = r ∧ l < r ∧ r < 2 :=
  consumed_internal_slots demoExt specNodes 1 2 0 1 (-1000) 1 (le_refl 2)
    (fun k hk => by
      have h : k = 0 ∨ k = 1 := by omega
      rcases h with e | e <;> subst e <;> rfl)
    (fun k h1 h2 => by
      have h : k = 2 ∨ k = 3 := by omega
      rcases h with e | e <;> subst e <;> rfl)
    ⟨0, 1, by decide, by decide, by decide⟩

/-- C17, counterexample: two data points, the two leaves active and the internal slot 2
consumed, as the specification prescribes.  The run merges the two leaves into node 2 and
ends with no active node among `0 .. 2`: the root `2*2-2` has flag 1. -/
theorem spec_flag_initialisation_counterexample :
    (∀ k, k < 2 → (specNodes k).flag = 0) ∧
    (∀ k, 2 ≤ k → k ≤ 2 * 2 - 2 → (specNodes k).flag = 1) ∧
    ∃ v fin, bayeslink_binf demoExt specNodes 1 2 0 1 (-1000) 1 = some (v, fin) ∧
      (fin (2 * 2 - 2)).flag = 1 ∧
      ¬ ∃ k, k ≤ 2 * 2 - 2 ∧ (fin k).flag = 0 := by
  refine ⟨fun k hk => ?_, fun k h1 h2 => ?_, ?_⟩
  · have h : k = 0 ∨ k = 1 := by omega
    rcases h with e | e <;> subst e <;> rfl
  · have h : k = 2 := by omega
    subst h
    rfl
  · refine ⟨_, _, rfl, by decide, ?_⟩
    rintro ⟨k, hk, hf⟩
    have h : k = 0 ∨ k = 1 ∨ k = 2 := by omega
    rcases h with e | e | e <;> subst e <;> revert hf <;> decide

/-! ## An iteration that selects nothing -/

/-- The invariant `BelowInv` holds on entry to the merging loop when the unfilled columns
of the input are at most `min_wt`. -/
theorem initState_below (ext : Externals R H) (t : Nodes R) (dim obs : Nat)
    (cc alp min_wt : R) (nfv : Nat)
    (hu : ∀ k m, k < m → obs ≤ m → m < 2 * obs → (t k).wt m ≤ min_wt) :
    BelowInv obs min_wt 0 (initState ext t dim obs cc alp nfv) :=
  { merged := rfl
    unwritten := fun k m hkm h1 h2 => by
      show (initNodes ext t dim obs cc alp nfv k).wt m ≤ min_wt
      rw [initNodes_wt_ge ext t dim obs cc alp nfv k m (by omega)]
      exact hu k m hkm (by omega) h2
    first := fun _ => ⟨rfl, rfl⟩
    last := fun h => absurd h (lt_irrefl 0) }

/-- An iteration that goes through preserves `BelowInv`, whether its scan selects a pair
or not. -/
theorem below_step (ext : Externals R H) (hp : H) (dim obs nfv : Nat)
    (alp min_wt : R) (hN : 1 ≤ obs) (n : Nat) (L L' : MergeState R)
    (hI : BelowInv obs min_wt n L)
    (hstep : mergeStep ext hp dim obs nfv alp min_wt L = some L') :
    BelowInv obs min_wt (n + 1) L' := by
  have hmg := hI.merged
  have hm : L.merged_node + 1 = obs + n := by omega
  obtain ⟨a, b, e⟩ := mergeStep_some ext hp dim obs nfv alp min_wt L L' hstep
  have hsel : a < b ∧ b < obs + n := by
    have hL'1 : L'.node1 = a := by rw [e]
    have hL'2 : L'.node2 = b := by rw [e]
    simp only [mergeStep] at hstep
    split_ifs at hstep with hneg
    have e2 := (Option.some.inj hstep).symm
    rw [e2] at hL'1 hL'2
    simp only at hL'1 hL'2
    rcases scan_spec obs L.tr_node { wt_temp := min_wt, node1 := L.node1, node2 := L.node2 }
      with ⟨es, _⟩ | ⟨a', b', hC, es, hlt, _⟩
    · rw [es] at hL'1 hL'2 hneg
      simp only at hL'1 hL'2 hneg
      by_cases hn0 : n = 0
      · obtain ⟨f1, f2⟩ := hI.first hn0
        rw [f1] at hneg
        exact absurd (Or.inl (by decide)) hneg
      · obtain ⟨a0, b0, ha0, hb0, hab, hb⟩ := hI.last (by omega)
        rw [ha0] at hL'1
        rw [hb0] at hL'2
        have h1 : a0 = a := by exact_mod_cast hL'1
        have h2 : b0 = b := by exact_mod_cast hL'2
        subst h1; subst h2
        exact ⟨hab, by omega⟩
    · rw [es] at hL'1 hL'2
      simp only at hL'1 hL'2
      have h1 : a' = a := by exact_mod_cast hL'1
      have h2 : b' = b := by exact_mod_cast hL'2
      subst h1; subst h2
      refine ⟨hC.1, ?_⟩
      by_contra hcon
      exact absurd hlt (not_lt.2 (hI.unwritten a' b' hC.1 (by omega) hC.2.1))
  rw [e, hm]
  exact
    { merged := by show obs + n = obs - 1 + (n + 1); omega
      unwritten := fun k m hkm h1 h2 => by
        show (mergeBody ext hp dim nfv alp (obs + n) a b L.tr_node k).wt m ≤ min_wt
        rw [(mergeBody_pairs_ne ext hp dim nfv alp (obs + n) a b L.tr_node k m (by omega)).2.2]
        exact hI.unwritten k m hkm (by omega) h2
      first := fun h => absurd h (by omega)
      last := fun _ => ⟨a, b, rfl, rfl, hsel.1, hsel.2⟩ }

/-- From a start state whose unfilled columns are at most `min_wt`, every state of the
merging loop satisfies `BelowInv`. -/
theorem runMerges_below (ext : Externals R H) (t : Nodes R) (dim obs : Nat)
    (cc alp min_wt : R) (nfv : Nat) (hN : 1 ≤ obs)
    (hu : ∀ k m, k < m → obs ≤ m → m < 2 * obs → (t k).wt m ≤ min_wt) (n : Nat) :
    ∀ L, runMerges ext t dim obs cc alp min_wt nfv n = some L → BelowInv obs min_wt n L := by
  induction n with
  | zero =>
    intro L hL
    rw [runMerges_zero] at hL
    rw [← Option.some.inj hL]
    exact initState_below ext t dim obs cc alp min_wt nfv hu
  | succ n ih =>
    intro L hL
    rw [runMerges_succ] at hL
    obtain ⟨L0, h0, hstep⟩ := Option.bind_eq_some.1 hL
    exact below_step ext _ dim obs nfv alp min_wt hN n L0 L (ih L0 h0) hstep

/-- C19, amended (stale selection).  If after `n + 1 >= 1` merges no pair of active slots
`i < j` has `wt[i][j] > min_wt`, the scan of the next iteration leaves `node1` and `node2`
as the previous iteration set them, the iteration goes through, and the node it creates
has the same `pleft` and `pright` as the node created before it; its two children were
consumed already.  When neither of the two is the node created before, the new node also
has the same `den`, `ck` and `nk`; this is the case whenever the input has weights of at
most `min_wt` in the columns the initialisation does not fill.  In the first iteration a
scan that finds no such pair leaves `node1 = node2 = -1`. -/
theorem stale_selection (ext : Externals R H) (t : Nodes R) (dim obs : Nat)
    (cc alp min_wt : R) (nfv : Nat) (n : Nat) (L : MergeState R)
    (hrun : runMerges ext t dim obs cc alp min_wt nfv (n + 1) = some L)
    (hnone : ∀ i j, Cand obs L.tr_node i j → (L.tr_node i).wt j ≤ min_wt) :
    (scan obs L.tr_node { wt_temp := min_wt, node1 := L.node1, node2 := L.node2 } =
      { wt_temp := min_wt, node1 := L.node1, node2 := L.node2 } ∧
     (∃ L', runMerges ext t dim obs cc alp min_wt nfv (n + 2) = some L' ∧
      L'.node1 = L.node1 ∧ L'.node2 = L.node2 ∧ L'.merged_node = L.merged_node + 1 ∧
      (L'.tr_node L.merged_node).pleft = L.node1 ∧
      (L'.tr_node L.merged_node).pright = L.node2 ∧
      (L.tr_node L.node1.toNat).flag = 1 ∧ (L.tr_node L.node2.toNat).flag = 1 ∧
      (L'.tr_node (L.merged_node + 1)).pleft = (L'.tr_node L.merged_node).pleft ∧
      (L'.tr_node (L.merged_node + 1)).pright = (L'.tr_node L.merged_node).pright ∧
      (L.node1 ≠ (L.merged_node : Int) → L.node2 ≠ (L.merged_node : Int) →
        (L'.tr_node (L.merged_node + 1)).den = (L'.tr_node L.merged_node).den ∧
        (L'.tr_node (L.merged_node + 1)).ck = (L'.tr_node L.merged_node).ck ∧
        (L'.tr_node (L.merged_node + 1)).nk = (L'.tr_node L.merged_node).nk)) ∧
     (1 ≤ obs →
      (∀ k m, k < m → obs ≤ m → m < 2 * obs → (t k).wt m ≤ min_wt) →
      L.node1 ≠ (L.merged_node : Int) ∧ L.node2 ≠ (L.merged_node : Int))) ∧
    ((∀ i j, Cand obs (initState ext t dim obs cc alp nfv).tr_node i j →
        ((initState ext t dim obs cc alp nfv).tr_node i).wt j ≤ min_wt) →
      scan obs (initState ext t dim obs cc alp nfv).tr_node
          { wt_temp := min_wt, node1 := (initState ext t dim obs cc alp nfv).node1,
            node2 := (initState ext t dim obs cc alp nfv).node2 } =
        { wt_temp := min_wt, node1 := -1, node2 := -1 }) := by
  constructor
  · have hrun2 := hrun
    rw [runMerges_succ] at hrun2
    obtain ⟨L0, _, hstep0⟩ := Option.bind_eq_some.1 hrun2
    obtain ⟨a, b, e⟩ := mergeStep_some ext _ dim obs nfv alp min_wt L0 L hstep0
    have hbelow : 1 ≤ obs →
        (∀ k m, k < m → obs ≤ m → m < 2 * obs → (t k).wt m ≤ min_wt) →
        L.node1 ≠ (L.merged_node : Int) ∧ L.node2 ≠ (L.merged_node : Int) := by
      intro hN hu
      have hB := runMerges_below ext t dim obs cc alp min_wt nfv hN hu (n + 1) L hrun
      obtain ⟨a0, b0, ha0, hb0, hab, hb⟩ := hB.last (by omega)
      rw [ha0, hb0]
      constructor <;> omega
    subst e
    have hsc : scan obs (mergeBody ext (ext.CalculateHyperparameters t dim obs nfv cc) dim nfv
          alp (L0.merged_node + 1) a b L0.tr_node)
        { wt_temp := min_wt, node1 := (a : Int), node2 := (b : Int) } =
        { wt_temp := min_wt, node1 := (a : Int), node2 := (b : Int) } := by
      rcases scan_spec obs (mergeBody ext (ext.CalculateHyperparameters t dim obs nfv cc) dim
          nfv alp (L0.merged_node + 1) a b L0.tr_node)
          { wt_temp := min_wt, node1 := (a : Int), node2 := (b : Int) }
        with ⟨es, _⟩ | ⟨a', b', hC, _, hlt, _⟩
      · exact es
      · exact absurd hlt (not_lt.2 (hnone a' b' hC))
    have hneg : ¬ ((a : Int) < 0 ∨ (b : Int) < 0) := by omega
    have hstep : mergeStep ext (ext.CalculateHyperparameters t dim obs nfv cc) dim obs nfv alp
        min_wt
        { tr_node := mergeBody ext (ext.CalculateHyperparameters t dim obs nfv cc) dim nfv
            alp (L0.merged_node + 1) a b L0.tr_node,
          node1 := a, node2 := b, merged_node := L0.merged_node + 1 } = some
        { tr_node := mergeBody ext (ext.CalculateHyperparameters t dim obs nfv cc) dim nfv
            alp (L0.merged_node + 1 + 1) a b
            (mergeBody ext (ext.CalculateHyperparameters t dim obs nfv cc) dim nfv
              alp (L0.merged_node + 1) a b L0.tr_node),
          node1 := a, node2 := b, merged_node := L0.merged_node + 1 + 1 } := by
      simp only [mergeStep, hsc, if_neg hneg]
    have hne : L0.merged_node + 1 ≠ L0.merged_node + 1 + 1 := by omega
    refine ⟨hsc, ⟨
      { tr_node := mergeBody ext (ext.CalculateHyperparameters t dim obs nfv cc) dim nfv
          alp (L0.merged_node + 1 + 1) a b
          (mergeBody ext (ext.CalculateHyperparameters t dim obs nfv cc) dim nfv
            alp (L0.merged_node + 1) a b L0.tr_node),
        node1 := a, node2 := b, merged_node := L0.merged_node + 1 + 1 },
      by rw [runMerges_succ, hrun, Option.some_bind, hstep], rfl, rfl, rfl, ?_, ?_, ?_, ?_,
      ?_, ?_, ?_⟩, hbelow⟩
    · simp only [mergeBody_pleft, if_pos, if_neg hne]
    · simp only [mergeBody_pright, if_pos, if_neg hne]
    · simp only [Int.toNat_ofNat, mergeBody_flag, true_or, if_pos]
    · simp only [Int.toNat_ofNat, mergeBody_flag, or_true, if_pos]
    · simp only [mergeBody_pleft, if_pos, if_neg hne]
    · simp only [mergeBody_pright, if_pos, if_neg hne]
    · intro ha hb
      have ham : a ≠ L0.merged_node + 1 := fun h => ha (by rw [h])
      have hbm2 : b ≠ L0.merged_node + 1 := fun h => hb (by rw [h])
      simp only [mergeBody_den, mergeBody_ck, mergeBody_nk, if_pos, if_neg hne, if_neg ham,
        if_neg hbm2,
        (mergeBody_pairs_ne ext _ dim nfv alp (L0.merged_node + 1) a b L0.tr_node a b hbm2).1,
        (mergeBody_pairs_ne ext _ dim nfv alp (L0.merged_node + 1) a b L0.tr_node a b hbm2).2.1,
        and_self]
  · intro h
    rcases scan_spec obs (initState ext t dim obs cc alp nfv).tr_node
        { wt_temp := min_wt, node1 := (initState ext t dim obs cc alp nfv).node1,
          node2 := (initState ext t dim obs cc alp nfv).node2 }
      with ⟨es, _⟩ | ⟨a', b', hC, _, hlt, _⟩
    · exact es
    · exact absurd hlt (not_lt.2 (h a' b' hC))

set_option maxRecDepth 100000 in
/-- Witness for C19: three data points with count tables 1 over the integers, `alp = 1`
and threshold 0.  The first iteration merges `(0, 1)` at weight 1 into node 3; the remaining
pair `(2, 3)` has weight 0, so the second iteration selects nothing and node 4 repeats
node 3, with the same `den`, `ck` and `nk`. -/
theorem stale_selection_witness :
    runMerges demoExt (itemNodes 0 (fun _ => 1)) 1 3 0 1 0 1 (0 + 1) = some staleState ∧
    (∀ i j, Cand 3 staleState.tr_node i j → (staleState.tr_node i).wt j ≤ 0) ∧
    staleState.node1 ≠ (staleState.merged_node : Int) ∧
    staleState.node2 ≠ (staleState.merged_node : Int) ∧
    scan 3 staleState.tr_node
        { wt_temp := 0, node1 := staleState.node1, node2 := staleState.node2 } =
      { wt_temp := 0, node1 := staleState.node1, node2 := staleState.node2 } ∧
    ∃ L', runMerges demoExt (itemNodes 0 (fun _ => 1)) 1 3 0 1 0 1 (0 + 2) = some L' ∧
      L'.node1 = staleState.node1 ∧ L'.node2 = staleState.node2 ∧
      L'.merged_node = staleState.merged_node + 1 ∧
      (L'.tr_node staleState.merged_node).pleft = staleState.node1 ∧
      (L'.tr_node staleState.merged_node).pright = staleState.node2 ∧
      (staleState.tr_node staleState.node1.toNat).flag = 1 ∧
      (staleState.tr_node staleState.node2.toNat).flag = 1 ∧
      (L'.tr_node (staleState.merged_node + 1)).pleft =
        (L'.tr_node staleState.merged_node).pleft ∧
      (L'.tr_node (staleState.merged_node + 1)).pright =
        (L'.tr_node staleState.merged_node).pright ∧
      (L'.tr_node (staleState.merged_node + 1)).den =
        (L'.tr_node staleState.merged_node).den ∧
      (L'.tr_node (staleState.merged_node + 1)).ck =
        (L'.tr_node staleState.merged_node).ck ∧
      (L'.tr_node (staleState.merged_node + 1)).nk =
        (L'.tr_node staleState.merged_node).nk := by
  have hrun : runMerges demoExt (itemNodes 0 (fun _ => 1)) 1 3 0 1 0 1 (0 + 1) =
      some staleState := rfl
  have hnone : ∀ i j, Cand 3 staleState.tr_node i j → (staleState.tr_node i).wt j ≤ 0 := by
    intro i j hC
    obtain ⟨hij, hj, hi0, hj0⟩ := hC
    have hj6 : j < 6 := hj
    interval_cases j <;> interval_cases i <;>
      first
        | decide
        | exact absurd hi0 (by decide)
  have h1 : staleState.node1 ≠ (staleState.merged_node : Int) := by decide
  have h2 : staleState.node2 ≠ (staleState.merged_node : Int) := by decide
  obtain ⟨⟨hsc, ⟨L', hL', e1, e2, e3, e4, e5, e6, e7, e8, e9, himp⟩, _⟩, _⟩ :=
    stale_selection demoExt (itemNodes 0 (fun _ => 1)) 1 3 0 1 0 1 0 staleState hrun hnone
  exact ⟨hrun, hnone, h1, h2, hsc, L', hL', e1, e2, e3, e4, e5, e6, e7, e8, e9, himp h1 h2⟩

set_option maxRecDepth 100000 in
/-- C19 as stated fails when the node selected before is the node created before.  Three
data points with count tables 1 over the integers, `alp = 1`, threshold 50, every input
weight 0 except `wt[0][3] = 100`: the first iteration selects `(0, 3)` and creates node 3
from node 0 and the still empty slot 3 itself, with `nk = 1 + 0` and `ck = 2`.  No active
pair is above the threshold then, so the second iteration selects nothing and creates
node 4 with the same `pleft = 0` and `pright = 3`, but with `nk = 1 + 1 = 2` and
`ck = 4`, computed from the values node 3 has by now. -/
theorem stale_selection_counterexample :
    runMerges demoExt staleInput 1 3 0 1 50 1 1 = some staleInputState ∧
    (∀ i j, Cand 3 staleInputState.tr_node i j → (staleInputState.tr_node i).wt j ≤ 50) ∧
    ∃ L', runMerges demoExt staleInput 1 3 0 1 50 1 2 = some L' ∧
      L'.node1 = staleInputState.node1 ∧ L'.node2 = staleInputState.node2 ∧
      (L'.tr_node 3).pleft = 0 ∧ (L'.tr_node 3).pright = 3 ∧
      (L'.tr_node 4).pleft = 0 ∧ (L'.tr_node 4).pright = 3 ∧
      (L'.tr_node 3).nk = 1 ∧ (L'.tr_node 4).nk = 2 ∧
      (L'.tr_node 3).ck = 2 ∧ (L'.tr_node 4).ck = 4 ∧
      ¬ ((L'.tr_node 4).den = (L'.tr_node 3).den ∧ (L'.tr_node 4).ck = (L'.tr_node 3).ck ∧
        (L'.tr_node 4).nk = (L'.tr_node 3).nk) := by
  have hrun : runMerges demoExt staleInput 1 3 0 1 50 1 1 = some staleInputState := rfl
  have hnone : ∀ i j, Cand 3 staleInputState.tr_node i j →
      (staleInputState.tr_node i).wt j ≤ 50 := by
    intro i j hC
    obtain ⟨hij, hj, hi0, hj0⟩ := hC
    have hj6 : j < 6 := hj
    interval_cases j <;> interval_cases i <;>
      first
        | decide
        | exact absurd hi0 (by decide)
  refine ⟨hrun, hnone,
    { tr_node := mergeBody demoExt () 1 1 1 4 0 3 staleInputState.tr_node,
      node1 := 0, node2 := 3, merged_node := 4 }, rfl, rfl, rfl, ?_, ?_, ?_, ?_, ?_, ?_, ?_,
    ?_, ?_⟩
  · decide
  · decide
  · decide
  · decide
  · decide
  · decide
  · decide
  · decide
  · decide

/-! ## Indices the driver uses -/

/-- A loop on pairs whose body acts on the first component as `body` does. -/
theorem forLoop_fst {σ τ : Type} (body : Nat → σ → σ) (bodyL : Nat → σ × τ → σ × τ)
    (h : ∀ i x, (bodyL i x).1 = body i x.1) (lo n : Nat) (x : σ × τ) :
    (forLoop bodyL lo n x).1 = forLoop body lo n x.1 := by
  induction n generalizing lo x with
  | zero => rfl
  | succ n ih => rw [forLoop_succ, forLoop_succ, ih, h]

omit [LinearOrderedRing R] in
theorem inBounds_node {size k : Nat} (hk : k < size) :
    Access.inBounds size ⟨(k : Int), none⟩ :=
  ⟨⟨Int.natCast_nonneg k, Int.ofNat_lt.2 hk⟩, trivial⟩

omit [LinearOrderedRing R] in
theorem inBounds_entry {size k e : Nat} (hk : k < size) (he : e < size) :
    Access.inBounds size ⟨(k : Int), some (e : Int)⟩ :=
  ⟨⟨Int.natCast_nonneg k, Int.ofNat_lt.2 hk⟩, ⟨Int.natCast_nonneg e, Int.ofNat_lt.2 he⟩⟩

theorem scanInnerLog_fst (t : Nodes R) (i j : Nat) (s : Sel R × List Access) :
    (scanInnerLog t i j s).1 = scanInner t i j s.1 := by
  unfold scanInnerLog scanInner
  by_cases h1 : (t j).flag = 0
  · by_cases h2 : (t i).wt j > s.1.wt_temp
    · simp [h1, h2]
    · simp [h1, h2]
  · simp [h1]

theorem scanRowLog_fst (obs : Nat) (t : Nodes R) (i : Nat) (s : Sel R × List Access) :
    (scanRowLog obs t i s).1 = scanRow obs t i s.1 := by
  unfold scanRowLog scanRow
  by_cases h : (t i).flag = 0
  · simp only [h, if_true]
    exact forLoop_fst (scanInner t i) (scanInnerLog t i) (scanInnerLog_fst t i) _ _ _
  · simp [h]

/-- The recorded scan selects what the scan selects. -/
theorem scanLog_fst (obs : Nat) (t : Nodes R) (s : Sel R) :
    (scanLog obs t s).1 = scan obs t s :=
  forLoop_fst (scanRow obs t) (scanRowLog obs t) (scanRowLog_fst obs t) _ _ _

/-- Every index the scan uses is below `2 * obs`. -/
theorem scanLog_inBounds (obs : Nat) (t : Nodes R) (s : Sel R) :
    ∀ a ∈ (scanLog obs t s).2, Access.inBounds (2 * obs) a := by
  have hmain := forLoop_induct
    (fun _ (x : Sel R × List Access) => ∀ a ∈ x.2, Access.inBounds (2 * obs) a)
    (scanRowLog obs t) 0 (2 * obs) (s, [])
    (fun a ha => absurd ha (List.not_mem_nil a))
    (fun i x _ hi hx => by
      have hi2 : i < 2 * obs := by omega
      have h1 : ∀ a ∈ x.2 ++ [(⟨(i : Int), none⟩ : Access)], Access.inBounds (2 * obs) a := by
        intro a ha
        rcases List.mem_append.1 ha with h | h
        · exact hx a h
        · rw [List.mem_singleton.1 h]
          exact inBounds_node hi2
      unfold scanRowLog
      by_cases hf : (t i).flag = 0
      · simp only [hf, if_true]
        have hin := forLoop_induct
          (fun _ (y : Sel R × List Access) => ∀ a ∈ y.2, Access.inBounds (2 * obs) a)
          (scanInnerLog t i) (i + 1) (2 * obs - (i + 1))
          (x.1, x.2 ++ [(⟨(i : Int), none⟩ : Access)]) h1
          (fun j y _ hj hy => by
            have hj2 : j < 2 * obs := by omega
            have g1 : ∀ a ∈ y.2 ++ [(⟨(j : Int), none⟩ : Access)],
                Access.inBounds (2 * obs) a := by
              intro a ha
              rcases List.mem_append.1 ha with h | h
              · exact hy a h
              · rw [List.mem_singleton.1 h]
                exact inBounds_node hj2
            have g2 : ∀ a ∈ y.2 ++ [(⟨(j : Int), none⟩ : Access)] ++
                [(⟨(i : Int), some (j : Int)⟩ : Access)], Access.inBounds (2 * obs) a := by
              intro a ha
              rcases List.mem_append.1 ha with h | h
              · exact g1 a h
              · rw [List.mem_singleton.1 h]
                exact inBounds_entry hi2 hj2
            unfold scanInnerLog
            by_cases k1 : (t j).flag = 0
            · by_cases k2 : (t i).wt j > y.1.wt_temp
              · simp only [k1, k2, if_true]
                exact g2
              · simp only [k1, k2, if_true, if_false]
                exact g2
            · simp only [k1, if_false]
              exact g1)
        exact hin
      · simp only [hf, if_false]
        exact h1)
  exact hmain

/-- Line 118 reads the flag of slot `2 * obs - 1` in every scan. -/
theorem scanLog_last (obs : Nat) (hN : 1 ≤ obs) (t : Nodes R) (s : Sel R) :
    (⟨((2 * obs - 1 : Nat) : Int), none⟩ : Access) ∈ (scanLog obs t s).2 := by
  obtain ⟨n, hn⟩ : ∃ n, 2 * obs = n + 1 := ⟨2 * obs - 1, by omega⟩
  have e : 2 * obs - 1 = n := by omega
  have hz : 2 * obs - (n + 1) = 0 := by omega
  rw [e]
  have hl : scanLog obs t s = scanRowLog obs t n (forLoop (scanRowLog obs t) 0 n (s, [])) := by
    unfold scanLog
    rw [hn, forLoop_succ_last, Nat.zero_add]
  rw [hl]
  unfold scanRowLog
  by_cases hf : (t n).flag = 0
  · simp only [hf, if_true, hz, forLoop_zero]
    exact List.mem_append.2 (Or.inr (List.mem_singleton.2 rfl))
  · simp only [hf, if_false]
    exact List.mem_append.2 (Or.inr (List.mem_singleton.2 rfl))

omit [LinearOrderedRing R] in
theorem Access.inBounds_mono {size size' : Nat} (h : size ≤ size') {a : Access}
    (ha : Access.inBounds size a) : Access.inBounds size' a := by
  obtain ⟨⟨h1, h2⟩, h3⟩ := ha
  refine ⟨⟨h1, by omega⟩, ?_⟩
  cases he : a.entry with
  | none => trivial
  | some e =>
    rw [he] at h3
    exact ⟨h3.1, by have := h3.2; omega⟩

/-- What a loop that only appends to its log has recorded. -/
theorem mem_forLoop_append {α : Type} (f : Nat → List α) (lo n : Nat) (init : List α)
    (a : α) (ha : a ∈ forLoop (fun i (log : List α) => log ++ f i) lo n init) :
    a ∈ init ∨ ∃ i, lo ≤ i ∧ i < lo + n ∧ a ∈ f i := by
  have hmain := forLoop_induct
    (fun k (log : List α) => ∀ a ∈ log, a ∈ init ∨ ∃ i, lo ≤ i ∧ i < k ∧ a ∈ f i)
    (fun i (log : List α) => log ++ f i) lo n init
    (fun a ha => Or.inl ha)
    (fun i log hi _ hlog a ha => by
      rcases List.mem_append.1 ha with h | h
      · rcases hlog a h with h' | ⟨i', h1, h2, h3⟩
        · exact Or.inl h'
        · exact Or.inr ⟨i', h1, by omega, h3⟩
      · exact Or.inr ⟨i, hi, by omega, h⟩)
  exact hmain a ha

/-- Lines 65-107 use node and pair-table indices below `obs` only. -/
theorem initLog_inBounds (obs : Nat) : ∀ a ∈ initLog obs, Access.inBounds obs a := by
  intro a ha
  unfold initLog at ha
  rcases List.mem_append.1 ha with h | h
  · rcases mem_forLoop_append leafInitLog 0 obs [] a h with h' | ⟨i, _, hi, hmem⟩
    · exact absurd h' (List.not_mem_nil a)
    · have hi2 : i < obs := by omega
      simp only [leafInitLog, List.mem_cons, List.mem_singleton, List.not_mem_nil,
        or_false] at hmem
      rcases hmem with e | e | e | e | e <;> rw [e] <;>
        first | exact inBounds_node hi2 | exact inBounds_entry hi2 hi2
  · have hmain := forLoop_induct
      (fun _ (log : List Access) => ∀ a ∈ log, Access.inBounds obs a)
      (fun i => forLoop (fun j (log : List Access) => log ++ pairInitLog i j)
        (i + 1) (obs - (i + 1))) 0 obs []
      (fun a ha => absurd ha (List.not_mem_nil a))
      (fun i log _ hi hlog a ha => by
        have hi2 : i < obs := by omega
        rcases mem_forLoop_append (pairInitLog i) (i + 1) (obs - (i + 1)) log a ha
          with h' | ⟨j, _, hj, hmem⟩
        · exact hlog a h'
        · have hj2 : j < obs := by omega
          simp only [pairInitLog, List.mem_cons, List.mem_singleton, List.not_mem_nil,
            or_false] at hmem
          rcases hmem with e | e | e | e | e | e | e | e | e | e | e <;> rw [e] <;>
            first
              | exact inBounds_node hi2
              | exact inBounds_node hj2
              | exact inBounds_entry hi2 hj2
              | exact inBounds_entry hi2 hi2
              | exact inBounds_entry hj2 hj2)
    exact hmain a h

/-- Lines 151-164 use the node indices `0 .. m` and the pair-table index `m`. -/
theorem mergePartnersLog_inBounds (ext : Externals R H) (hp : H) (dim nfv : Nat) (alp : R)
    (m n1 n2 : Nat) (t : Nodes R) (size : Nat) (hm : m < size) :
    ∀ a ∈ mergePartnersLog ext hp dim nfv alp m n1 n2 t, Access.inBounds size a := by
  have hmain := forLoop_induct
    (fun _ (x : Nodes R × List Access) => ∀ a ∈ x.2, Access.inBounds size a)
    (fun k (s : Nodes R × List Access) =>
      (partner ext hp dim nfv alp m n1 n2 k s.1, s.2 ++ partnerLog m n1 n2 k s.1))
    0 m (t, [])
    (fun a ha => absurd ha (List.not_mem_nil a))
    (fun k x _ hk hx a ha => by
      have hk2 : k < size := by omega
      rcases List.mem_append.1 ha with h | h
      · exact hx a h
      · unfold partnerLog at h
        rcases List.mem_cons.1 h with e | h'
        · rw [e]; exact inBounds_node hk2
        · split_ifs at h'
          · simp only [List.mem_cons, List.mem_singleton, List.not_mem_nil, or_false] at h'
            rcases h' with e | e | e | e | e <;> rw [e] <;>
              first
                | exact inBounds_node hm
                | exact inBounds_node hk2
                | exact inBounds_entry hk2 hm
          · exact absurd h' (List.not_mem_nil a))
  exact hmain

/-- Lines 131-166 for selected nodes `a`, `b` and new node `m`, all below `size`. -/
theorem mergeBodyLog_inBounds (ext : Externals R H) (hp : H) (dim nfv : Nat) (alp : R)
    (m a b : Nat) (t : Nodes R) (size : Nat) (hm : m < size) (ha : a < size)
    (hb : b < size) :
    ∀ x ∈ mergeBodyLog ext hp dim nfv alp m a b t, Access.inBounds size x := by
  intro x hx
  unfold mergeBodyLog at hx
  rcases List.mem_append.1 hx with h | h
  · rcases List.mem_append.1 h with h | h
    · simp only [mergeNodeLog, List.mem_cons, List.mem_singleton, List.not_mem_nil,
        or_false] at h
      rcases h with e | e | e | e | e | e | e | e | e | e | e | e | e | e <;> rw [e] <;>
        first
          | exact inBounds_node hm
          | exact inBounds_node ha
          | exact inBounds_node hb
          | exact inBounds_entry hm hm
          | exact inBounds_entry ha hb
    · exact mergePartnersLog_inBounds ext hp dim nfv alp m _ _ _ size hm x h
  · simp only [List.mem_cons, List.mem_singleton, List.not_mem_nil, or_false] at h
    rcases h with e | e <;> rw [e] <;>
      first | exact inBounds_node ha | exact inBounds_node hb

/-- An iteration that goes through uses the pair its scan ends with. -/
theorem mergeStep_sel (ext : Externals R H) (hp : H) (dim obs nfv : Nat)
    (alp min_wt : R) (L L' : MergeState R)
    (h : mergeStep ext hp dim obs nfv alp min_wt L = some L') :
    (scan obs L.tr_node { wt_temp := min_wt, node1 := L.node1, node2 := L.node2 }).node1 =
      L'.node1 ∧
    (scan obs L.tr_node { wt_temp := min_wt, node1 := L.node1, node2 := L.node2 }).node2 =
      L'.node2 := by
  simp only [mergeStep] at h
  split_ifs at h
  rw [← Option.some.inj h]
  exact ⟨rfl, rfl⟩

/-- C18, amended.  For `obs >= 1` in the working start state, with a node array of
`2 * obs` slots (indices `0 .. 2*obs-1`) whose pair tables have `2 * obs` elements: the
initialisation, every iteration of the merging loop and the final read use only node
indices and pair-table indices in `0 .. 2*obs-1`.  Every iteration reads the flag of slot
`2*obs-1` (line 118), which is no slot of an array of `2*obs-1` nodes. -/
theorem index_bounds (ext : Externals R H) (t : Nodes R) (dim obs : Nat)
    (cc alp min_wt : R) (nfv : Nat) (hN : 1 ≤ obs) (hs : StartOK obs min_wt t)
    (hW : WeightsAbove ext t dim obs cc alp min_wt nfv) :
    (∀ a ∈ initLog obs, Access.inBounds (2 * obs) a) ∧
    (∀ n, n + 1 < obs → ∃ L, runMerges ext t dim obs cc alp min_wt nfv n = some L ∧
      (∀ a ∈ mergeStepLog ext (ext.CalculateHyperparameters t dim obs nfv cc) dim obs nfv
        alp min_wt L, Access.inBounds (2 * obs) a) ∧
      (⟨((2 * obs - 1 : Nat) : Int), none⟩ : Access) ∈
        mergeStepLog ext (ext.CalculateHyperparameters t dim obs nfv cc) dim obs nfv
          alp min_wt L ∧
      ¬ Access.inBounds (2 * obs - 1) ⟨((2 * obs - 1 : Nat) : Int), none⟩) ∧
    ∃ L, runMerges ext t dim obs cc alp min_wt nfv (obs - 1) = some L ∧
      ∀ a ∈ returnLog L, Access.inBounds (2 * obs) a := by
  refine ⟨fun a ha => Access.inBounds_mono (by omega) (initLog_inBounds obs a ha),
    fun n hn => ?_, ?_⟩
  · obtain ⟨L, hL, hI, hstep⟩ := runMerges_step ext t dim obs cc alp min_wt nfv hs hW n
      (by omega)
    obtain ⟨a, b, hab, hb, _, _, _, _, h7⟩ := hstep hn
    have hst : mergeStep ext (ext.CalculateHyperparameters t dim obs nfv cc) dim obs nfv alp
        min_wt L = some
        { tr_node := mergeBody ext (ext.CalculateHyperparameters t dim obs nfv cc) dim nfv
            alp (obs + n) a b L.tr_node,
          node1 := a, node2 := b, merged_node := obs + n } := by
      rw [runMerges_succ, hL, Option.some_bind] at h7
      exact h7
    obtain ⟨s1, s2⟩ := mergeStep_sel ext _ dim obs nfv alp min_wt L _ hst
    have hm : L.merged_node + 1 = obs + n := by rw [hI.merged]; omega
    have hlog : mergeStepLog ext (ext.CalculateHyperparameters t dim obs nfv cc) dim obs nfv
        alp min_wt L =
        (scanLog obs L.tr_node
          { wt_temp := min_wt, node1 := L.node1, node2 := L.node2 }).2 ++
        mergeBodyLog ext (ext.CalculateHyperparameters t dim obs nfv cc) dim nfv alp
          (obs + n) a b L.tr_node := by
      unfold mergeStepLog
      simp only [scanLog_fst, s1, s2, hm]
    refine ⟨L, hL, fun x hx => ?_, ?_, fun hc => ?_⟩
    · rw [hlog] at hx
      rcases List.mem_append.1 hx with h | h
      · exact scanLog_inBounds obs L.tr_node _ x h
      · exact mergeBodyLog_inBounds ext _ dim nfv alp (obs + n) a b L.tr_node (2 * obs)
          (by omega) (by omega) (by omega) x h
    · rw [hlog]
      exact List.mem_append.2 (Or.inl (scanLog_last obs hN L.tr_node _))
    · have := hc.1.2
      exact absurd (Int.ofNat_lt.1 this) (lt_irrefl _)
  · obtain ⟨L, hL, hI, _⟩ := runMerges_step ext t dim obs cc alp min_wt nfv hs hW (obs - 1)
      (by omega)
    refine ⟨L, hL, fun x hx => ?_⟩
    unfold returnLog at hx
    rw [List.mem_singleton.1 hx]
    exact inBounds_node (by rw [hI.merged]; omega)

/-- Witness for the amended C18: the run on two data points over the integers. -/
theorem index_bounds_witness :
    (∀ a ∈ initLog 2, Access.inBounds (2 * 2) a) ∧
    (∀ n, n + 1 < 2 → ∃ L, runMerges demoExt demoNodes 1 2 0 1 (-1000) 1 n = some L ∧
      (∀ a ∈ mergeStepLog demoExt (demoExt.CalculateHyperparameters demoNodes 1 2 1 0) 1 2 1
        1 (-1000) L, Access.inBounds (2 * 2) a) ∧
      (⟨((2 * 2 - 1 : Nat) : Int), none⟩ : Access) ∈
        mergeStepLog demoExt (demoExt.CalculateHyperparameters demoNodes 1 2 1 0) 1 2 1
          1 (-1000) L ∧
      ¬ Access.inBounds (2 * 2 - 1) ⟨((2 * 2 - 1 : Nat) : Int), none⟩) ∧
    ∃ L, runMerges demoExt demoNodes 1 2 0 1 (-1000) 1 (2 - 1) = some L ∧
      ∀ a ∈ returnLog L, Access.inBounds (2 * 2) a :=
  index_bounds demoExt demoNodes 1 2 0 1 (-1000) 1 (by decide) demo_start demo_weights

/-- C18, counterexample: two data points and a node array of `2*2-1 = 3` slots.  The first
iteration of the merging loop reads the flag of `tr_node[3]`, an index outside `0 .. 2`. -/
theorem index_bounds_counterexample :
    runMerges demoExt demoNodes 1 2 0 1 (-1000) 1 0 =
      some (initState demoExt demoNodes 1 2 0 1 1) ∧
    (⟨3, none⟩ : Access) ∈
      mergeStepLog demoExt () 1 2 1 1 (-1000) (initState demoExt demoNodes 1 2 0 1 1) ∧
    ¬ Access.inBounds (2 * 2 - 1) ⟨3, none⟩ := by
  refine ⟨rfl, ?_, fun hc => absurd hc.1.2 (by decide)⟩
  unfold mergeStepLog
  exact List.mem_append.2 (Or.inl (scanLog_last 2 (by decide) _ _))

end DriverLemmas

/-! ## Exact real arithmetic -/

section RealArithmetic

variable {H : Type}

/-- The stable form `max + log(1 + exp(min - max))` is `log(exp x + exp y)`. -/
theorem real_logSumExp (x y : ℝ) :
    max x y + Real.log (1 + Real.exp (min x y - max x y)) =
      Real.log (Real.exp x + Real.exp y) := by
  have key : ∀ a b : ℝ, b + Real.log (1 + Real.exp (a - b)) =
      Real.log (Real.exp a + Real.exp b) := by
    intro a b
    have h1 : (0 : ℝ) < 1 + Real.exp (a - b) := by positivity
    have h2 : Real.exp b * (1 + Real.exp (a - b)) = Real.exp a + Real.exp b := by
      rw [mul_add, mul_one, ← Real.exp_add]
      have : b + (a - b) = a := by ring
      rw [this]; ring
    rw [← h2, Real.log_mul (Real.exp_pos b).ne' h1.ne', Real.log_exp]
  rcases le_total x y with h | h
  · rw [max_eq_right h, min_eq_left h]
    exact key x y
  · rw [max_eq_left h, min_eq_right h, key y x, add_comm]

theorem logSumExp_real (ext : Externals ℝ H) (hlog : ext.log = Real.log)
    (hexp : ext.exp = Real.exp) (x y : ℝ) :
    logSumExp ext x y = Real.log (Real.exp x + Real.exp y) := by
  unfold logSumExp
  rw [hlog, hexp]
  exact real_logSumExp x y

theorem exp_logSumExp_real (ext : Externals ℝ H) (hlog : ext.log = Real.log)
    (hexp : ext.exp = Real.exp) (x y : ℝ) :
    Real.exp (logSumExp ext x y) = Real.exp x + Real.exp y := by
  rw [logSumExp_real ext hlog hexp, Real.exp_log (by positivity)]

end RealArithmetic

/-! ## The merge driver in exact real arithmetic -/

section RealDriver

variable {H : Type}

/-- C5 (recurrence for `den`).  In exact real arithmetic, with `fast_gammaln = log Gamma`,
`alp > 0`, the working start state, and a pair evidence that reads only the count tables
and `vec_no` of its nodes: after the run every internal node `m` with children
`l = pleft`, `r = pright` satisfies
`exp(den_m) = pi * exp(E) + (1 - pi) * exp(den_l) * exp(den_r)` with
`pi = alp * Gamma(nk_m) / exp(ck_m)` strictly between 0 and 1 and `E` the evidence of
the merged pair; `den_m = log(exp(num1[l][r]) + exp(num2[l][r]))`, where `num1[l][r]`
and `num2[l][r]` are the values computed from the final `nk`, `ck`, `den`. -/
theorem den_recurrence (ext : Externals ℝ H) (hlog : ext.log = Real.log)
    (hexp : ext.exp = Real.exp)
    (hgam : ext.fast_gammaln = fun x => Real.log (Real.Gamma x))
    (t : Nodes ℝ) (dim obs : Nat) (cc alp min_wt : ℝ) (nfv : Nat) (hN : 2 ≤ obs)
    (halp : 0 < alp) (hs : StartOK obs min_wt t)
    (hW : WeightsAbove ext t dim obs cc alp min_wt nfv) (hloc : EvidenceLocal ext) :
    ∃ v fin, bayeslink_binf ext t dim obs cc alp min_wt nfv = some (v, fin) ∧
      ∀ m, obs ≤ m → m ≤ 2 * obs - 2 →
        ∃ l r : Nat, (fin m).pleft = l ∧ (fin m).pright = r ∧
          0 < alp * Real.Gamma (fin m).nk / Real.exp (fin m).ck ∧
          alp * Real.Gamma (fin m).nk / Real.exp (fin m).ck < 1 ∧
          Real.exp (fin m).den =
            alp * Real.Gamma (fin m).nk / Real.exp (fin m).ck *
                Real.exp (ext.binevidence fin dim
                  (ext.CalculateHyperparameters t dim obs nfv cc)
                  (evArgs obs l r).1 ((evArgs obs l r).2 : Nat) nfv) +
              (1 - alp * Real.Gamma (fin m).nk / Real.exp (fin m).ck) *
                Real.exp (fin l).den * Real.exp (fin r).den ∧
          (fin m).den = Real.log (Real.exp ((fin l).num1 r) + Real.exp ((fin l).num2 r)) ∧
          (fin l).num1 r =
            Real.log alp + Real.log (Real.Gamma ((fin l).nk + (fin r).nk)) - (fin m).ck +
              ext.binevidence fin dim (ext.CalculateHyperparameters t dim obs nfv cc)
                (evArgs obs l r).1 ((evArgs obs l r).2 : Nat) nfv ∧
          (fin l).num2 r = (fin l).ck + (fin r).ck - (fin m).ck + (fin l).den + (fin r).den := by
  obtain ⟨L, hL, hI, hV⟩ := runMerges_values ext t dim obs cc alp min_wt nfv hs hW (obs - 1)
    (by omega)
  obtain ⟨L', hL', _, hret⟩ := run_final ext t dim obs cc alp min_wt nfv (by omega) hs hW
  have eL : L' = L := Option.some.inj (hL'.symm.trans hL)
  subst eL
  refine ⟨_, _, hret, fun m h1 h2 => ?_⟩
  obtain ⟨l, r, hl, hr, hlr, hrm⟩ := hI.kids m h1 (by omega)
  obtain ⟨⟨x, hxl, hxr, e1, e2, _⟩, g2, g3⟩ := hV.nodes m h1 (by omega)
  simp only [hl, hr, Int.toNat_ofNat] at hxl hxr e1 e2 g2 g3
  have hnk := hI.nk_add m h1 (by omega)
  simp only [hl, hr, Int.toNat_ofNat] at hnk
  -- the evidence on the final array
  have hE : ext.binevidence x dim (ext.CalculateHyperparameters t dim obs nfv cc)
      (evArgs obs l r).1 ((evArgs obs l r).2 : Nat) nfv =
      ext.binevidence L'.tr_node dim (ext.CalculateHyperparameters t dim obs nfv cc)
        (evArgs obs l r).1 ((evArgs obs l r).2 : Nat) nfv := by
    unfold evArgs
    split_ifs
    · exact hloc _ _ _ _ _ _ _ hxl.1 hxl.2 (fun _ => by rw [Int.toNat_ofNat]; exact hxr)
    · exact hloc _ _ _ _ _ _ _ hxr.1 hxr.2 (fun _ => by rw [Int.toNat_ofNat]; exact hxl)
  rw [hE] at e1
  -- positivity
  have hpos : 0 < (L'.tr_node m).nk := by
    have := hI.one_le_nk m (by omega)
    linarith
  have hG : 0 < Real.Gamma (L'.tr_node m).nk := Real.Gamma_pos_of_pos hpos
  have hA : 0 < alp * Real.Gamma (L'.tr_node m).nk := mul_pos halp hG
  -- the normaliser
  have hck : Real.exp (L'.tr_node m).ck =
      alp * Real.Gamma (L'.tr_node m).nk +
        Real.exp ((L'.tr_node l).ck + (L'.tr_node r).ck) := by
    rw [g3, exp_logSumExp_real ext hlog hexp, hlog, hgam, ← hnk, Real.exp_add,
      Real.exp_log halp, Real.exp_log hG]
  have hckpos : 0 < Real.exp (L'.tr_node m).ck := Real.exp_pos _
  have hB : 0 < Real.exp ((L'.tr_node l).ck + (L'.tr_node r).ck) := Real.exp_pos _
  have hckm : logSumExp ext
      (ext.log alp + ext.fast_gammaln ((L'.tr_node l).nk + (L'.tr_node r).nk))
      ((L'.tr_node l).ck + (L'.tr_node r).ck) = (L'.tr_node m).ck := g3.symm
  rw [hckm] at e1 e2
  rw [hlog, hgam] at e1
  have hden : Real.exp (L'.tr_node m).den =
      Real.exp ((L'.tr_node l).num1 r) + Real.exp ((L'.tr_node l).num2 r) := by
    rw [g2, exp_logSumExp_real ext hlog hexp]
  have hx1 : Real.exp ((L'.tr_node l).num1 r) =
      alp * Real.Gamma (L'.tr_node m).nk / Real.exp (L'.tr_node m).ck *
        Real.exp (ext.binevidence L'.tr_node dim
          (ext.CalculateHyperparameters t dim obs nfv cc)
          (evArgs obs l r).1 ((evArgs obs l r).2 : Nat) nfv) := by
    rw [e1, Real.exp_add, Real.exp_sub, Real.exp_add, Real.exp_log halp, ← hnk,
      Real.exp_log hG]
  have hx2 : Real.exp ((L'.tr_node l).num2 r) =
      (1 - alp * Real.Gamma (L'.tr_node m).nk / Real.exp (L'.tr_node m).ck) *
        Real.exp (L'.tr_node l).den * Real.exp (L'.tr_node r).den := by
    rw [e2, Real.exp_add, Real.exp_add, Real.exp_sub]
    have : Real.exp ((L'.tr_node l).ck + (L'.tr_node r).ck) / Real.exp (L'.tr_node m).ck =
        1 - alp * Real.Gamma (L'.tr_node m).nk / Real.exp (L'.tr_node m).ck := by
      rw [hck]; field_simp
    rw [this]
  refine ⟨l, r, hl, hr, div_pos hA hckpos, ?_, ?_, ?_, e1, e2⟩
  · rw [div_lt_one hckpos, hck]; linarith
  · rw [hden, hx1, hx2]
  · rw [g2, logSumExp_real ext hlog hexp]

/-- The weight of a filled-in entry, with the common term `ckt` cancelled. -/
theorem PairEntry.wt_eq {R : Type} [LinearOrderedRing R] {ext : Externals R H} {alp : R}
    {t : Nodes R} {k j : Nat} {e : R} (h : PairEntry ext alp t k j e) :
    (t k).wt j =
      ext.log alp + ext.fast_gammaln ((t k).nk + (t j).nk) + e - ((t k).ck + (t j).ck)
        - (t k).den - (t j).den := by
  obtain ⟨h1, h2, h3⟩ := h
  rw [h3, h1, h2]
  abel

theorem real_demo_start : StartOK 2 (-1 : ℝ) (fun _ => blankNode (-1) 0) :=
  { flags := fun _ _ => rfl
    unwritten := fun _ _ _ _ _ => le_refl _ }

theorem real_demo_weights :
    WeightsAbove
      (mkExt Real.log Real.exp (fun x => Real.log (Real.Gamma x)) (fun _ _ _ => 0))
      (fun _ => blankNode (-1) 0) 1 2 0 1 (-1) 1 := by
  intro n L hn hL k m hkm hm hk0 hm0
  have hn0 : n = 0 := by omega
  subst hn0
  rw [runMerges_zero] at hL
  have hL2 := (Option.some.inj hL).symm
  subst hL2
  have hV := initState_valueInv
    (mkExt Real.log Real.exp (fun x => Real.log (Real.Gamma x)) (fun _ _ _ => 0))
    (fun _ => blankNode (-1) 0) 1 2 0 1 1
  have hI := initState_inv
    (mkExt Real.log Real.exp (fun x => Real.log (Real.Gamma x)) (fun _ _ _ => 0))
    (fun _ => blankNode (-1) 0) 1 2 0 1 (-1) 1 real_demo_start
  obtain ⟨x, _, _, hE⟩ := hV.pairs k m hkm hm hk0 hm0
  have hk2 : k < 2 := by omega
  have hm2 : m < 2 := by omega
  rw [hE.wt_eq, hI.nk_leaf k hk2, hI.nk_leaf m hm2, (hV.leaves k hk2).1, (hV.leaves m hm2).1]
  have hdk := (initNodes_leaf
    (mkExt Real.log Real.exp (fun x => Real.log (Real.Gamma x)) (fun _ _ _ => 0))
    (fun _ => blankNode (-1) 0) 1 2 0 1 1 k hk2).2.2.1
  have hdm := (initNodes_leaf
    (mkExt Real.log Real.exp (fun x => Real.log (Real.Gamma x)) (fun _ _ _ => 0))
    (fun _ => blankNode (-1) 0) 1 2 0 1 1 m hm2).2.2.1
  show (-1 : ℝ) < _ + _ + _ - _ - (initNodes _ _ 1 2 0 1 1 k).den - (initNodes _ _ 1 2 0 1 1 m).den
  rw [hdk, hdm]
  simp only [mkExt, Real.log_one, one_add_one_eq_two, Real.Gamma_two]
  norm_num

theorem real_demo_local :
    EvidenceLocal
      (mkExt Real.log Real.exp (fun x => Real.log (Real.Gamma x)) (fun _ _ _ => 0)) :=
  fun _ _ _ _ _ _ _ _ _ _ => rfl

/-- Witness for C5: the run on two data points in real arithmetic with `alp = 1`, constant
evidence 0 and threshold `-1`. -/
theorem den_recurrence_witness :
    ∃ v fin, bayeslink_binf
        (mkExt Real.log Real.exp (fun x => Real.log (Real.Gamma x)) (fun _ _ _ => 0))
        (fun _ => blankNode (-1) 0) 1 2 0 1 (-1) 1 = some (v, fin) ∧
      ∀ m, 2 ≤ m → m ≤ 2 * 2 - 2 →
        ∃ l r : Nat, (fin m).pleft = l ∧ (fin m).pright = r ∧
          0 < 1 * Real.Gamma (fin m).nk / Real.exp (fin m).ck ∧
          1 * Real.Gamma (fin m).nk / Real.exp (fin m).ck < 1 ∧
          Real.exp (fin m).den =
            1 * Real.Gamma (fin m).nk / Real.exp (fin m).ck *
                Real.exp ((mkExt Real.log Real.exp (fun x => Real.log (Real.Gamma x))
                  (fun _ _ _ => 0)).binevidence fin 1
                  ((mkExt Real.log Real.exp (fun x => Real.log (Real.Gamma x))
                    (fun _ _ _ => 0)).CalculateHyperparameters
                      (fun _ => blankNode (-1) 0) 1 2 1 0)
                  (evArgs 2 l r).1 ((evArgs 2 l r).2 : Nat) 1) +
              (1 - 1 * Real.Gamma (fin m).nk / Real.exp (fin m).ck) *
                Real.exp (fin l).den * Real.exp (fin r).den ∧
          (fin m).den = Real.log (Real.exp ((fin l).num1 r) + Real.exp ((fin l).num2 r)) ∧
          (fin l).num1 r =
            Real.log 1 + Real.log (Real.Gamma ((fin l).nk + (fin r).nk)) - (fin m).ck +
              (mkExt Real.log Real.exp (fun x => Real.log (Real.Gamma x))
                (fun _ _ _ => 0)).binevidence fin 1
                ((mkExt Real.log Real.exp (fun x => Real.log (Real.Gamma x))
                  (fun _ _ _ => 0)).CalculateHyperparameters
                    (fun _ => blankNode (-1) 0) 1 2 1 0)
                (evArgs 2 l r).1 ((evArgs 2 l r).2 : Nat) 1 ∧
          (fin l).num2 r = (fin l).ck + (fin r).ck - (fin m).ck + (fin l).den + (fin r).den :=
  den_recurrence
    (mkExt Real.log Real.exp (fun x => Real.log (Real.Gamma x)) (fun _ _ _ => 0))
    rfl rfl rfl (fun _ => blankNode (-1) 0) 1 2 0 1 (-1) 1 (le_refl 2) one_pos
    real_demo_start real_demo_weights real_demo_local

/-! ## The normaliser `ck` and the pair tables -/

/-- C11 (recurrence for `ck`).  In exact real arithmetic, with `fast_gammaln = log Gamma`,
`alp > 0` and the working start state: after the run every leaf has `exp(ck) = alp`, and
every internal node `m` with children `l = pleft`, `r = pright` has
`exp(ck_m) = alp * Gamma(nk_m) + exp(ck_l) * exp(ck_r)`; `ck_m` is the value
`ckt = logsumexp(tr1, tr2)` of lines 84-88 and 153-157 for the pair `(l, r)`, and it is
the `ckt` inside the stored entry `num2[l][r] = tr2 - ckt + den_l + den_r`. -/
theorem ck_recurrence (ext : Externals ℝ H) (hlog : ext.log = Real.log)
    (hexp : ext.exp = Real.exp)
    (hgam : ext.fast_gammaln = fun x => Real.log (Real.Gamma x))
    (t : Nodes ℝ) (dim obs : Nat) (cc alp min_wt : ℝ) (nfv : Nat) (hN : 1 ≤ obs)
    (halp : 0 < alp) (hs : StartOK obs min_wt t)
    (hW : WeightsAbove ext t dim obs cc alp min_wt nfv) :
    ∃ v fin, bayeslink_binf ext t dim obs cc alp min_wt nfv = some (v, fin) ∧
      (∀ k, k < obs → Real.exp (fin k).ck = alp) ∧
      ∀ m, obs ≤ m → m ≤ 2 * obs - 2 →
        ∃ l r : Nat, (fin m).pleft = l ∧ (fin m).pright = r ∧
          Real.exp (fin m).ck =
            alp * Real.Gamma (fin m).nk + Real.exp (fin l).ck * Real.exp (fin r).ck ∧
          (fin m).ck =
            logSumExp ext (ext.log alp + ext.fast_gammaln ((fin l).nk + (fin r).nk))
              ((fin l).ck + (fin r).ck) ∧
          (fin l).num2 r = (fin l).ck + (fin r).ck - (fin m).ck + (fin l).den + (fin r).den := by
  obtain ⟨L, hL, hI, hV⟩ := runMerges_values ext t dim obs cc alp min_wt nfv hs hW (obs - 1)
    (by omega)
  obtain ⟨L', hL', _, hret⟩ := run_final ext t dim obs cc alp min_wt nfv hN hs hW
  have eL : L' = L := Option.some.inj (hL'.symm.trans hL)
  subst eL
  refine ⟨_, _, hret, fun k hk => ?_, fun m h1 h2 => ?_⟩
  · rw [(hV.leaves k hk).1, hlog, Real.exp_log halp]
  obtain ⟨l, r, hl, hr, hlr, hrm⟩ := hI.kids m h1 (by omega)
  obtain ⟨⟨x, _, _, _, e2, _⟩, _, g3⟩ := hV.nodes m h1 (by omega)
  simp only [hl, hr, Int.toNat_ofNat] at e2 g3
  have hnk := hI.nk_add m h1 (by omega)
  simp only [hl, hr, Int.toNat_ofNat] at hnk
  have hpos : 0 < (L'.tr_node m).nk := by
    have := hI.one_le_nk m (by omega)
    linarith
  have hG : 0 < Real.Gamma (L'.tr_node m).nk := Real.Gamma_pos_of_pos hpos
  rw [← g3] at e2
  refine ⟨l, r, hl, hr, ?_, g3, e2⟩
  rw [g3, exp_logSumExp_real ext hlog hexp, hlog, hgam, ← hnk, Real.exp_add,
    Real.exp_log halp, Real.exp_log hG, Real.exp_add]

/-- Witness for C11: the run on two data points in real arithmetic with `alp = 1`,
constant evidence 0 and threshold `-1`. -/
theorem ck_recurrence_witness :
    ∃ v fin, bayeslink_binf
        (mkExt Real.log Real.exp (fun x => Real.log (Real.Gamma x)) (fun _ _ _ => 0))
        (fun _ => blankNode (-1) 0) 1 2 0 1 (-1) 1 = some (v, fin) ∧
      (∀ k, k < 2 → Real.exp (fin k).ck = 1) ∧
      ∀ m, 2 ≤ m → m ≤ 2 * 2 - 2 →
        ∃ l r : Nat, (fin m).pleft = l ∧ (fin m).pright = r ∧
          Real.exp (fin m).ck =
            1 * Real.Gamma (fin m).nk + Real.exp (fin l).ck * Real.exp (fin r).ck ∧
          (fin m).ck =
            logSumExp
              (mkExt Real.log Real.exp (fun x => Real.log (Real.Gamma x)) (fun _ _ _ => 0))
              (Real.log 1 + Real.log (Real.Gamma ((fin l).nk + (fin r).nk)))
              ((fin l).ck + (fin r).ck) ∧
          (fin l).num2 r = (fin l).ck + (fin r).ck - (fin m).ck + (fin l).den + (fin r).den :=
  ck_recurrence
    (mkExt Real.log Real.exp (fun x => Real.log (Real.Gamma x)) (fun _ _ _ => 0))
    rfl rfl rfl (fun _ => blankNode (-1) 0) 1 2 0 1 (-1) 1 (by decide) one_pos
    real_demo_start real_demo_weights

end RealDriver

/-! ## Robust time-course evidence -/

section TimeCourseLemmas

variable {M : Type}

/-- The mixture component is the fitted value when that lies strictly between 0 and 1,
and 1 otherwise. -/
theorem mixtureFit_range {R : Type} [LinearOrderedField R] (ext : TCExternals R M)
    (nCurrentItems nTimePoints : Nat) (lft lst : R) :
    0 < mixtureFit ext nCurrentItems nTimePoints lft lst ∧
      mixtureFit ext nCurrentItems nTimePoints lft lst ≤ 1 := by
  unfold mixtureFit
  simp only
  split_ifs with h
  · exact ⟨h.1, le_of_lt h.2⟩
  · exact ⟨zero_lt_one, le_refl 1⟩

/-- With `C2 <= C1` the fitted value is not positive, so the component is clipped. -/
theorem mixtureFit_clip (ext : TCExternals ℝ M) (hexp : ext.exp = Real.exp)
    (nCurrentItems nTimePoints : Nat) (lft lst : ℝ)
    (h : Real.exp lst ≤ Real.exp lft) :
    mixtureFit ext nCurrentItems nTimePoints lft lst = 1 := by
  unfold mixtureFit
  simp only [hexp]
  apply if_neg
  rintro ⟨hpos, _⟩
  have hC2 : 0 < Real.exp lst := Real.exp_pos _
  have hbot : (nCurrentItems : ℝ) * (nTimePoints : ℝ) * (Real.exp lst - Real.exp lft) ≤ 0 :=
    mul_nonpos_of_nonneg_of_nonpos (by positivity) (by linarith)
  by_cases hn : nCurrentItems * nTimePoints = 0
  · have h0 : (nCurrentItems : ℝ) * (nTimePoints : ℝ) = 0 := by exact_mod_cast hn
    rw [h0, zero_mul, div_zero] at hpos
    exact lt_irrefl _ hpos
  · have h1 : (0 : ℝ) ≤ (((nCurrentItems * nTimePoints : Nat) : Int) - 1 : Int) := by
      have : (0 : Int) ≤ ((nCurrentItems * nTimePoints : Nat) : Int) - 1 := by omega
      exact_mod_cast this
    have := div_nonpos_of_nonneg_of_nonpos (mul_nonneg h1 hC2.le) hbot
    linarith

/-- C8 (mixture clipping).  In exact real arithmetic, for every input of
`ComputeRobustLogEvidence` the mixture component it stores satisfies `0 < a <= 1`; and
whenever `C2 = exp(L_miss) <= C1 = exp(L_full)` the component is exactly 1 and the value
returned is `L_full`, the log-evidence of the full covariance. -/
theorem mixture_clipping (ext : TCExternals ℝ M) (hlog : ext.log = Real.log)
    (hexp : ext.exp = Real.exp) (ds : TimecourseDataSet ℝ) (yValues : List ℝ)
    (nCurrentItems : Nat) (lengthScale noiseFreeScale noiseSigma : ℝ) :
    0 < (ComputeRobustLogEvidence ext ds yValues nCurrentItems lengthScale noiseFreeScale
      noiseSigma).2 ∧
    (ComputeRobustLogEvidence ext ds yValues nCurrentItems lengthScale noiseFreeScale
      noiseSigma).2 ≤ 1 ∧
    (Real.exp (missingLogEvidence ext ds yValues nCurrentItems lengthScale noiseFreeScale
        noiseSigma) ≤
      Real.exp (fullLogEvidence ext ds yValues lengthScale noiseFreeScale noiseSigma) →
      (ComputeRobustLogEvidence ext ds yValues nCurrentItems lengthScale noiseFreeScale
        noiseSigma).2 = 1 ∧
      (ComputeRobustLogEvidence ext ds yValues nCurrentItems lengthScale noiseFreeScale
        noiseSigma).1 = fullLogEvidence ext ds yValues lengthScale noiseFreeScale noiseSigma) := by
  refine ⟨(mixtureFit_range ext _ _ _ _).1, (mixtureFit_range ext _ _ _ _).2, fun h => ?_⟩
  have hm := mixtureFit_clip ext hexp nCurrentItems ds.nTimePoints _ _ h
  refine ⟨hm, ?_⟩
  show overallLogEvidence ext nCurrentItems ds.nTimePoints _ _ (mixtureFit ext _ _ _ _) = _
  rw [hm]
  unfold overallLogEvidence
  rw [if_neg (fun hc => lt_irrefl _ hc.2), hlog, Real.log_one, mul_zero, zero_add]

/-- Witness for C8: one item, one time point, all evidences 0, so that `C2 = C1 = 1`. -/
theorem mixture_clipping_witness :
    0 < (ComputeRobustLogEvidence (mkTCExt Real.log Real.exp) (demoDataSet 0) [0] 1 1 1 1).2 ∧
    (ComputeRobustLogEvidence (mkTCExt Real.log Real.exp) (demoDataSet 0) [0] 1 1 1 1).2 ≤ 1 ∧
    (Real.exp (missingLogEvidence (mkTCExt Real.log Real.exp) (demoDataSet 0) [0] 1 1 1 1) ≤
      Real.exp (fullLogEvidence (mkTCExt Real.log Real.exp) (demoDataSet 0) [0] 1 1 1) →
      (ComputeRobustLogEvidence (mkTCExt Real.log Real.exp) (demoDataSet 0) [0] 1 1 1 1).2 = 1 ∧
      (ComputeRobustLogEvidence (mkTCExt Real.log Real.exp) (demoDataSet 0) [0] 1 1 1 1).1 =
        fullLogEvidence (mkTCExt Real.log Real.exp) (demoDataSet 0) [0] 1 1 1) :=
  mixture_clipping (mkTCExt Real.log Real.exp) rfl rfl (demoDataSet 0) [0] 1 1 1 1

/-- The form `log(exp(x - x) + exp(y - x)) + x` of line 191 is `log(exp x + exp y)`. -/
theorem real_logSumExp_shift (x y : ℝ) :
    Real.log (Real.exp (x - x) + Real.exp (y - x)) + x =
      Real.log (Real.exp x + Real.exp y) := by
  have h1 : (0 : ℝ) < Real.exp (x - x) + Real.exp (y - x) := by positivity
  have h2 : (Real.exp (x - x) + Real.exp (y - x)) * Real.exp x = Real.exp x + Real.exp y := by
    rw [add_mul, ← Real.exp_add, ← Real.exp_add]
    congr 2 <;> ring
  rw [← h2, Real.log_mul h1.ne' (Real.exp_pos x).ne', Real.log_exp]

theorem exp_nat_mul_log (n : Nat) {a : ℝ} (ha : 0 < a) :
    Real.exp ((n : ℝ) * Real.log a) = a ^ n := by
  rw [Real.exp_nat_mul, Real.exp_log ha]

theorem exp_int_mul_log (z : Int) {a : ℝ} (ha : 0 < a) :
    Real.exp ((z : ℝ) * Real.log a) = a ^ z := by
  rw [mul_comm, ← Real.rpow_def_of_pos ha, Real.rpow_intCast]

/-- C9 (overall robust evidence).  In exact real arithmetic, with `n = MT`, `L_full` and
`L_miss` the two terms and `a = atop / abot` the fitted weight: when `0 < a < 1` the
method stores `a` as mixture component and returns
`log(a^n * exp(L_full) + a^(n-1) * (1-a) * exp(L_miss))`, which is
`log(exp(n*log a + L_full) + exp((n-1)*log a + log(1-a) + L_miss))`; otherwise it stores
1 and returns `n*log(a') + L_full` for the stored component `a' = 1`. -/
theorem overall_evidence (ext : TCExternals ℝ M) (hlog : ext.log = Real.log)
    (hexp : ext.exp = Real.exp) (ds : TimecourseDataSet ℝ) (yValues : List ℝ)
    (nCurrentItems : Nat) (lengthScale noiseFreeScale noiseSigma : ℝ) (lft lst a : ℝ)
    (hlft : lft = fullLogEvidence ext ds yValues lengthScale noiseFreeScale noiseSigma)
    (hlst : lst = missingLogEvidence ext ds yValues nCurrentItems lengthScale noiseFreeScale
      noiseSigma)
    (ha : a = ((((nCurrentItems * ds.nTimePoints : Nat) : Int) - 1 : Int) : ℝ) * Real.exp lst /
      ((nCurrentItems : ℝ) * (ds.nTimePoints : ℝ) * (Real.exp lst - Real.exp lft))) :
    (0 < a ∧ a < 1 →
      (ComputeRobustLogEvidence ext ds yValues nCurrentItems lengthScale noiseFreeScale
        noiseSigma).2 = a ∧
      (ComputeRobustLogEvidence ext ds yValues nCurrentItems lengthScale noiseFreeScale
        noiseSigma).1 =
        Real.log (a ^ (nCurrentItems * ds.nTimePoints) * Real.exp lft +
          a ^ (((nCurrentItems * ds.nTimePoints : Nat) : Int) - 1) * (1 - a) * Real.exp lst) ∧
      (ComputeRobustLogEvidence ext ds yValues nCurrentItems lengthScale noiseFreeScale
        noiseSigma).1 =
        Real.log
          (Real.exp (((nCurrentItems * ds.nTimePoints : Nat) : ℝ) * Real.log a + lft) +
           Real.exp (((((nCurrentItems * ds.nTimePoints : Nat) : Int) - 1 : Int) : ℝ) *
              Real.log a + Real.log (1 - a) + lst))) ∧
    (¬ (0 < a ∧ a < 1) →
      (ComputeRobustLogEvidence ext ds yValues nCurrentItems lengthScale noiseFreeScale
        noiseSigma).2 = 1 ∧
      (ComputeRobustLogEvidence ext ds yValues nCurrentItems lengthScale noiseFreeScale
        noiseSigma).1 =
        ((nCurrentItems * ds.nTimePoints : Nat) : ℝ) *
          Real.log (ComputeRobustLogEvidence ext ds yValues nCurrentItems lengthScale
            noiseFreeScale noiseSigma).2 + lft) := by
  have hfit : mixtureFit ext nCurrentItems ds.nTimePoints lft lst =
      if 0 < a ∧ a < 1 then a else 1 := by
    unfold mixtureFit
    simp only [hexp]
    rw [← ha]
  have hmc : (ComputeRobustLogEvidence ext ds yValues nCurrentItems lengthScale noiseFreeScale
      noiseSigma).2 = if 0 < a ∧ a < 1 then a else 1 := by
    rw [← hfit, hlft, hlst]; rfl
  have hev : (ComputeRobustLogEvidence ext ds yValues nCurrentItems lengthScale noiseFreeScale
      noiseSigma).1 = overallLogEvidence ext nCurrentItems ds.nTimePoints lft lst
        (if 0 < a ∧ a < 1 then a else 1) := by
    rw [← hfit, hlft, hlst]; rfl
  constructor
  · intro h
    have hsum : overallLogEvidence ext nCurrentItems ds.nTimePoints lft lst a =
        Real.log
          (Real.exp (((nCurrentItems * ds.nTimePoints : Nat) : ℝ) * Real.log a + lft) +
           Real.exp (((((nCurrentItems * ds.nTimePoints : Nat) : Int) - 1 : Int) : ℝ) *
              Real.log a + Real.log (1 - a) + lst)) := by
      unfold overallLogEvidence
      rw [if_pos h]
      simp only [hlog, hexp]
      exact real_logSumExp_shift _ _
    rw [hmc, hev, if_pos h]
    refine ⟨rfl, ?_, hsum⟩
    rw [hsum, Real.exp_add, Real.exp_add, Real.exp_add, exp_nat_mul_log _ h.1,
      exp_int_mul_log _ h.1, Real.exp_log (by linarith [h.2])]
  · intro h
    rw [hmc, hev, if_neg h]
    refine ⟨rfl, ?_⟩
    unfold overallLogEvidence
    rw [if_neg (fun hc => lt_irrefl _ hc.2), hlog]

/-- On `outlierDataSet` with every evidence 0: `lft = 0` and `lst = log 2 + log 4`. -/
theorem outlierDataSet_terms :
    fullLogEvidence (mkTCExt Real.log Real.exp) (outlierDataSet : TimecourseDataSet ℝ)
      [0, 0] 1 1 1 = 0 ∧
    missingLogEvidence (mkTCExt Real.log Real.exp) (outlierDataSet : TimecourseDataSet ℝ)
      [0, 0] 1 1 1 1 = Real.log 8 := by
  refine ⟨rfl, ?_⟩
  have h8 : Real.log 8 = Real.log 2 + Real.log 4 := by
    rw [← Real.log_mul (by norm_num) (by norm_num)]; norm_num
  rw [h8]
  simp [missingLogEvidence, partLogEvidence, mkTCExt, outlierDataSet, forLoop]
  norm_num

/-- Witness for C9: one item with two time points, every evidence 0 and range 1/4, so that
`L_full = 0`, `L_miss = log 8` and the fitted weight is `a = 4/7`; the mixture branch is
taken. -/
theorem overall_evidence_witness :
    (0 : ℝ) = fullLogEvidence (mkTCExt Real.log Real.exp) outlierDataSet [0, 0] 1 1 1 ∧
    Real.log 8 = missingLogEvidence (mkTCExt Real.log Real.exp) outlierDataSet [0, 0] 1 1 1 1 ∧
    (4 / 7 : ℝ) =
      ((((1 * (outlierDataSet : TimecourseDataSet ℝ).nTimePoints : Nat) : Int) - 1 : Int) : ℝ) *
        Real.exp (Real.log 8) /
      (((1 : Nat) : ℝ) * ((outlierDataSet : TimecourseDataSet ℝ).nTimePoints : ℝ) *
        (Real.exp (Real.log 8) - Real.exp 0)) ∧
    ((0 : ℝ) < 4 / 7 ∧ (4 / 7 : ℝ) < 1) ∧
    (ComputeRobustLogEvidence (mkTCExt Real.log Real.exp) outlierDataSet [0, 0] 1 1 1 1).2 =
      4 / 7 ∧
    (ComputeRobustLogEvidence (mkTCExt Real.log Real.exp) outlierDataSet [0, 0] 1 1 1 1).1 =
      Real.log ((4 / 7 : ℝ) ^ (1 * (outlierDataSet : TimecourseDataSet ℝ).nTimePoints) *
          Real.exp 0 +
        (4 / 7 : ℝ) ^
            (((1 * (outlierDataSet : TimecourseDataSet ℝ).nTimePoints : Nat) : Int) - 1) *
          (1 - 4 / 7) * Real.exp (Real.log 8)) ∧
    (ComputeRobustLogEvidence (mkTCExt Real.log Real.exp) outlierDataSet [0, 0] 1 1 1 1).1 =
      Real.log
        (Real.exp (((1 * (outlierDataSet : TimecourseDataSet ℝ).nTimePoints : Nat) : ℝ) *
            Real.log (4 / 7) + 0) +
          Real.exp (((((1 * (outlierDataSet : TimecourseDataSet ℝ).nTimePoints : Nat) : Int)
            - 1 : Int) : ℝ) * Real.log (4 / 7) + Real.log (1 - 4 / 7) + Real.log 8)) := by
  have e8 : Real.exp (Real.log 8) = 8 := Real.exp_log (by norm_num)
  have hlft := outlierDataSet_terms.1.symm
  have hlst := outlierDataSet_terms.2.symm
  have ha : (4 / 7 : ℝ) =
      ((((1 * (outlierDataSet : TimecourseDataSet ℝ).nTimePoints : Nat) : Int) - 1 : Int) : ℝ) *
        Real.exp (Real.log 8) /
      (((1 : Nat) : ℝ) * ((outlierDataSet : TimecourseDataSet ℝ).nTimePoints : ℝ) *
        (Real.exp (Real.log 8) - Real.exp 0)) := by
    rw [e8, Real.exp_zero]
    simp only [outlierDataSet]
    norm_num
  have hin : (0 : ℝ) < 4 / 7 ∧ (4 / 7 : ℝ) < 1 := by constructor <;> norm_num
  have h := overall_evidence (mkTCExt Real.log Real.exp) rfl rfl outlierDataSet [0, 0] 1
    1 1 1 0 (Real.log 8) (4 / 7) hlft hlst ha
  exact ⟨hlft, hlst, ha, hin, h.1 hin⟩

/-- C10, as the code has it.  When `noise_mode` is neither 0 nor 2 (so for mode 1),
`SingleClusterLogEvidence` reports no error: it returns minus infinity, the initial value
of `logEvidence`, and leaves the three hyperparameters and the mixture component as they
were passed in. -/
theorem unsupported_mode_returns_bot {R : Type} [LinearOrderedField R]
    (ext : TCExternals R M) (ds : TimecourseDataSet R) (itemIndex : List Nat)
    (lengthScale noiseFreeScale noiseSigma mixtureComponent : R)
    (h0 : ds.noise_mode ≠ 0) (h2 : ds.noise_mode ≠ 2) :
    SingleClusterLogEvidence ext ds itemIndex lengthScale noiseFreeScale noiseSigma
        mixtureComponent =
      ClusterOutcome.returned ⊥ lengthScale noiseFreeScale noiseSigma mixtureComponent := by
  unfold SingleClusterLogEvidence
  simp only [if_neg h0, if_neg h2]

/-- Witness for the amended C10: one item, one time point, noise mode 1, over the
rationals. -/
theorem unsupported_mode_returns_bot_witness :
    SingleClusterLogEvidence (mkTCExt (fun x : ℚ => x) (fun x => x)) (demoDataSet 1) [0]
        1 2 3 4 =
      ClusterOutcome.returned ⊥ 1 2 3 4 :=
  unsupported_mode_returns_bot (mkTCExt (fun x : ℚ => x) (fun x => x)) (demoDataSet 1) [0]
    1 2 3 4 (by decide) (by decide)

/-- Counterexample to C10 as stated: with `noise_mode = 1` the method does not report
`Unsupported`; the caller receives a log-evidence value, minus infinity. -/
theorem unsupported_mode_counterexample :
    SingleClusterLogEvidence (mkTCExt (fun x : ℚ => x) (fun x => x)) (demoDataSet 1) [0]
        1 1 1 1 ≠ ClusterOutcome.failed EngineError.Unsupported ∧
    ∃ v : WithBot ℚ, ∃ a b c d : ℚ,
      SingleClusterLogEvidence (mkTCExt (fun x : ℚ => x) (fun x => x)) (demoDataSet 1) [0]
        1 1 1 1 = ClusterOutcome.returned v a b c d ∧ v = ⊥ := by
  have e : SingleClusterLogEvidence (mkTCExt (fun x : ℚ => x) (fun x => x)) (demoDataSet 1)
      [0] 1 1 1 1 = ClusterOutcome.returned ⊥ 1 1 1 1 := by
    simp [SingleClusterLogEvidence, demoDataSet]
  rw [e]
  exact ⟨fun h => ClusterOutcome.noConfusion h, ⊥, 1, 1, 1, 1, rfl, rfl⟩

/-! ## Extraction and time-major order -/

/-- Lines 55-62: after the extraction loops, value `j` of item `i` of the cluster sits at
position `i * nTimePoints + j`. -/
theorem extractData_spec {R : Type} [LinearOrderedField R] (ds : TimecourseDataSet R)
    (itemIndex : List Nat) :
    (extractData ds itemIndex).length = itemIndex.length * ds.nTimePoints ∧
    ∀ i j, i < itemIndex.length → j < ds.nTimePoints →
      (extractData ds itemIndex)[i * ds.nTimePoints + j]? =
        some ((ds.data.getD (itemIndex.getD i 0) []).getD j 0) := by
  have hmain := forLoop_induct
    (fun i (acc : List R) => acc.length = i * ds.nTimePoints ∧
      ∀ i' j, i' < i → j < ds.nTimePoints →
        acc[i' * ds.nTimePoints + j]? =
          some ((ds.data.getD (itemIndex.getD i' 0) []).getD j 0))
    (fun i => forLoop (fun j (extractedData : List R) =>
      extractedData ++ [(ds.data.getD (itemIndex.getD i 0) []).getD j 0]) 0 ds.nTimePoints)
    0 itemIndex.length []
    ⟨by simp, fun i' j h _ => absurd h (Nat.not_lt_zero _)⟩
    (fun i acc _ _ hacc => by
      have hin := forLoop_induct
        (fun j (x : List R) => x.length = i * ds.nTimePoints + j ∧
          (∀ i' j', i' < i → j' < ds.nTimePoints →
            x[i' * ds.nTimePoints + j']? =
              some ((ds.data.getD (itemIndex.getD i' 0) []).getD j' 0)) ∧
          ∀ j', j' < j →
            x[i * ds.nTimePoints + j']? =
              some ((ds.data.getD (itemIndex.getD i 0) []).getD j' 0))
        (fun j (extractedData : List R) =>
          extractedData ++ [(ds.data.getD (itemIndex.getD i 0) []).getD j 0])
        0 ds.nTimePoints acc
        ⟨by simpa using hacc.1, hacc.2, fun j' h => absurd h (Nat.not_lt_zero _)⟩
        (fun j x _ _ hx => by
          obtain ⟨hlen, hrows, hcols⟩ := hx
          refine ⟨by simp [hlen]; omega, fun i' j' hi' hj' => ?_, fun j' hj' => ?_⟩
          · have hlt : i' * ds.nTimePoints + j' < x.length := by
              have := Nat.mul_le_mul_right ds.nTimePoints (Nat.succ_le_of_lt hi')
              rw [Nat.succ_mul] at this
              omega
            show (x ++ _)[i' * ds.nTimePoints + j']? = _
            rw [List.getElem?_append_left hlt]
            exact hrows i' j' hi' hj'
          · show (x ++ _)[i * ds.nTimePoints + j']? = _
            by_cases hj : j' = j
            · rw [hj, ← hlen, List.getElem?_concat_length]
            · rw [List.getElem?_append_left (by omega)]
              exact hcols j' (by omega))
      obtain ⟨hlen, hrows, hcols⟩ := hin
      refine ⟨by rw [hlen, Nat.zero_add, Nat.succ_mul], fun i' j hi' hj => ?_⟩
      by_cases hi : i' = i
      · rw [hi]; exact hcols j (by omega)
      · exact hrows i' j (by omega) hj)
  simp only [Nat.zero_add] at hmain
  exact hmain

/-- Position `j * n + i` with `i < n` determines `i` and `j`. -/
theorem timeMajor_inj {n i j i' j' : Nat} (hi : i < n) (hi' : i' < n)
    (h : j * n + i = j' * n + i') : i = i' ∧ j = j' := by
  have h1 : (j * n + i) % n = i := by
    rw [Nat.add_comm, Nat.add_mul_mod_self_right, Nat.mod_eq_of_lt hi]
  have h2 : (j' * n + i') % n = i' := by
    rw [Nat.add_comm, Nat.add_mul_mod_self_right, Nat.mod_eq_of_lt hi']
  have hii : i = i' := by rw [← h1, ← h2, h]
  subst hii
  have hn : 0 < n := by omega
  exact ⟨rfl, Nat.eq_of_mul_eq_mul_right hn (by omega)⟩

/-- Lines 64-74: after the reordering loops the value read at counter `i * T + j` sits at
position `j * nCurrentItems + i`. -/
theorem reorderData_spec {R : Type} [LinearOrderedField R] (nTimePoints nCurrentItems : Nat)
    (extractedData : List R) (hlen : extractedData.length = nCurrentItems * nTimePoints) :
    (reorderData nTimePoints nCurrentItems extractedData).length =
      nCurrentItems * nTimePoints ∧
    ∀ i j, i < nCurrentItems → j < nTimePoints →
      (reorderData nTimePoints nCurrentItems extractedData)[j * nCurrentItems + i]? =
        some (extractedData.getD (i * nTimePoints + j) 0) := by
  have hpos : ∀ i j, i < nCurrentItems → j < nTimePoints →
      j * nCurrentItems + i < nCurrentItems * nTimePoints := by
    intro i j hi hj
    have := Nat.mul_le_mul_right nCurrentItems (Nat.succ_le_of_lt hj)
    rw [Nat.succ_mul, Nat.mul_comm nTimePoints nCurrentItems] at this
    omega
  have hmain := forLoop_induct
    (fun i (s : List R × Nat) => s.2 = i * nTimePoints ∧
      s.1.length = nCurrentItems * nTimePoints ∧
      ∀ i' j, i' < i → j < nTimePoints →
        s.1[j * nCurrentItems + i']? = some (extractedData.getD (i' * nTimePoints + j) 0))
    (fun i => forLoop (fun j (s : List R × Nat) =>
      (s.1.set (j * nCurrentItems + i) (extractedData.getD s.2 0), s.2 + 1)) 0 nTimePoints)
    0 nCurrentItems (extractedData, 0)
    ⟨by simp, hlen, fun i' j h _ => absurd h (Nat.not_lt_zero _)⟩
    (fun i s _ hiN hs => by
      have hiN2 : i < nCurrentItems := by omega
      have hin := forLoop_induct
        (fun j (x : List R × Nat) => x.2 = i * nTimePoints + j ∧
          x.1.length = nCurrentItems * nTimePoints ∧
          (∀ i' j', i' < i → j' < nTimePoints →
            x.1[j' * nCurrentItems + i']? =
              some (extractedData.getD (i' * nTimePoints + j') 0)) ∧
          ∀ j', j' < j →
            x.1[j' * nCurrentItems + i]? =
              some (extractedData.getD (i * nTimePoints + j') 0))
        (fun j (s : List R × Nat) =>
          (s.1.set (j * nCurrentItems + i) (extractedData.getD s.2 0), s.2 + 1))
        0 nTimePoints s
        ⟨by simpa using hs.1, hs.2.1, hs.2.2, fun j' h => absurd h (Nat.not_lt_zero _)⟩
        (fun j x _ hjT hx => by
          obtain ⟨hc, hl, hrows, hcols⟩ := hx
          have hjT2 : j < nTimePoints := by omega
          refine ⟨?_, ?_, fun i' j' hi' hj' => ?_, fun j' hj' => ?_⟩
          · show x.2 + 1 = _
            omega
          · show (x.1.set _ _).length = _
            rw [List.length_set]
            exact hl
          · show (x.1.set _ _)[j' * nCurrentItems + i']? = _
            have hne : j * nCurrentItems + i ≠ j' * nCurrentItems + i' := by
              intro e
              have := (timeMajor_inj hiN2 (by omega) e).1
              omega
            rw [List.getElem?_set_ne hne]
            exact hrows i' j' hi' hj'
          · show (x.1.set _ _)[j' * nCurrentItems + i]? = _
            by_cases hj : j' = j
            · rw [hj, List.getElem?_set_self (by rw [hl]; exact hpos i j hiN2 hjT2), hc]
            · have hne : j * nCurrentItems + i ≠ j' * nCurrentItems + i := by
                intro e
                have := (timeMajor_inj hiN2 hiN2 e).2
                omega
              rw [List.getElem?_set_ne hne]
              exact hcols j' (by omega))
      obtain ⟨hc, hl, hrows, hcols⟩ := hin
      refine ⟨by rw [hc, Nat.zero_add, Nat.succ_mul], hl, fun i' j hi' hj => ?_⟩
      by_cases hi : i' = i
      · rw [hi]; exact hcols j (by omega)
      · exact hrows i' j (by omega) hj)
  simp only [Nat.zero_add] at hmain
  exact ⟨hmain.2.1, hmain.2.2⟩

/-- C14 (time-major reordering).  For a cluster whose item indices are valid (each row
of `data` it names exists and has at least `nTimePoints` values), the vector `yValues` of
`SingleClusterLogEvidence` has `M * T` entries, and for every `i < M`, `j < T` the entry at
`j * M + i` is `data[itemIndex[i]][j]`, the entry that the item-major extraction holds at
`i * T + j`. -/
theorem time_major_reordering {R : Type} [LinearOrderedField R] (ds : TimecourseDataSet R)
    (itemIndex : List Nat)
    (hvalid : ∀ idx, idx ∈ itemIndex →
      ∃ row, ds.data[idx]? = some row ∧ ds.nTimePoints ≤ row.length) :
    (reorderData ds.nTimePoints itemIndex.length (extractData ds itemIndex)).length =
      itemIndex.length * ds.nTimePoints ∧
    ∀ i j, i < itemIndex.length → j < ds.nTimePoints →
      ∃ idx row d, itemIndex[i]? = some idx ∧ ds.data[idx]? = some row ∧ row[j]? = some d ∧
        (extractData ds itemIndex)[i * ds.nTimePoints + j]? = some d ∧
        (reorderData ds.nTimePoints itemIndex.length (extractData ds itemIndex))[
          j * itemIndex.length + i]? = some d := by
  obtain ⟨hlen, hE⟩ := extractData_spec ds itemIndex
  obtain ⟨hlen2, hY⟩ := reorderData_spec ds.nTimePoints itemIndex.length
    (extractData ds itemIndex) hlen
  refine ⟨hlen2, fun i j hi hj => ?_⟩
  obtain ⟨row, hrow, hrl⟩ := hvalid itemIndex[i] (List.getElem_mem hi)
  have hidx : itemIndex.getD i 0 = itemIndex[i] := List.getD_eq_getElem _ _ hi
  have hd : (ds.data.getD (itemIndex.getD i 0) []).getD j 0 = row[j] := by
    have h1 : ds.data.getD itemIndex[i] [] = row := by
      rw [List.getD_eq_getElem?_getD, hrow, Option.getD_some]
    rw [hidx, h1, List.getD_eq_getElem _ _ (show j < row.length by omega)]
  have hEij := hE i j hi hj
  rw [hd] at hEij
  refine ⟨itemIndex[i], row, row[j], List.getElem?_eq_getElem hi, hrow,
    List.getElem?_eq_getElem (by omega), hEij, ?_⟩
  rw [hY i j hi hj, List.getD_eq_getElem?_getD, hEij, Option.getD_some]

/-- Witness for C14: two items with two time points over the rationals, taken in the
order `1, 0`. -/
theorem time_major_reordering_witness :
    (reorderData 2 [1, 0].length
      (extractData
        ({ data := [[1, 2], [3, 4]], nTimePoints := 2, noise_mode := 0, dataRange := 1 } :
          TimecourseDataSet ℚ) [1, 0])).length = [1, 0].length * 2 ∧
    ∀ i j, i < [1, 0].length → j < 2 →
      ∃ idx row d, [1, 0][i]? = some idx ∧
        ([[1, 2], [3, 4]] : List (List ℚ))[idx]? = some row ∧ row[j]? = some d ∧
        (extractData
          ({ data := [[1, 2], [3, 4]], nTimePoints := 2, noise_mode := 0, dataRange := 1 } :
            TimecourseDataSet ℚ) [1, 0])[i * 2 + j]? = some d ∧
        (reorderData 2 [1, 0].length
          (extractData
            ({ data := [[1, 2], [3, 4]], nTimePoints := 2, noise_mode := 0, dataRange := 1 } :
              TimecourseDataSet ℚ) [1, 0]))[j * [1, 0].length + i]? = some d :=
  time_major_reordering
    ({ data := [[1, 2], [3, 4]], nTimePoints := 2, noise_mode := 0, dataRange := 1 } :
      TimecourseDataSet ℚ) [1, 0]
    (fun idx h => by
      have h2 : idx = 1 ∨ idx = 0 := by simpa using h
      rcases h2 with e | e <;> subst e
      · exact ⟨[3, 4], rfl, by decide⟩
      · exact ⟨[1, 2], rfl, by decide⟩)

/-! ## The leave-one-out vectors -/

theorem foldl_rowTrace {σ : Type} (f : σ → Nat × Nat → σ) (k n : Nat)
    (acc : List (Nat × Nat)) (s : σ) :
    List.foldl f s (forLoop (fun i (a : List (Nat × Nat)) => a ++ [(k, i)]) 0 n acc) =
      forLoop (fun i x => f x (k, i)) 0 n (List.foldl f s acc) := by
  induction n with
  | zero => rfl
  | succ n ih =>
    rw [forLoop_succ_last, forLoop_succ_last, List.foldl_append, ih]
    rfl

theorem foldl_visited {σ : Type} (f : σ → Nat × Nat → σ) (n nItems : Nat)
    (acc : List (Nat × Nat)) (s : σ) :
    List.foldl f s
        (forLoop (fun k => forLoop (fun i (a : List (Nat × Nat)) => a ++ [(k, i)]) 0 nItems)
          0 n acc) =
      forLoop (fun k => forLoop (fun i x => f x (k, i)) 0 nItems) 0 n (List.foldl f s acc) := by
  induction n with
  | zero => rfl
  | succ n ih =>
    rw [forLoop_succ_last, forLoop_succ_last, foldl_rowTrace, ih]

/-- The nested loops over `k < nTimePoints`, `i < nCurrentItems` run their body once for
each pair of `visitedPairs`, in that order. -/
theorem nestedLoop_visited {σ : Type} (body : Nat → Nat → σ → σ) (nTimePoints nItems : Nat)
    (s : σ) :
    forLoop (fun k => forLoop (body k) 0 nItems) 0 nTimePoints s =
      List.foldl (fun x p => body p.1 p.2 x) s (visitedPairs nTimePoints nItems) := by
  unfold visitedPairs
  rw [foldl_visited]
  rfl

/-- The visited pairs are exactly the pairs `k < nTimePoints`, `i < nCurrentItems`, each
once. -/
theorem visitedPairs_spec (nTimePoints nItems : Nat) :
    (visitedPairs nTimePoints nItems).Nodup ∧
    ∀ p : Nat × Nat, p ∈ visitedPairs nTimePoints nItems ↔ p.1 < nTimePoints ∧ p.2 < nItems := by
  have hmain := forLoop_induct
    (fun k (acc : List (Nat × Nat)) => acc.Nodup ∧
      ∀ p : Nat × Nat, p ∈ acc ↔ p.1 < k ∧ p.2 < nItems)
    (fun k => forLoop (fun i (visited : List (Nat × Nat)) => visited ++ [(k, i)]) 0 nItems)
    0 nTimePoints []
    ⟨List.nodup_nil, fun p => by simp⟩
    (fun k acc _ _ hacc => by
      have hin := forLoop_induct
        (fun i (x : List (Nat × Nat)) => x.Nodup ∧
          ∀ p : Nat × Nat, p ∈ x ↔ (p.1 < k ∧ p.2 < nItems) ∨ (p.1 = k ∧ p.2 < i))
        (fun i (visited : List (Nat × Nat)) => visited ++ [(k, i)]) 0 nItems acc
        ⟨hacc.1, fun p => by rw [hacc.2 p]; simp⟩
        (fun i x _ hi hx => by
          obtain ⟨hnd, hmem⟩ := hx
          have hnot : (k, i) ∉ x := by
            rw [hmem]
            simp
          refine ⟨?_, fun p => ?_⟩
          · show (x ++ [(k, i)]).Nodup
            rw [List.nodup_append]
            refine ⟨hnd, List.nodup_singleton _, ?_⟩
            intro a ha hb
            rw [List.mem_singleton] at hb
            exact hnot (hb ▸ ha)
          · show p ∈ x ++ [(k, i)] ↔ _
            rw [List.mem_append, hmem, List.mem_singleton]
            constructor
            · rintro (h | h)
              · rcases h with h | h
                · exact Or.inl h
                · exact Or.inr ⟨h.1, by omega⟩
              · rw [h]; exact Or.inr ⟨rfl, by simp⟩
            · rintro (h | ⟨h1, h2⟩)
              · exact Or.inl (Or.inl h)
              · by_cases e : p.2 = i
                · exact Or.inr (Prod.ext h1 e)
                · exact Or.inl (Or.inr ⟨h1, by omega⟩))
      obtain ⟨hnd, hmem⟩ := hin
      refine ⟨hnd, fun p => ?_⟩
      rw [hmem]
      simp only [Nat.zero_add]
      constructor
      · rintro (h | h)
        · exact ⟨by omega, h.2⟩
        · exact ⟨by omega, h.2⟩
      · rintro ⟨h1, h2⟩
        by_cases e : p.1 = k
        · exact Or.inr ⟨e, h2⟩
        · exact Or.inl ⟨by omega, h2⟩)
  simp only [Nat.zero_add] at hmain
  exact hmain

/-- Lines 129-131 and 140-141: the vector left after block `k` is moved to the front and
its entry `i` erased. -/
theorem leaveOneOut_eq {R : Type} (y : List R) (nItems nTimePoints k i : Nat)
    (hlen : y.length = nItems * nTimePoints) (hk : k < nTimePoints) (hi : i < nItems) :
    (blockToFront y nItems k).eraseIdx i =
      ((y.drop (k * nItems)).take nItems).eraseIdx i ++
        (y.take (k * nItems) ++ y.drop (k * nItems + nItems)) ∧
    ((blockToFront y nItems k).eraseIdx i).length = nItems * nTimePoints - 1 ∧
    ((blockToFront y nItems k).eraseIdx i).Perm (y.eraseIdx (k * nItems + i)) := by
  have hkM : k * nItems + nItems ≤ nItems * nTimePoints := by
    have := Nat.mul_le_mul_right nItems (Nat.succ_le_of_lt hk)
    rw [Nat.succ_mul, Nat.mul_comm nTimePoints nItems] at this
    exact this
  have hB : ((y.drop (k * nItems)).take nItems).length = nItems := by
    rw [List.length_take, List.length_drop, hlen]
    omega
  have hA : (y.take (k * nItems)).length = k * nItems := by
    rw [List.length_take, hlen]
    omega
  have e1 : (blockToFront y nItems k).eraseIdx i =
      ((y.drop (k * nItems)).take nItems).eraseIdx i ++
        (y.take (k * nItems) ++ y.drop (k * nItems + nItems)) := by
    unfold blockToFront
    exact List.eraseIdx_append_of_lt_length (by rw [hB]; exact hi) _
  have hy : y = y.take (k * nItems) ++
      ((y.drop (k * nItems)).take nItems ++ y.drop (k * nItems + nItems)) := by
    have h1 := (List.take_append_drop (k * nItems) y).symm
    have h2 := (List.take_append_drop nItems (y.drop (k * nItems))).symm
    rw [List.drop_drop] at h2
    rw [← h2]
    exact h1
  have e2 : y.eraseIdx (k * nItems + i) =
      y.take (k * nItems) ++
        (((y.drop (k * nItems)).take nItems).eraseIdx i ++ y.drop (k * nItems + nItems)) := by
    conv_lhs => rw [hy]
    rw [List.eraseIdx_append_of_length_le (by rw [hA]; omega), hA,
      Nat.add_sub_cancel_left, List.eraseIdx_append_of_lt_length (by rw [hB]; exact hi)]
  refine ⟨e1, ?_, ?_⟩
  · rw [e1, List.length_append, List.length_append, List.length_eraseIdx, hB, if_pos hi, hA,
      List.length_drop, hlen]
    omega
  · rw [e1, e2, ← List.append_assoc, ← List.append_assoc]
    exact List.Perm.append_right _ List.perm_append_comm

/-- C15 (leave-one-out vector).  For `yValues` of `M * T` entries, `k < T` and `i < M`, the
vector that `ComputeRobustLogEvidence` passes to the missing-observation evidence for the
pair `(k, i)` has `M * T - 1` entries and is block `k` of `yValues` without its entry `i`,
followed by the blocks before `k` and the blocks after `k` in their order; it is a
rearrangement of `yValues` without the entry at `k * M + i`.  The two loops run their body
once for each pair `(k, i)` with `k < T`, `i < M`. -/
theorem leave_one_out_vector {R : Type} [LinearOrderedField R] (ext : TCExternals R M)
    (ds : TimecourseDataSet R) (yValues : List R) (nCurrentItems : Nat)
    (lengthScale noiseFreeScale noiseSigma : R) (k i : Nat)
    (hlen : yValues.length = nCurrentItems * ds.nTimePoints)
    (hk : k < ds.nTimePoints) (hi : i < nCurrentItems) :
    partLogEvidence ext ds yValues nCurrentItems lengthScale noiseFreeScale noiseSigma k i =
      ext.ComputePartRobustLogEvidenceMissingSingleObservation
        (ext.ComputeMatrixMissingSingleObservationLogDeterminant
          (ext.CovarianceFunctionMissingSingleObservation
            (ext.AddNoiseToCovarianceFunction
              (ext.SquareExponentialCovarianceFunction lengthScale
                (yValues.length / ds.nTimePoints) noiseFreeScale) noiseSigma) k))
        (ext.InvertMatrixMissingSingleObservation
          (ext.CovarianceFunctionMissingSingleObservation
            (ext.AddNoiseToCovarianceFunction
              (ext.SquareExponentialCovarianceFunction lengthScale
                (yValues.length / ds.nTimePoints) noiseFreeScale) noiseSigma) k))
        (((yValues.drop (k * nCurrentItems)).take nCurrentItems).eraseIdx i ++
          (yValues.take (k * nCurrentItems) ++
            yValues.drop (k * nCurrentItems + nCurrentItems))) ∧
    ((blockToFront yValues nCurrentItems k).eraseIdx i).length =
      nCurrentItems * ds.nTimePoints - 1 ∧
    ((blockToFront yValues nCurrentItems k).eraseIdx i).Perm
      (yValues.eraseIdx (k * nCurrentItems + i)) ∧
    (visitedPairs ds.nTimePoints nCurrentItems).Nodup ∧
    (∀ p : Nat × Nat, p ∈ visitedPairs ds.nTimePoints nCurrentItems ↔
      p.1 < ds.nTimePoints ∧ p.2 < nCurrentItems) ∧
    ∀ (body : Nat → Nat → R × R → R × R) (s : R × R),
      forLoop (fun k => forLoop (body k) 0 nCurrentItems) 0 ds.nTimePoints s =
        List.foldl (fun x p => body p.1 p.2 x) s (visitedPairs ds.nTimePoints nCurrentItems) := by
  obtain ⟨e1, e2, e3⟩ := leaveOneOut_eq yValues nCurrentItems ds.nTimePoints k i hlen hk hi
  refine ⟨?_, e2, e3, (visitedPairs_spec _ _).1, (visitedPairs_spec _ _).2,
    fun body s => nestedLoop_visited body _ _ s⟩
  unfold partLogEvidence
  simp only
  rw [e1]

/-- Witness for C15: two time points with two replicates over the rationals, leaving out
replicate 0 of time point 1. -/
theorem leave_one_out_vector_witness :
    partLogEvidence (mkTCExt (fun x : ℚ => x) (fun x => x))
        { data := [], nTimePoints := 2, noise_mode := 0, dataRange := 1 } [1, 2, 3, 4] 2
        0 0 0 1 0 =
      (mkTCExt (fun x : ℚ => x) (fun x => x)).ComputePartRobustLogEvidenceMissingSingleObservation
        0 ()
        (((([1, 2, 3, 4] : List ℚ).drop (1 * 2)).take 2).eraseIdx 0 ++
          (([1, 2, 3, 4] : List ℚ).take (1 * 2) ++ ([1, 2, 3, 4] : List ℚ).drop (1 * 2 + 2))) ∧
    ((blockToFront ([1, 2, 3, 4] : List ℚ) 2 1).eraseIdx 0).length = 2 * 2 - 1 ∧
    ((blockToFront ([1, 2, 3, 4] : List ℚ) 2 1).eraseIdx 0).Perm
      (([1, 2, 3, 4] : List ℚ).eraseIdx (1 * 2 + 0)) ∧
    (visitedPairs 2 2).Nodup ∧
    (∀ p : Nat × Nat, p ∈ visitedPairs 2 2 ↔ p.1 < 2 ∧ p.2 < 2) ∧
    ∀ (body : Nat → Nat → ℚ × ℚ → ℚ × ℚ) (s : ℚ × ℚ),
      forLoop (fun k => forLoop (body k) 0 2) 0 2 s =
        List.foldl (fun x p => body p.1 p.2 x) s (visitedPairs 2 2) :=
  leave_one_out_vector (mkTCExt (fun x : ℚ => x) (fun x => x))
    { data := [], nTimePoints := 2, noise_mode := 0, dataRange := 1 } [1, 2, 3, 4] 2
    0 0 0 1 0 rfl (by decide) (by decide)

/-! ## The leave-one-out aggregate -/

/-- Lines 127-154: with at least one time point and one item, the loops leave the first
term in `CF1` and in `st` the sum of `exp(lpst - CF1)` over all pairs. -/
theorem missingLoop_spec {R : Type} [LinearOrderedField R] (ex : R → R)
    (lf : Nat → Nat → R) (nTimePoints nItems : Nat) (hT : 1 ≤ nTimePoints)
    (hM : 1 ≤ nItems) :
    forLoop (fun k => forLoop (fun i (s : R × R) =>
        ((if k = 0 ∧ i = 0 then lf k i else s.1),
          s.2 + ex (lf k i - (if k = 0 ∧ i = 0 then lf k i else s.1))))
      0 nItems) 0 nTimePoints ((0 : R), (0 : R)) =
    (lf 0 0, ∑ k in Finset.range nTimePoints, ∑ i in Finset.range nItems,
      ex (lf k i - lf 0 0)) := by
  have hmain := forLoop_induct
    (fun k (s : R × R) => (k = 0 ∨ s.1 = lf 0 0) ∧
      s.2 = ∑ k' in Finset.range k, ∑ i in Finset.range nItems, ex (lf k' i - lf 0 0))
    (fun k => forLoop (fun i (s : R × R) =>
        ((if k = 0 ∧ i = 0 then lf k i else s.1),
          s.2 + ex (lf k i - (if k = 0 ∧ i = 0 then lf k i else s.1))))
      0 nItems) 0 nTimePoints ((0 : R), (0 : R))
    ⟨Or.inl rfl, by simp⟩
    (fun k s _ _ hs => by
      have hin := forLoop_induct
        (fun i (x : R × R) => ((k = 0 ∧ i = 0) ∨ x.1 = lf 0 0) ∧
          x.2 = (∑ k' in Finset.range k, ∑ i' in Finset.range nItems, ex (lf k' i' - lf 0 0)) +
            ∑ i' in Finset.range i, ex (lf k i' - lf 0 0))
        (fun i (s : R × R) =>
          ((if k = 0 ∧ i = 0 then lf k i else s.1),
            s.2 + ex (lf k i - (if k = 0 ∧ i = 0 then lf k i else s.1))))
        0 nItems s
        ⟨by rcases hs.1 with h | h
            · exact Or.inl ⟨h, rfl⟩
            · exact Or.inr h,
          by rw [hs.2]; simp⟩
        (fun i x _ _ hx => by
          obtain ⟨h1, h2⟩ := hx
          have hcf : (if k = 0 ∧ i = 0 then lf k i else x.1) = lf 0 0 := by
            by_cases h : k = 0 ∧ i = 0
            · rw [if_pos h, h.1, h.2]
            · rw [if_neg h]
              rcases h1 with h' | h'
              · exact absurd h' h
              · exact h'
          refine ⟨Or.inr hcf, ?_⟩
          show x.2 + ex (lf k i - (if k = 0 ∧ i = 0 then lf k i else x.1)) = _
          rw [hcf, h2, Finset.sum_range_succ, add_assoc])
      obtain ⟨h1, h2⟩ := hin
      simp only [Nat.zero_add] at h1 h2
      refine ⟨Or.inr ?_, ?_⟩
      · rcases h1 with h | h
        · omega
        · exact h
      · rw [h2, Finset.sum_range_succ])
  simp only [Nat.zero_add] at hmain
  obtain ⟨h1, h2⟩ := hmain
  have h1' : (forLoop (fun k => forLoop (fun i (s : R × R) =>
        ((if k = 0 ∧ i = 0 then lf k i else s.1),
          s.2 + ex (lf k i - (if k = 0 ∧ i = 0 then lf k i else s.1))))
      0 nItems) 0 nTimePoints ((0 : R), (0 : R))).1 = lf 0 0 := by
    rcases h1 with h | h
    · omega
    · exact h
  exact Prod.ext h1' h2

/-- C16 (leave-one-out aggregate).  In exact real arithmetic, with `dataRange > 0` and at
least one item and one time point, the term `lst` of `ComputeRobustLogEvidence` is
`CF + log(sum over (k,i) of exp(L_{k,i} - CF)) + log(1/dataRange)` for `CF = L_{0,0}`, and
equals `log(sum over (k,i) of exp(L_{k,i})) - log(dataRange)`, where `L_{k,i}` is the
evidence computed for the pair `(k, i)`. -/
theorem leave_one_out_aggregate (ext : TCExternals ℝ M) (hlog : ext.log = Real.log)
    (hexp : ext.exp = Real.exp) (ds : TimecourseDataSet ℝ) (yValues : List ℝ)
    (nCurrentItems : Nat) (lengthScale noiseFreeScale noiseSigma : ℝ)
    (hT : 1 ≤ ds.nTimePoints) (hM : 1 ≤ nCurrentItems) (hr : 0 < ds.dataRange) :
    missingLogEvidence ext ds yValues nCurrentItems lengthScale noiseFreeScale noiseSigma =
      partLogEvidence ext ds yValues nCurrentItems lengthScale noiseFreeScale noiseSigma 0 0 +
        Real.log (∑ k in Finset.range ds.nTimePoints, ∑ i in Finset.range nCurrentItems,
          Real.exp
            (partLogEvidence ext ds yValues nCurrentItems lengthScale noiseFreeScale
                noiseSigma k i -
              partLogEvidence ext ds yValues nCurrentItems lengthScale noiseFreeScale
                noiseSigma 0 0)) +
        Real.log (1 / ds.dataRange) ∧
    missingLogEvidence ext ds yValues nCurrentItems lengthScale noiseFreeScale noiseSigma =
      Real.log (∑ k in Finset.range ds.nTimePoints, ∑ i in Finset.range nCurrentItems,
          Real.exp (partLogEvidence ext ds yValues nCurrentItems lengthScale noiseFreeScale
            noiseSigma k i)) -
        Real.log ds.dataRange := by
  have hloop := missingLoop_spec ext.exp
    (partLogEvidence ext ds yValues nCurrentItems lengthScale noiseFreeScale noiseSigma)
    ds.nTimePoints nCurrentItems hT hM
  have h1 : missingLogEvidence ext ds yValues nCurrentItems lengthScale noiseFreeScale
      noiseSigma =
      partLogEvidence ext ds yValues nCurrentItems lengthScale noiseFreeScale noiseSigma 0 0 +
        Real.log (∑ k in Finset.range ds.nTimePoints, ∑ i in Finset.range nCurrentItems,
          Real.exp
            (partLogEvidence ext ds yValues nCurrentItems lengthScale noiseFreeScale
                noiseSigma k i -
              partLogEvidence ext ds yValues nCurrentItems lengthScale noiseFreeScale
                noiseSigma 0 0)) +
        Real.log (1 / ds.dataRange) := by
    unfold missingLogEvidence
    simp only
    rw [hloop, hlog, hexp]
    ring
  refine ⟨h1, ?_⟩
  rw [h1]
  have hsum : (∑ k in Finset.range ds.nTimePoints, ∑ i in Finset.range nCurrentItems,
      Real.exp
        (partLogEvidence ext ds yValues nCurrentItems lengthScale noiseFreeScale
            noiseSigma k i -
          partLogEvidence ext ds yValues nCurrentItems lengthScale noiseFreeScale
            noiseSigma 0 0)) =
      (∑ k in Finset.range ds.nTimePoints, ∑ i in Finset.range nCurrentItems,
        Real.exp (partLogEvidence ext ds yValues nCurrentItems lengthScale noiseFreeScale
          noiseSigma k i)) *
        Real.exp (-partLogEvidence ext ds yValues nCurrentItems lengthScale noiseFreeScale
          noiseSigma 0 0) := by
    rw [Finset.sum_mul]
    refine Finset.sum_congr rfl (fun k _ => ?_)
    rw [Finset.sum_mul]
    refine Finset.sum_congr rfl (fun i _ => ?_)
    rw [sub_eq_add_neg, Real.exp_add]
  have hpos : 0 < ∑ k in Finset.range ds.nTimePoints, ∑ i in Finset.range nCurrentItems,
      Real.exp (partLogEvidence ext ds yValues nCurrentItems lengthScale noiseFreeScale
        noiseSigma k i) :=
    Finset.sum_pos
      (fun k _ => Finset.sum_pos (fun i _ => Real.exp_pos _)
        (Finset.nonempty_range_iff.2 (by omega)))
      (Finset.nonempty_range_iff.2 (by omega))
  rw [hsum, Real.log_mul (ne_of_gt hpos) (ne_of_gt (Real.exp_pos _)), Real.log_exp,
    Real.log_div one_ne_zero (ne_of_gt hr), Real.log_one]
  ring

/-- Witness for C16: one item with one time point, range 1, every evidence 0. -/
theorem leave_one_out_aggregate_witness :
    missingLogEvidence (mkTCExt Real.log Real.exp) (demoDataSet 0) [0] 1 1 1 1 =
      partLogEvidence (mkTCExt Real.log Real.exp) (demoDataSet 0) [0] 1 1 1 1 0 0 +
        Real.log (∑ k in Finset.range (demoDataSet 0 : TimecourseDataSet ℝ).nTimePoints,
          ∑ i in Finset.range 1,
            Real.exp
              (partLogEvidence (mkTCExt Real.log Real.exp) (demoDataSet 0) [0] 1 1 1 1 k i -
                partLogEvidence (mkTCExt Real.log Real.exp) (demoDataSet 0) [0] 1 1 1 1 0 0)) +
        Real.log (1 / (demoDataSet 0 : TimecourseDataSet ℝ).dataRange) ∧
    missingLogEvidence (mkTCExt Real.log Real.exp) (demoDataSet 0) [0] 1 1 1 1 =
      Real.log (∑ k in Finset.range (demoDataSet 0 : TimecourseDataSet ℝ).nTimePoints,
          ∑ i in Finset.range 1,
            Real.exp
              (partLogEvidence (mkTCExt Real.log Real.exp) (demoDataSet 0) [0] 1 1 1 1 k i)) -
        Real.log (demoDataSet 0 : TimecourseDataSet ℝ).dataRange :=
  leave_one_out_aggregate (mkTCExt Real.log Real.exp) rfl rfl (demoDataSet 0) [0] 1 1 1 1
    (le_refl 1) (le_refl 1) one_pos

/-! ## When the outlier component is fitted -/

/-- The fitted weight of lines 170-173 lies strictly between 0 and 1 exactly when
`C2 > n * C1`, for `n >= 2` and `C2 > 0`. -/
theorem fitted_weight_iff (n : Nat) (hn : 2 ≤ n) (c1 c2 : ℝ) (h2 : 0 < c2) :
    (0 < (((n : Int) - 1 : Int) : ℝ) * c2 / ((n : ℝ) * (c2 - c1)) ∧
      (((n : Int) - 1 : Int) : ℝ) * c2 / ((n : ℝ) * (c2 - c1)) < 1) ↔ (n : ℝ) * c1 < c2 := by
  have hn2 : (2 : ℝ) ≤ (n : ℝ) := by exact_mod_cast hn
  have hcast : (((n : Int) - 1 : Int) : ℝ) = (n : ℝ) - 1 := by push_cast; ring
  rw [hcast]
  have hnum : 0 < ((n : ℝ) - 1) * c2 := mul_pos (by linarith) h2
  constructor
  · rintro ⟨hpos, hlt⟩
    have hden : 0 < (n : ℝ) * (c2 - c1) := by
      by_contra hcon
      have hle : (n : ℝ) * (c2 - c1) ≤ 0 := not_lt.1 hcon
      have := div_nonpos_of_nonneg_of_nonpos hnum.le hle
      linarith
    rw [div_lt_one hden] at hlt
    linarith
  · intro h
    have hden : 0 < (n : ℝ) * (c2 - c1) := by
      have : c1 < c2 := by nlinarith
      exact mul_pos (by linarith) (by linarith)
    refine ⟨div_pos hnum hden, ?_⟩
    rw [div_lt_one hden]
    linarith

/-- C20 (outlier threshold).  In exact real arithmetic, with `n = M * T >= 2`,
`C1 = exp(L_full)` and `C2 = exp(L_miss)`: the fitted weight
`a = ((n-1) * C2) / (n * (C2 - C1))` lies strictly between 0 and 1 exactly when
`C2 > n * C1`; in that case `a` is the stored mixture component and the value returned is
the log-sum of lines 187-191, which contains the outlier term; in every other case the
stored component is 1 and the value returned is `L_full`. -/
theorem outlier_threshold (ext : TCExternals ℝ M) (hlog : ext.log = Real.log)
    (hexp : ext.exp = Real.exp) (ds : TimecourseDataSet ℝ) (yValues : List ℝ)
    (nCurrentItems : Nat) (lengthScale noiseFreeScale noiseSigma : ℝ)
    (hn : 2 ≤ nCurrentItems * ds.nTimePoints) (lft lst a : ℝ)
    (hlft : lft = fullLogEvidence ext ds yValues lengthScale noiseFreeScale noiseSigma)
    (hlst : lst = missingLogEvidence ext ds yValues nCurrentItems lengthScale noiseFreeScale
      noiseSigma)
    (ha : a = (((nCurrentItems * ds.nTimePoints : Nat) : Int) - 1 : Int) * Real.exp lst /
      ((nCurrentItems : ℝ) * (ds.nTimePoints : ℝ) * (Real.exp lst - Real.exp lft))) :
    ((0 < a ∧ a < 1) ↔
      ((nCurrentItems * ds.nTimePoints : Nat) : ℝ) * Real.exp lft < Real.exp lst) ∧
    (((nCurrentItems * ds.nTimePoints : Nat) : ℝ) * Real.exp lft < Real.exp lst →
      ComputeRobustLogEvidence ext ds yValues nCurrentItems lengthScale noiseFreeScale
        noiseSigma =
      (Real.log
          (Real.exp
              ((((nCurrentItems * ds.nTimePoints : Nat) : ℝ) * Real.log a + lft) -
                (((nCurrentItems * ds.nTimePoints : Nat) : ℝ) * Real.log a + lft)) +
            Real.exp
              ((((((nCurrentItems * ds.nTimePoints : Nat) : Int) - 1 : Int) : ℝ) * Real.log a +
                  Real.log (1 - a) + lst) -
                (((nCurrentItems * ds.nTimePoints : Nat) : ℝ) * Real.log a + lft))) +
          (((nCurrentItems * ds.nTimePoints : Nat) : ℝ) * Real.log a + lft), a)) ∧
    (¬ ((nCurrentItems * ds.nTimePoints : Nat) : ℝ) * Real.exp lft < Real.exp lst →
      ComputeRobustLogEvidence ext ds yValues nCurrentItems lengthScale noiseFreeScale
        noiseSigma = (lft, 1)) := by
  have hiff := fitted_weight_iff (nCurrentItems * ds.nTimePoints) hn (Real.exp lft)
    (Real.exp lst) (Real.exp_pos _)
  have ha2 : a = ((((nCurrentItems * ds.nTimePoints : Nat) : Int) - 1 : Int) : ℝ) *
      Real.exp lst /
      (((nCurrentItems * ds.nTimePoints : Nat) : ℝ) * (Real.exp lst - Real.exp lft)) := by
    rw [ha]; push_cast; ring_nf
  rw [← ha2] at hiff
  have hfit : mixtureFit ext nCurrentItems ds.nTimePoints lft lst =
      if 0 < a ∧ a < 1 then a else 1 := by
    unfold mixtureFit
    simp only [hexp]
    rw [← ha]
  refine ⟨hiff, fun h => ?_, fun h => ?_⟩
  · have hin := hiff.2 h
    unfold ComputeRobustLogEvidence
    simp only
    rw [← hlft, ← hlst, hfit, if_pos hin]
    unfold overallLogEvidence
    simp only
    rw [if_pos hin, hlog, hexp]
  · have hout : ¬ (0 < a ∧ a < 1) := fun hc => h (hiff.1 hc)
    unfold ComputeRobustLogEvidence
    simp only
    rw [← hlft, ← hlst, hfit, if_neg hout]
    unfold overallLogEvidence
    simp only
    rw [if_neg (by norm_num), hlog, Real.log_one, mul_zero, zero_add]

/-- Witness for C20: one item with two time points, every evidence 0 and range 1/4, so that
`C1 = 1`, `C2 = 8 > 2 * C1` and the fitted weight is `a = 4/7`; the outlier term enters. -/
theorem outlier_threshold_witness :
    2 ≤ 1 * (outlierDataSet : TimecourseDataSet ℝ).nTimePoints ∧
    (0 : ℝ) = fullLogEvidence (mkTCExt Real.log Real.exp) outlierDataSet [0, 0] 1 1 1 ∧
    Real.log 8 = missingLogEvidence (mkTCExt Real.log Real.exp) outlierDataSet [0, 0] 1 1 1 1 ∧
    (4 / 7 : ℝ) =
      (((1 * (outlierDataSet : TimecourseDataSet ℝ).nTimePoints : Nat) : Int) - 1 : Int) *
        Real.exp (Real.log 8) /
      (((1 : Nat) : ℝ) * ((outlierDataSet : TimecourseDataSet ℝ).nTimePoints : ℝ) *
        (Real.exp (Real.log 8) - Real.exp 0)) ∧
    ((0 : ℝ) < 4 / 7 ∧ (4 / 7 : ℝ) < 1) ∧
    ((1 * (outlierDataSet : TimecourseDataSet ℝ).nTimePoints : Nat) : ℝ) * Real.exp 0 <
      Real.exp (Real.log 8) ∧
    ComputeRobustLogEvidence (mkTCExt Real.log Real.exp) outlierDataSet [0, 0] 1 1 1 1 =
      (Real.log
          (Real.exp
              ((((1 * (outlierDataSet : TimecourseDataSet ℝ).nTimePoints : Nat) : ℝ) *
                  Real.log (4 / 7) + 0) -
                (((1 * (outlierDataSet : TimecourseDataSet ℝ).nTimePoints : Nat) : ℝ) *
                  Real.log (4 / 7) + 0)) +
            Real.exp
              ((((((1 * (outlierDataSet : TimecourseDataSet ℝ).nTimePoints : Nat) : Int) - 1 :
                    Int) : ℝ) * Real.log (4 / 7) + Real.log (1 - 4 / 7) + Real.log 8) -
                (((1 * (outlierDataSet : TimecourseDataSet ℝ).nTimePoints : Nat) : ℝ) *
                  Real.log (4 / 7) + 0))) +
          (((1 * (outlierDataSet : TimecourseDataSet ℝ).nTimePoints : Nat) : ℝ) *
            Real.log (4 / 7) + 0), 4 / 7) := by
  have e8 : Real.exp (Real.log 8) = 8 := Real.exp_log (by norm_num)
  have hn : 2 ≤ 1 * (outlierDataSet : TimecourseDataSet ℝ).nTimePoints := by decide
  have hlft := outlierDataSet_terms.1.symm
  have hlst := outlierDataSet_terms.2.symm
  have ha : (4 / 7 : ℝ) =
      (((1 * (outlierDataSet : TimecourseDataSet ℝ).nTimePoints : Nat) : Int) - 1 : Int) *
        Real.exp (Real.log 8) /
      (((1 : Nat) : ℝ) * ((outlierDataSet : TimecourseDataSet ℝ).nTimePoints : ℝ) *
        (Real.exp (Real.log 8) - Real.exp 0)) := by
    rw [e8, Real.exp_zero]
    simp only [outlierDataSet]
    norm_num
  have hprem : ((1 * (outlierDataSet : TimecourseDataSet ℝ).nTimePoints : Nat) : ℝ) *
      Real.exp 0 < Real.exp (Real.log 8) := by
    rw [e8, Real.exp_zero]
    simp only [outlierDataSet]
    norm_num
  have h := outlier_threshold (mkTCExt Real.log Real.exp) rfl rfl outlierDataSet [0, 0] 1
    1 1 1 hn 0 (Real.log 8) (4 / 7) hlft hlst ha
  exact ⟨hn, hlft, hlst, ha, h.1.2 hprem, hprem, h.2.1 hprem⟩

end TimeCourseLemmas

end BHC
